import Mathlib

/-! diskhash-analyze: record store, in-place quicksort and duplicate aggregation.

Shallow embedding of `src/diskhash-analyze.c`.

* Memory blocks are lists of bytes (`List Nat`); a pointer into a block is a byte offset.
* `size_t` arithmetic is `Nat` arithmetic modulo `2^64`, `unsigned int` arithmetic is
  modulo `2^32`.
* Every access outside an allocated block, and every record access with an index that is not
  below `num_elements`, is a `Fault`; loops whose termination is not evident from the loop
  header take a fuel argument and report `Fault.fuel` when it runs out.
-/

namespace DiskHash

/-- Ways in which a run of the embedded program can fail to produce a result. -/
inductive Fault where
  /-- a record index that is not below `num_elements` was dereferenced -/
  | index
  /-- bytes outside an allocated block were read or written -/
  | bounds
  /-- the step budget of the model ran out -/
  | fuel
  deriving DecidableEq, Repr

deriving instance DecidableEq for Except

/-- Modulus of `size_t` arithmetic. -/
def SIZE_MOD : Nat := 2 ^ 64

/-- Modulus of `unsigned int` arithmetic. -/
def UINT_MOD : Nat := 2 ^ 32

/-- Read `n` bytes at offset `off` of a block. -/
def readBytes (mem : List Nat) (off n : Nat) : Except Fault (List Nat) :=
  if off + n ≤ mem.length then .ok ((mem.drop off).take n) else .error Fault.bounds

/-- Overwrite the bytes of a block at offset `off` with `src`. -/
def writeBytes (mem : List Nat) (off : Nat) (src : List Nat) : Except Fault (List Nat) :=
  if off + src.length ≤ mem.length then
    .ok (mem.take off ++ src ++ mem.drop (off + src.length))
  else .error Fault.bounds

/-- The sign of `memcmp` on two byte strings of the same length: negative, zero or positive at
the first position where they differ, bytes compared as unsigned values. -/
def memcmp : List Nat → List Nat → Int
  | a :: as, b :: bs => if a < b then -1 else if b < a then 1 else memcmp as bs
  | _, _ => 0

/-- The fields of `class HashArray`: the record buffer, the number of records, the record
width, and the scratch block `temp`. -/
structure HashArray where
  buffer : List Nat
  num_elements : Nat
  hash_size : Nat
  temp : List Nat
  deriving DecidableEq, Repr

namespace HashArray

/-- The constructor: `temp = new unsigned char(hash_size)` allocates a single byte, initialised
to `hash_size` converted to `unsigned char`. -/
def new (buffer : List Nat) (num_elements hash_size : Nat) : HashArray :=
  { buffer := buffer, num_elements := num_elements, hash_size := hash_size,
    temp := [hash_size % 256] }

/-- The offset of record `i` in the buffer: `&buffer[i * hash_size]`, computed in `size_t`. -/
def hash_ptr (s : HashArray) (i : Nat) : Nat := (i * s.hash_size) % SIZE_MOD

/-- The `hash_size` bytes at `hash_ptr(i)`; dereferencing an index that is not below
`num_elements` is a fault. -/
def record_at (s : HashArray) (i : Nat) : Except Fault (List Nat) :=
  if i < s.num_elements then readBytes s.buffer (s.hash_ptr i) s.hash_size
  else .error Fault.index

/-- Overwrite the `hash_size` bytes at `hash_ptr(i)` with `src`. -/
def store_at (s : HashArray) (i : Nat) (src : List Nat) : Except Fault HashArray :=
  if i < s.num_elements then do
    let b ← writeBytes s.buffer (s.hash_ptr i) src
    pure { s with buffer := b }
  else .error Fault.index

/-- The three copies of `swap`: record `i` to `temp`, record `j` to record `i`, `temp` to
record `j`, each of `hash_size` bytes. -/
def swap (s : HashArray) (i j : Nat) : Except Fault HashArray := do
  let a ← s.record_at i
  let t ← writeBytes s.temp 0 a
  let s1 : HashArray := { s with temp := t }
  let b ← s1.record_at j
  let s2 ← s1.store_at i b
  let c ← readBytes s2.temp 0 s2.hash_size
  s2.store_at j c

/-- The comparison `memcmp(hash_ptr(i), hash_ptr(j), hash_size) < 0`. -/
def is_below (s : HashArray) (i j : Nat) : Except Fault Bool := do
  let a ← s.record_at i
  let b ← s.record_at j
  pure (decide (memcmp a b < 0))

/-- The loop of `partition`: `for(j = first; j <= last; j++)` with boundary `i`; the pivot is
the record at `last`. -/
def partition_loop (last : Nat) : Nat → HashArray → Nat → Nat → Except Fault (HashArray × Nat)
  | 0, _, _, _ => .error Fault.fuel
  | fuel + 1, s, i, j =>
    if j ≤ last then do
      let b ← s.is_below j last
      if b then do
        let s1 ← s.swap i j
        partition_loop last fuel s1 ((i + 1) % SIZE_MOD) ((j + 1) % SIZE_MOD)
      else
        partition_loop last fuel s i ((j + 1) % SIZE_MOD)
    else .ok (s, i)

/-- Lomuto partition of the range `first..last`, returning the store and the pivot index. -/
def partition (fuel : Nat) (s : HashArray) (first last : Nat) : Except Fault (HashArray × Nat) := do
  let r ← partition_loop last fuel s first first
  let s1 ← r.1.swap r.2 last
  pure (s1, r.2)

/-- Recursive quicksort of the range `first..last`. -/
def quicksort : Nat → HashArray → Nat → Nat → Except Fault HashArray
  | 0, _, _, _ => .error Fault.fuel
  | fuel + 1, s, first, last =>
    if first < last then do
      let r ← partition fuel s first last
      let s1 ← if r.2 ≠ 0 then quicksort fuel r.1 first (r.2 - 1) else pure r.1
      quicksort fuel s1 ((r.2 + 1) % SIZE_MOD) last
    else .ok s

/-- The entry point `sort`: `quicksort(0, num_elements - 1)`, the subtraction in `size_t`. -/
def sort (fuel : Nat) (s : HashArray) : Except Fault HashArray :=
  quicksort fuel s 0 ((s.num_elements + SIZE_MOD - 1) % SIZE_MOD)

/-- Record `k` of the buffer, as a pure view. -/
def record (s : HashArray) (k : Nat) : List Nat := (s.buffer.drop (k * s.hash_size)).take s.hash_size

/-- All records of the buffer, in index order. -/
def records (s : HashArray) : List (List Nat) := (List.range s.num_elements).map s.record

/-- Representation invariant of the record buffer: it holds exactly `num_elements` records of
`hash_size` bytes, and its size and the record count fit `size_t`. -/
def wf (s : HashArray) : Prop :=
  s.buffer.length = s.num_elements * s.hash_size ∧ s.buffer.length < SIZE_MOD ∧
    s.num_elements < SIZE_MOD

/-- The scratch block has room for one record. -/
def scratch_ok (s : HashArray) : Prop := s.hash_size ≤ s.temp.length

end HashArray


/-- The fields of `class HashCount`: the record width, the block of stored values (`none` is
`NULL`), the array of counts (one cell per `size_t`), the number of entries and the capacity. -/
structure HashCount where
  hash_size : Nat
  hashes : Option (List Nat)
  counts : Option (List Nat)
  num_items : Nat
  capacity : Nat
  deriving DecidableEq, Repr

/-- A `realloc` that succeeds: a block of `size` cells that keeps the old contents up to the
smaller of the two sizes; the cells it adds are filled with `0`. -/
def realloc (p : Option (List Nat)) (size : Nat) : List Nat :=
  match p with
  | none => List.replicate size 0
  | some old => old.take size ++ List.replicate (size - old.length) 0

namespace HashCount

/-- The constructor: an empty table without storage. -/
def new (hash_size : Nat) : HashCount :=
  { hash_size := hash_size, hashes := none, counts := none, num_items := 0, capacity := 0 }

/-- The search loop of `increase`, `for(i = 0; i < num_items; i++)`: the first argument counts
the iterations that remain, `other_hash_ptr` is advanced by `hash_size` each time. -/
def find_loop (hc : HashCount) (block v : List Nat) : Nat → Nat → Nat → Except Fault (Option Nat)
  | 0, _, _ => .ok none
  | n + 1, i, other_hash_ptr => do
    let o ← readBytes block other_hash_ptr hc.hash_size
    if memcmp o v = 0 then .ok (some i)
    else find_loop hc block v n (i + 1) (other_hash_ptr + hc.hash_size)

/-- The growth step of `increase`, taken when `num_items == capacity`: the capacity and the
size of the value block are computed in `unsigned int`, the size of the count array in
`size_t` (one cell per count). -/
def grow (hc : HashCount) : HashCount :=
  if hc.num_items = hc.capacity then
    let cap := (hc.capacity + 8192) % UINT_MOD
    { hc with
      capacity := cap
      hashes := some (realloc hc.hashes ((hc.hash_size * cap) % UINT_MOD))
      counts := some (realloc hc.counts cap) }
  else hc

/-- The search of `increase`: the index of the first entry whose bytes equal `v`, if there is
one; the loop is skipped while `hashes` is `NULL`. -/
def find (hc : HashCount) (v : List Nat) : Except Fault (Option Nat) :=
  match hc.hashes with
  | none => .ok none
  | some block => find_loop hc block v hc.num_items 0 0

/-- The statement `counts[duplicate_index]++` of `increase`. -/
def count_up (hc : HashCount) (duplicate_index : Nat) : Except Fault HashCount :=
  match hc.counts with
  | some cs =>
    if duplicate_index < cs.length then
      .ok { hc with
        counts := some (cs.set duplicate_index ((cs.getD duplicate_index 0 + 1) % SIZE_MOD)) }
    else .error Fault.bounds
  | none => .error Fault.bounds

/-- The tail of `increase` that adds a new value with count 1: grow when full, copy the
`hash_size` bytes `v` to `hashes + num_items * hash_size` (the product in `unsigned int`), set
`counts[num_items] = 1` and increment `num_items`. -/
def append (hc : HashCount) (v : List Nat) : Except Fault HashCount :=
  let hc1 := hc.grow
  match hc1.hashes, hc1.counts with
  | some block, some cs => do
    let block1 ← writeBytes block ((hc1.num_items * hc1.hash_size) % UINT_MOD) v
    if hc1.num_items < cs.length then
      pure { hc1 with
        hashes := some block1
        counts := some (cs.set hc1.num_items 1)
        num_items := (hc1.num_items + 1) % UINT_MOD }
    else .error Fault.bounds
  | _, _ => .error Fault.bounds

/-- The method `increase`, called with the `hash_size` bytes `v` found at `hash_ptr`: count one
more occurrence of `v` in the first entry that holds it, or append the entry `(v, 1)`. -/
def increase (hc : HashCount) (v : List Nat) : Except Fault HashCount := do
  let duplicate ← hc.find v
  match duplicate with
  | some duplicate_index => hc.count_up duplicate_index
  | none => hc.append v

/-- Entry `i` as `to_string(i)` reads it: the `hash_size` bytes at `hashes + hash_size * i`
(the product in `unsigned int`) and `counts[i]`. -/
def entry (hc : HashCount) (i : Nat) : Except Fault (List Nat × Nat) :=
  match hc.hashes, hc.counts with
  | some block, some cs => do
    let v ← readBytes block ((hc.hash_size * i) % UINT_MOD) hc.hash_size
    if i < cs.length then pure (v, cs.getD i 0) else .error Fault.bounds
  | _, _ => .error Fault.bounds

/-- The entries in the order in which `main` prints them, index `0` to `num_items - 1`. -/
def entries (hc : HashCount) : Except Fault (List (List Nat × Nat)) :=
  (List.range hc.num_items).mapM hc.entry

end HashCount

/-- The collision scan of `main`, `for(i = 1, j = num_elements; i < j; i++)`: the first
argument counts the iterations that remain; `prev` is the index whose record `prev_hash_ptr`
points to. -/
def scan_loop (s : HashArray) : Nat → Nat → Nat → HashCount → Except Fault HashCount
  | 0, _, _, hc => .ok hc
  | n + 1, i, prev, hc => do
    let h ← s.record_at i
    let p ← s.record_at prev
    if memcmp h p = 0 then do
      let hc1 ← hc.increase h
      scan_loop s n (i + 1) prev hc1
    else scan_loop s n (i + 1) i hc

/-- The collision scan on a store, starting from an empty table and `prev_hash_ptr =
hash_ptr(0)`. -/
def scan (s : HashArray) : Except Fault HashCount :=
  scan_loop s (s.num_elements - 1) 1 0 (HashCount.new s.hash_size)

/-- The part of `main` after the file is in memory: build the store over the buffer, sort it,
scan it, and list the table entries that are printed. -/
def analyze (fuel : Nat) (buffer : List Nat) (hash_size : Nat) :
    Except Fault (List (List Nat × Nat)) := do
  let hash_array := HashArray.new buffer (buffer.length / hash_size) hash_size
  let sorted ← hash_array.sort fuel
  let duplicate_hashes ← scan sorted
  duplicate_hashes.entries


namespace HashArray

/-- The store `s1` holds the records of `s` rearranged inside the index range `lo..hi`: same
shape, nothing changed outside the range, every record of the range taken from the range, and
the same records overall. -/
structure Rearranged (s s1 : HashArray) (lo hi : Nat) : Prop where
  wf : s1.wf
  scratch : s1.scratch_ok
  num : s1.num_elements = s.num_elements
  size : s1.hash_size = s.hash_size
  frame : ∀ k, (k < lo ∨ hi < k) → s1.record k = s.record k
  from_range : ∀ k, lo ≤ k → k ≤ hi → ∃ k1, lo ≤ k1 ∧ k1 ≤ hi ∧ s1.record k = s.record k1
  perm : s1.records.Perm s.records

end HashArray

/-- The order of two records of the same width as `memcmp` sees it: the first is not above the
second. -/
def record_le (a b : List Nat) : Prop := a.length = b.length ∧ memcmp a b ≤ 0

instance (s : HashArray) : Decidable s.wf := by
  unfold HashArray.wf; infer_instance

instance (s : HashArray) : Decidable s.scratch_ok := by
  unfold HashArray.scratch_ok; infer_instance

/-- A store of four records of two bytes, with a scratch block of two bytes. -/
def sample_store : HashArray :=
  { buffer := [0, 5, 0, 1, 0, 5, 0, 2], num_elements := 4, hash_size := 2, temp := [0, 0] }

/-- The records of `sample_store` in ascending order. -/
def sample_sorted : HashArray :=
  { buffer := [0, 1, 0, 2, 0, 5, 0, 5], num_elements := 4, hash_size := 2, temp := [0, 0] }

/-- The store that the constructor builds over the three one-byte records `03 03 03`. -/
def equal_store : HashArray := HashArray.new [3, 3, 3] 3 1

/-- A store of two equal records of 524289 (`2^19 + 1`) zero bytes each. -/
def wide_store : HashArray :=
  { buffer := List.replicate 1048578 0, num_elements := 2, hash_size := 524289,
    temp := List.replicate 524289 0 }

namespace HashCount

/-- The value block of the table, empty while `hashes` is `NULL`. -/
def block (hc : HashCount) : List Nat := hc.hashes.getD []

/-- The count cells of the table, none while `counts` is `NULL`. -/
def cells (hc : HashCount) : List Nat := hc.counts.getD []

/-- The bytes of entry `i`, at offset `i * hash_size` of the value block. -/
def key (hc : HashCount) (i : Nat) : List Nat :=
  (hc.block.drop (i * hc.hash_size)).take hc.hash_size

/-- The entries `(value, count)` of the table, index `0` to `num_items - 1`. -/
def view (hc : HashCount) : List (List Nat × Nat) :=
  (List.range hc.num_items).map fun i => (hc.key i, hc.cells.getD i 0)

/-- Representation invariant of a table whose sizes have not wrapped: the value block has
`hash_size * capacity` bytes, there are `capacity` count cells, the entries fit, and the two
arrays are allocated together. -/
def Inv (hc : HashCount) : Prop :=
  hc.num_items ≤ hc.capacity ∧ hc.hash_size * hc.capacity < UINT_MOD ∧
    hc.capacity < UINT_MOD ∧ hc.block.length = hc.hash_size * hc.capacity ∧
    hc.cells.length = hc.capacity ∧ (hc.hashes = none ↔ hc.counts = none) ∧
    (hc.hashes = none → hc.capacity = 0)

end HashCount

/-- The effect of `increase` on the list of entries `(value, count)`: one more occurrence of `v`
in the first entry that holds `v`, or a new last entry `(v, 1)`. -/
def bump : List (List Nat × Nat) → List Nat → List (List Nat × Nat)
  | [], v => [(v, 1)]
  | e :: t, v => if e.1 = v then (e.1, e.2 + 1) :: t else e :: bump t v

/-- The count that the first entry holding `v` gives, `0` when no entry holds `v`. -/
def countOf : List (List Nat × Nat) → List Nat → Nat
  | [], _ => 0
  | e :: t, v => if e.1 = v then e.2 else countOf t v

/-- The records that the collision scan submits when `p` is the record at `prev_hash_ptr` and
the records still to be visited are listed. -/
def submitted (p : List Nat) : List (List Nat) → List (List Nat)
  | [] => []
  | x :: xs => if x = p then x :: submitted p xs else submitted x xs

/-- The records that the collision scan submits on a store with the given list of records:
`prev_hash_ptr` starts at the first record and the scan visits the others. -/
def dup_submissions : List (List Nat) → List (List Nat)
  | [] => []
  | p :: xs => submitted p xs

/-- The table `hexdigits` of `hash_to_string`. -/
def hexdigits : List Char := "0123456789ABCDEF".toList

/-- The function `hash_to_string`, called on the `hash_size` bytes at `hash_ptr`: for each byte
`v`, an `unsigned char`, the characters `hexdigits[v >> 4]` and `hexdigits[v & 15]`. -/
def hash_to_string : List Nat → List Char
  | [] => []
  | b :: rest =>
    let v := b % 256
    hexdigits.getD (v / 16) ' ' :: hexdigits.getD (v % 16) ' ' :: hash_to_string rest

/-- The value of a hexadecimal digit: its position in `hexdigits`. -/
def hex_value (c : Char) : Nat := hexdigits.indexOf c

/-- Reading a string of hexadecimal digits back, two digits per byte. -/
def hex_decode : List Char → List Nat
  | hi :: lo :: rest => (16 * hex_value hi + hex_value lo) :: hex_decode rest
  | _ => []

namespace HashCount

/-- The method `HashCount::to_string(i)`: the hexadecimal string of the bytes of entry `i`, a
space, and `std::to_string(counts[i])`, the count in decimal. -/
def to_string (hc : HashCount) (i : Nat) : Except Fault (List Char) := do
  let e ← hc.entry i
  pure (hash_to_string e.1 ++ [' '] ++ Nat.toDigits 10 e.2)

/-- The lines that the last loop of `main` writes to the standard output. -/
def print_lines (hc : HashCount) : Except Fault (List (List Char)) :=
  (List.range hc.num_items).mapM hc.to_string

end HashCount

/-- The ways in which a run of `main` ends. -/
inductive Exit where
  /-- wrong number of arguments: `return 1` -/
  | usage
  /-- the file cannot be opened: `return 1` -/
  | cannot_open
  /-- the size check fails, "File size is not multiple of hash size": `return 1` -/
  | size_mismatch
  /-- `malloc` gives `NULL`: `return 1` -/
  | memory_error
  /-- `fread` delivers nothing before the file is read: `return 1` -/
  | read_error
  /-- the lines were printed: `return 0` -/
  | finished (stdout : List (List Char))
  /-- `file_size % hash_size` with `hash_size` zero -/
  | division_by_zero
  /-- the run leaves the defined behaviour of the program -/
  | fault (f : Fault)
  deriving DecidableEq

/-- The exit code of a run that returns from `main`. -/
def Exit.code : Exit → Option Nat
  | .usage => some 1
  | .cannot_open => some 1
  | .size_mismatch => some 1
  | .memory_error => some 1
  | .read_error => some 1
  | .finished _ => some 0
  | .division_by_zero => none
  | .fault _ => none

/-- The lines on the standard output at the end of a run. -/
def Exit.stdout : Exit → List (List Char)
  | .finished lines => lines
  | _ => []

/-- What the surroundings hand to `main`: the argument count, the record width that `sscanf`
reads from `argv[2]`, the bytes of the file that `fopen` opens (`none` when it cannot be
opened), whether `malloc` succeeds, and how many bytes `fread` delivers when `size_read` bytes
are read and `remain` are asked for. -/
structure World where
  argc : Nat
  hash_size : Nat
  file : Option (List Nat)
  malloc_ok : Bool
  fread : Nat → Nat → Nat

/-- The reading loop of `main`, `while(size_read != file_size)`: `true` when the whole file
arrives, `false` when an `fread` delivers nothing. Every round reads at least one byte, so
`file_size + 1` rounds of fuel are never used up. -/
def read_loop (fread : Nat → Nat → Nat) (file_size : Nat) : Nat → Nat → Bool
  | 0, _ => false
  | fuel + 1, size_read =>
    if size_read ≠ file_size then
      let remain := file_size - size_read
      let n := min (fread size_read remain) remain
      if n = 0 then false else read_loop fread file_size fuel (size_read + n)
    else true

/-- The function `main`: argument check, opening, size check, allocation, reading, then the
sort, the collision scan and the printing of the table. -/
def main (fuel : Nat) (w : World) : Exit :=
  if w.argc ≠ 3 then .usage
  else match w.file with
    | none => .cannot_open
    | some bytes =>
      let file_size := bytes.length
      if w.hash_size = 0 then .division_by_zero
      else if file_size % w.hash_size ≠ 0 then .size_mismatch
      else if w.malloc_ok = false then .memory_error
      else if read_loop w.fread file_size (file_size + 1) 0 = false then .read_error
      else
        let hash_array := HashArray.new bytes (file_size / w.hash_size) w.hash_size
        match (do
            let sorted ← hash_array.sort fuel
            let duplicate_hashes ← scan sorted
            duplicate_hashes.print_lines) with
        | .ok lines => .finished lines
        | .error f => .fault f

/-- The surroundings of the run on a file of five bytes with records of two bytes. -/
def short_file_world : World :=
  { argc := 3
    hash_size := 2
    file := some [1, 2, 3, 4, 5]
    malloc_ok := true
    fread := fun _ remain => remain }

/-- The collision scan of `main` with the table left open: `submit` stands for
`duplicate_hashes.increase`, and is told the index `i` of the record it is handed. -/
def scan_loop_with {T : Type} (submit : T → Nat → List Nat → Except Fault T) (s : HashArray) :
    Nat → Nat → Nat → T → Except Fault T
  | 0, _, _, t => .ok t
  | n + 1, i, prev, t => do
    let h ← s.record_at i
    let p ← s.record_at prev
    if memcmp h p = 0 then do
      let t1 ← submit t i h
      scan_loop_with submit s n (i + 1) prev t1
    else scan_loop_with submit s n (i + 1) i t

/-- The submissions of the collision scan, in order: the index and the bytes of every record
handed to `increase`. -/
def scan_log (s : HashArray) : Except Fault (List (Nat × List Nat)) :=
  scan_loop_with (fun log i h => .ok (log ++ [(i, h)])) s (s.num_elements - 1) 1 0 []

/-- The submissions as the specification describes them: record `i`, for `i` from `1` to
`N - 1`, is submitted exactly when it equals record `i - 1`. -/
def adjacent_equal (s : HashArray) : List (Nat × List Nat) :=
  ((List.range' 1 (s.num_elements - 1)).filter
    (fun i => decide (s.record i = s.record (i - 1)))).map (fun i => (i, s.record i))

namespace HashCount

/-- The tables that `k` calls of `increase`, each handed `w` bytes and each returning, lead to
from the table that the constructor builds for width `w`. -/
inductive Reachable (w : Nat) : Nat → HashCount → Prop
  | init : Reachable w 0 (HashCount.new w)
  | step {k : Nat} {hc hc1 : HashCount} {v : List Nat} :
      Reachable w k hc → v.length = w → hc.increase v = .ok hc1 → Reachable w (k + 1) hc1

/-- What holds of every table that calls of `increase` lead to: the entries fit the capacity,
the capacity is a multiple of 8192 below `2^32`, the value block has the size that `increase`
asked for in `unsigned int`, there is a count cell per unit of capacity, the entries lie
inside the value block, and the two arrays are allocated together. -/
def Sound (hc : HashCount) : Prop :=
  hc.num_items ≤ hc.capacity ∧ hc.capacity < UINT_MOD ∧ 8192 ∣ hc.capacity ∧
    hc.block.length = (hc.hash_size * hc.capacity) % UINT_MOD ∧
    hc.cells.length = hc.capacity ∧ hc.num_items * hc.hash_size ≤ hc.block.length ∧
    (hc.hashes = none ↔ hc.counts = none) ∧ (hc.hashes = none → hc.capacity = 0)

end HashCount

/-- The table that the one call `increase([0])` leaves from a new table of records of one
byte. -/
def one_entry_table : HashCount :=
  match (HashCount.new 1).increase [0] with
  | .ok hc => hc
  | .error _ => HashCount.new 1

/-- The store that the constructor builds over the four records `00 05`, `00 01`, `00 05`,
`00 02` of two bytes: `HashArray(buffer, 4, 2)`. -/
def built_store : HashArray := HashArray.new [0, 5, 0, 1, 0, 5, 0, 2] 4 2

/-- The store that the constructor builds over the two records `00 01`, `00 02`, which are in
ascending order. -/
def ordered_built_store : HashArray := HashArray.new [0, 1, 0, 2] 2 2

theorem memcmp_self (a : List Nat) : memcmp a a = 0 := by
  induction a with
  | nil => rfl
  | cons x xs ih => simp [memcmp, ih]

theorem memcmp_antisymm (a b : List Nat) : memcmp b a = - memcmp a b := by
  induction a generalizing b with
  | nil => cases b <;> simp [memcmp]
  | cons x xs ih =>
    cases b with
    | nil => simp [memcmp]
    | cons y ys =>
      simp only [memcmp]
      rcases Nat.lt_trichotomy x y with h | h | h
      · simp [h, Nat.lt_asymm h]
      · subst h; simp [ih]
      · simp [h, Nat.lt_asymm h]

theorem memcmp_eq_zero {a b : List Nat} (hl : a.length = b.length) (h : memcmp a b = 0) :
    a = b := by
  induction a generalizing b with
  | nil => cases b with
    | nil => rfl
    | cons y ys => simp at hl
  | cons x xs ih =>
    cases b with
    | nil => simp at hl
    | cons y ys =>
      simp only [memcmp] at h
      split at h
      · omega
      · split at h
        · omega
        · have hxy : x = y := by omega
          rw [hxy, ih (by simpa using hl) h]

theorem memcmp_lt_iff_lex {a b : List Nat} (hl : a.length = b.length) :
    memcmp a b < 0 ↔ List.Lex (· < ·) a b := by
  induction a generalizing b with
  | nil => cases b with
    | nil => simp [memcmp]
    | cons y ys => simp at hl
  | cons x xs ih =>
    cases b with
    | nil => simp at hl
    | cons y ys =>
      simp only [memcmp]
      rcases Nat.lt_trichotomy x y with h | h | h
      · simp only [h, if_true]
        exact ⟨fun _ => List.Lex.rel h, fun _ => by omega⟩
      · subst h
        simp only [lt_self_iff_false, if_false]
        rw [ih (by simpa using hl)]
        exact ⟨fun h => List.Lex.cons h, fun h => by
          cases h with
          | cons h => exact h
          | rel h => exact absurd h (lt_irrefl _)⟩
      · simp only [Nat.lt_asymm h, h, if_true, if_false]
        exact ⟨fun h0 => by omega, fun h0 => by
          cases h0 with
          | cons h1 => exact absurd h (lt_irrefl _)
          | rel h1 => exact absurd h1 (Nat.lt_asymm h)⟩

theorem memcmp_trans {a b c : List Nat} (hab : a.length = b.length) (hbc : b.length = c.length)
    (h1 : memcmp a b ≤ 0) (h2 : memcmp b c ≤ 0) : memcmp a c ≤ 0 := by
  induction a generalizing b c with
  | nil => cases c <;> simp [memcmp]
  | cons x xs ih =>
    cases b with
    | nil => simp at hab
    | cons y ys =>
      cases c with
      | nil => simp at hbc
      | cons z zs =>
        simp only [memcmp] at h1 h2 ⊢
        simp only [List.length_cons, add_left_inj] at hab hbc
        by_cases hxy : x < y
        · by_cases hyz : y < z
          · simp [show x < z by omega]
          · by_cases hzy : z < y
            · simp [hyz, hzy] at h2
            · simp [show x < z by omega]
        · by_cases hyx : y < x
          · simp [hxy, hyx] at h1
          · have e : x = y := by omega
            subst e
            simp only [hxy, if_false] at h1
            by_cases hyz : x < z
            · simp [hyz]
            · by_cases hzy : z < x
              · simp [hyz, hzy] at h2
              · simp only [hyz, hzy, if_false] at h2 ⊢
                exact ih hab hbc h1 h2

theorem memcmp_trans_lt {a b c : List Nat} (hab : a.length = b.length)
    (hbc : b.length = c.length) (h1 : memcmp a b < 0) (h2 : memcmp b c < 0) :
    memcmp a c < 0 := by
  have hle : memcmp a c ≤ 0 := memcmp_trans hab hbc (le_of_lt h1) (le_of_lt h2)
  rcases lt_or_eq_of_le hle with h | h
  · exact h
  · have e : a = c := memcmp_eq_zero (hab.trans hbc) h
    subst e
    have := memcmp_antisymm a b
    omega

theorem patch_getElem? (L src : List Nat) (a x : Nat) (h : a + src.length ≤ L.length) :
    (L.take a ++ src ++ L.drop (a + src.length))[x]? =
      if x < a then L[x]? else if x < a + src.length then src[x - a]? else L[x]? := by
  have hl : (L.take a).length = a := by simp; omega
  by_cases h1 : x < a
  · simp only [h1, if_true, List.append_assoc]
    rw [List.getElem?_append_left (by omega)]
    simp [List.getElem?_take, h1]
  · simp only [h1, if_false, List.append_assoc]
    rw [List.getElem?_append_right (by omega), hl]
    by_cases h2 : x < a + src.length
    · simp only [h2, if_true]
      rw [List.getElem?_append_left (by omega)]
    · simp only [h2, if_false]
      rw [List.getElem?_append_right (by omega)]
      simp only [List.getElem?_drop]
      congr 1
      omega

theorem take_drop_patch_same (L src : List Nat) (a : Nat) (h : a + src.length ≤ L.length) :
    ((L.take a ++ src ++ L.drop (a + src.length)).drop a).take src.length = src := by
  apply List.ext_getElem?
  intro m
  rw [List.getElem?_take, List.getElem?_drop, patch_getElem? L src a _ h]
  by_cases hm : m < src.length
  · simp [hm]
  · simp only [hm, if_false]
    rw [eq_comm, List.getElem?_eq_none_iff]; omega

theorem take_drop_patch_other (L src : List Nat) (a b n : Nat) (h : a + src.length ≤ L.length)
    (hd : b + n ≤ a ∨ a + src.length ≤ b) :
    ((L.take a ++ src ++ L.drop (a + src.length)).drop b).take n = (L.drop b).take n := by
  apply List.ext_getElem?
  intro m
  rw [List.getElem?_take, List.getElem?_take, List.getElem?_drop, List.getElem?_drop,
    patch_getElem? L src a _ h]
  by_cases hm : m < n
  · simp only [hm, if_true]
    rcases hd with hd | hd
    · rw [if_pos (by omega)]
    · rw [if_neg (by omega), if_neg (by omega)]
  · simp [hm]

theorem length_patch (L src : List Nat) (a : Nat) (h : a + src.length ≤ L.length) :
    (L.take a ++ src ++ L.drop (a + src.length)).length = L.length := by
  simp; omega


/-! ## The record store -/

namespace HashArray

theorem offset_le {s : HashArray} (h : s.wf) {i : Nat} (hi : i < s.num_elements) :
    i * s.hash_size + s.hash_size ≤ s.buffer.length := by
  rw [h.1]
  calc i * s.hash_size + s.hash_size = (i + 1) * s.hash_size := by ring
    _ ≤ s.num_elements * s.hash_size := Nat.mul_le_mul_right _ hi

theorem hash_ptr_eq {s : HashArray} (h : s.wf) {i : Nat} (hi : i < s.num_elements) :
    s.hash_ptr i = i * s.hash_size := by
  unfold hash_ptr
  apply Nat.mod_eq_of_lt
  have h1 := offset_le h hi
  have h2 := h.2.1
  omega

theorem record_at_eq {s : HashArray} (h : s.wf) {i : Nat} (hi : i < s.num_elements) :
    s.record_at i = .ok (s.record i) := by
  unfold record_at readBytes record
  rw [if_pos hi, hash_ptr_eq h hi, if_pos (offset_le h hi)]

theorem record_at_fault {s : HashArray} {i : Nat} (hi : ¬ i < s.num_elements) :
    s.record_at i = .error Fault.index := by
  unfold record_at
  rw [if_neg hi]

theorem length_record {s : HashArray} (h : s.wf) {i : Nat} (hi : i < s.num_elements) :
    (s.record i).length = s.hash_size := by
  unfold record
  have h1 := offset_le h hi
  simp only [List.length_take, List.length_drop]
  omega

theorem offsets_disjoint {i k : Nat} (w : Nat) (hk : k ≠ i) :
    k * w + w ≤ i * w ∨ i * w + w ≤ k * w := by
  rcases Nat.lt_or_gt_of_ne hk with h | h
  · left
    calc k * w + w = (k + 1) * w := by ring
      _ ≤ i * w := Nat.mul_le_mul_right _ h
  · right
    calc i * w + w = (i + 1) * w := by ring
      _ ≤ k * w := Nat.mul_le_mul_right _ h

theorem store_at_spec {s : HashArray} (h : s.wf) {i : Nat} (hi : i < s.num_elements)
    (src : List Nat) (hs : src.length = s.hash_size) :
    ∃ s1, s.store_at i src = .ok s1 ∧ s1.wf ∧ s1.num_elements = s.num_elements ∧
      s1.hash_size = s.hash_size ∧ s1.temp = s.temp ∧ s1.record i = src ∧
      ∀ k, k ≠ i → s1.record k = s.record k := by
  have hb : i * s.hash_size + src.length ≤ s.buffer.length := by
    rw [hs]; exact offset_le h hi
  refine ⟨{ s with buffer := (s.buffer.take (i * s.hash_size) ++ src ++
      s.buffer.drop (i * s.hash_size + src.length)) }, ?_, ?_, rfl, rfl, rfl, ?_, ?_⟩
  · unfold store_at writeBytes
    rw [if_pos hi, hash_ptr_eq h hi, if_pos hb]
    rfl
  · refine ⟨?_, ?_, h.2.2⟩
    · show List.length (_ ++ _ ++ _) = _
      rw [length_patch _ _ _ hb]; exact h.1
    · show List.length (_ ++ _ ++ _) < _
      rw [length_patch _ _ _ hb]; exact h.2.1
  · show List.take s.hash_size (List.drop (i * s.hash_size) (_ ++ _ ++ _)) = src
    exact (congrArg (fun n => List.take n _) hs.symm).trans (take_drop_patch_same _ _ _ hb)
  · intro k hk
    show List.take s.hash_size (List.drop _ (_ ++ _ ++ _)) = List.take s.hash_size (List.drop _ s.buffer)
    apply take_drop_patch_other _ _ _ _ _ hb
    rw [hs]
    exact offsets_disjoint s.hash_size hk

theorem read_after_write (t a : List Nat) (n : Nat) (hn : a.length = n) (h : n ≤ t.length) :
    readBytes (t.take 0 ++ a ++ t.drop (0 + a.length)) 0 n = .ok a := by
  subst hn
  have hta : 0 + a.length ≤ t.length := by omega
  unfold readBytes
  rw [if_pos (by rw [length_patch _ _ _ hta]; omega), take_drop_patch_same _ _ _ hta]

theorem swap_spec {s : HashArray} (h : s.wf) (ht : s.scratch_ok) {i j : Nat}
    (hi : i < s.num_elements) (hj : j < s.num_elements) :
    ∃ s1, s.swap i j = .ok s1 ∧ s1.wf ∧ s1.scratch_ok ∧ s1.num_elements = s.num_elements ∧
      s1.hash_size = s.hash_size ∧ s1.record i = s.record j ∧ s1.record j = s.record i ∧
      ∀ k, k ≠ i → k ≠ j → s1.record k = s.record k := by
  have hla := length_record h hi
  have hlb := length_record h hj
  have hta : 0 + (s.record i).length ≤ s.temp.length := by
    rw [hla, Nat.zero_add]; exact ht
  -- the state after the first copy
  let s0 : HashArray := { s with temp := (s.temp.take 0 ++ s.record i ++
    s.temp.drop (0 + (s.record i).length)) }
  have h0 : s0.wf := h
  have hr0 : ∀ k, s0.record k = s.record k := fun _ => rfl
  obtain ⟨s1, e1, w1, n1, z1, t1, r1, o1⟩ := store_at_spec h0 hi (s.record j) hlb
  have hj1 : j < s1.num_elements := by rw [n1]; exact hj
  have hc : readBytes s1.temp 0 s1.hash_size = .ok (s.record i) := by
    rw [t1, z1]
    exact read_after_write s.temp (s.record i) s.hash_size hla ht
  obtain ⟨s2, e2, w2, n2, z2, t2, r2, o2⟩ :=
    store_at_spec w1 hj1 (s.record i) (by rw [z1]; exact hla)
  refine ⟨s2, ?_, w2, ?_, by rw [n2, n1], by rw [z2, z1], ?_, r2, ?_⟩
  · unfold swap
    rw [record_at_eq h hi]
    simp only [bind, Except.bind, writeBytes, if_pos hta]
    have e0 : (({ s with temp := (s.temp.take 0 ++ s.record i ++
        s.temp.drop (0 + (s.record i).length)) } : HashArray).record_at j) =
        .ok (s.record j) := record_at_eq h0 hj
    rw [e0]
    simp only []
    rw [e1]
    simp only []
    rw [hc]
    exact e2
  · show s2.hash_size ≤ s2.temp.length
    rw [z2, z1, t2, t1]
    show s.hash_size ≤ List.length (_ ++ _ ++ _)
    rw [length_patch _ _ _ hta]
    exact ht
  · by_cases hij : i = j
    · subst hij; rw [r2]
    · rw [o2 i hij, r1]
  · intro k hki hkj
    rw [o2 k hkj, o1 k hki, hr0]


theorem is_below_eq {s : HashArray} (h : s.wf) {i j : Nat} (hi : i < s.num_elements)
    (hj : j < s.num_elements) :
    s.is_below i j = .ok (decide (memcmp (s.record i) (s.record j) < 0)) := by
  unfold is_below
  rw [record_at_eq h hi, record_at_eq h hj]
  rfl

theorem perm_map_range_of_swap {α : Type} (f g : Nat → α) (n i j : Nat) (hi : i < n)
    (hj : j < n) (hgi : g i = f j) (hgj : g j = f i)
    (hk : ∀ k, k ≠ i → k ≠ j → g k = f k) :
    ((List.range n).map g).Perm ((List.range n).map f) := by
  have key : (g ∘ Fin.val : Fin n → α) = (f ∘ Fin.val) ∘ (Equiv.swap ⟨i, hi⟩ ⟨j, hj⟩) := by
    funext k
    simp only [Function.comp]
    by_cases h1 : k = ⟨i, hi⟩
    · subst h1; simp [hgi]
    · by_cases h2 : k = ⟨j, hj⟩
      · subst h2; simp [hgj]
      · rw [Equiv.swap_apply_of_ne_of_ne h1 h2]
        apply hk
        · intro e; exact h1 (Fin.ext e)
        · intro e; exact h2 (Fin.ext e)
  rw [← List.map_coe_finRange, List.map_map, List.map_map, key, ← List.map_map]
  exact (Equiv.Perm.map_finRange_perm _).map _

theorem Rearranged.refl_of_wf {s : HashArray} (h : s.wf) (ht : s.scratch_ok) (lo hi : Nat) :
    Rearranged s s lo hi :=
  ⟨h, ht, rfl, rfl, fun _ _ => rfl, fun k h1 h2 => ⟨k, h1, h2, rfl⟩, List.Perm.refl _⟩

theorem Rearranged.trans_range {s1 s2 s3 : HashArray} {lo hi : Nat} (a : Rearranged s1 s2 lo hi)
    (b : Rearranged s2 s3 lo hi) : Rearranged s1 s3 lo hi := by
  refine ⟨b.wf, b.scratch, b.num.trans a.num, b.size.trans a.size, ?_, ?_, b.perm.trans a.perm⟩
  · intro k hk
    rw [b.frame k hk, a.frame k hk]
  · intro k h1 h2
    obtain ⟨k1, h3, h4, e1⟩ := b.from_range k h1 h2
    obtain ⟨k2, h5, h6, e2⟩ := a.from_range k1 h3 h4
    exact ⟨k2, h5, h6, e1.trans e2⟩

theorem Rearranged.widen {s1 s2 : HashArray} {lo hi lo1 hi1 : Nat} (a : Rearranged s1 s2 lo1 hi1)
    (hlo : lo ≤ lo1) (hhi : hi1 ≤ hi) : Rearranged s1 s2 lo hi := by
  refine ⟨a.wf, a.scratch, a.num, a.size, ?_, ?_, a.perm⟩
  · intro k hk
    apply a.frame
    omega
  · intro k h1 h2
    by_cases hin : lo1 ≤ k ∧ k ≤ hi1
    · obtain ⟨k1, h3, h4, e1⟩ := a.from_range k hin.1 hin.2
      exact ⟨k1, by omega, by omega, e1⟩
    · exact ⟨k, h1, h2, a.frame k (by omega)⟩

theorem Rearranged.of_swap {s s1 : HashArray} {i j : Nat} (lo hi : Nat) (h : s.wf) (ht : s.scratch_ok)
    (hi1 : i < s.num_elements) (hj1 : j < s.num_elements)
    (hli : lo ≤ i) (hih : i ≤ hi) (hlj : lo ≤ j) (hjh : j ≤ hi)
    (e : s.swap i j = .ok s1) :
    Rearranged s s1 lo hi ∧ s1.record i = s.record j ∧ s1.record j = s.record i ∧
      ∀ k, k ≠ i → k ≠ j → s1.record k = s.record k := by
  obtain ⟨s2, e2, w, t, n, z, ri, rj, ro⟩ := swap_spec h ht hi1 hj1
  rw [e] at e2
  cases e2
  refine ⟨⟨w, t, n, z, ?_, ?_, ?_⟩, ri, rj, ro⟩
  · intro k hk
    apply ro <;> omega
  · intro k h1 h2
    by_cases hki : k = i
    · exact ⟨j, hlj, hjh, by rw [hki, ri]⟩
    · by_cases hkj : k = j
      · exact ⟨i, hli, hih, by rw [hkj, rj]⟩
      · exact ⟨k, h1, h2, ro k hki hkj⟩
  · unfold records
    rw [n]
    exact perm_map_range_of_swap _ _ _ i j hi1 hj1 ri rj ro


theorem succ_mod {n m : Nat} (h : n < m) (hm : m < SIZE_MOD) : (n + 1) % SIZE_MOD = n + 1 :=
  Nat.mod_eq_of_lt (by omega)

theorem partition_loop_spec (last : Nat) :
    ∀ (fuel : Nat) (s : HashArray) (i j : Nat), s.wf → s.scratch_ok → last < s.num_elements →
      i ≤ j → j ≤ last + 1 → i ≤ last → last + 2 ≤ fuel + j →
      (∀ k, i ≤ k → k < j → ¬ memcmp (s.record k) (s.record last) < 0) →
      ∃ s1 p, partition_loop last fuel s i j = .ok (s1, p) ∧ i ≤ p ∧ p ≤ last ∧
        Rearranged s s1 i last ∧ s1.record last = s.record last ∧
        (∀ k, i ≤ k → k < p → memcmp (s1.record k) (s.record last) < 0) ∧
        (∀ k, p ≤ k → k < last → ¬ memcmp (s1.record k) (s.record last) < 0) := by
  intro fuel
  induction fuel with
  | zero => intro s i j _ _ _ _ _ _ hf; omega
  | succ fuel ih =>
    intro s i j h ht hl hij hjl hil hf hge
    by_cases hj : j ≤ last
    · have hjn : j < s.num_elements := by omega
      have hin : i < s.num_elements := by omega
      have hmj : (j + 1) % SIZE_MOD = j + 1 := succ_mod hjn h.2.2
      have hmi : (i + 1) % SIZE_MOD = i + 1 := succ_mod hin h.2.2
      rw [partition_loop, if_pos hj, is_below_eq h hjn hl]
      by_cases hb : memcmp (s.record j) (s.record last) < 0
      · -- record `j` is below the pivot: it is exchanged with the boundary record
        have hjl1 : j < last := by
          rcases Nat.lt_or_ge j last with h1 | h1
          · exact h1
          · have e : j = last := by omega
            rw [e, memcmp_self] at hb
            omega
        obtain ⟨s1, e1, -⟩ := swap_spec h ht hin hjn
        obtain ⟨ra, ri, rj, ro⟩ := Rearranged.of_swap i last h ht hin hjn
          (le_refl _) hil hij hj e1
        have hp1 : s1.record last = s.record last := ro last (by omega) (by omega)
        obtain ⟨s2, p, e2, hp, hpl, rb, rl, hlt, hnlt⟩ := ih s1 (i + 1) (j + 1) ra.wf ra.scratch
          (by rw [ra.num]; exact hl) (by omega) (by omega) (by omega) (by omega) (by
            intro k hk1 hk2
            rw [hp1]
            by_cases hkj : k = j
            · rw [hkj, rj]; exact hge i (le_refl _) (by omega)
            · rw [ro k (by omega) hkj]; exact hge k (by omega) (by omega))
        refine ⟨s2, p, ?_, by omega, hpl, ra.trans_range (rb.widen (by omega) (le_refl _)),
          rl.trans hp1, ?_, ?_⟩
        · simp only [bind, Except.bind, decide_eq_true hb, if_true, e1, hmi, hmj]
          exact e2
        · intro k hk1 hk2
          by_cases hki : k = i
          · rw [hki, rb.frame i (by omega), ri]; exact hb
          · have := hlt k (by omega) hk2
            rw [hp1] at this
            exact this
        · intro k hk1 hk2
          have := hnlt k hk1 hk2
          rw [hp1] at this
          exact this
      · -- record `j` is not below the pivot
        obtain ⟨s2, p, e2, hp, hpl, rb, rl, hlt, hnlt⟩ := ih s i (j + 1) h ht hl (by omega)
          (by omega) hil (by omega) (by
            intro k hk1 hk2
            by_cases hkj : k = j
            · rw [hkj]; exact hb
            · exact hge k hk1 (by omega))
        refine ⟨s2, p, ?_, hp, hpl, rb, rl, hlt, hnlt⟩
        simp only [bind, Except.bind, decide_eq_false hb, hmj]
        exact e2
    · have hjl1 : j = last + 1 := by omega
      refine ⟨s, i, ?_, le_refl _, hil, Rearranged.refl_of_wf h ht _ _, rfl, ?_, ?_⟩
      · rw [partition_loop, if_neg hj]
      · intro k hk1 hk2; omega
      · intro k hk1 hk2
        exact hge k hk1 (by omega)

theorem partition_spec {s : HashArray} (fuel : Nat) (h : s.wf) (ht : s.scratch_ok)
    {first last : Nat} (hfl : first ≤ last) (hl : last < s.num_elements) (hf : last + 2 ≤ fuel + first) :
    ∃ s1 p, partition fuel s first last = .ok (s1, p) ∧ first ≤ p ∧ p ≤ last ∧
      Rearranged s s1 first last ∧ s1.record p = s.record last ∧
      (∀ k, first ≤ k → k < p → memcmp (s1.record k) (s.record last) < 0) ∧
      (∀ k, p < k → k ≤ last → ¬ memcmp (s1.record k) (s.record last) < 0) := by
  obtain ⟨s1, p, e1, hp, hpl, ra, rl, hlt, hnlt⟩ := partition_loop_spec last fuel s first first
    h ht hl (le_refl _) (by omega) hfl hf (by intro k h1 h2; omega)
  have hpn : p < s1.num_elements := by rw [ra.num]; omega
  have hln : last < s1.num_elements := by rw [ra.num]; exact hl
  obtain ⟨s2, e2, -⟩ := swap_spec ra.wf ra.scratch hpn hln
  obtain ⟨rb, rp, rq, ro⟩ := Rearranged.of_swap first last ra.wf ra.scratch
    hpn hln hp hpl hfl (le_refl _) e2
  refine ⟨s2, p, ?_, hp, hpl, ra.trans_range rb, by rw [rp, rl], ?_, ?_⟩
  · unfold partition
    simp only [bind, Except.bind, e1, e2]
    rfl
  · intro k hk1 hk2
    rw [ro k (by omega) (by omega)]
    exact hlt k hk1 hk2
  · intro k hk1 hk2
    by_cases hkl : k = last
    · rw [hkl, rq]
      exact hnlt p (le_refl _) (by omega)
    · rw [ro k (by omega) hkl]
      exact hnlt k (by omega) (by omega)


theorem not_below_of_below {a b : List Nat} (h : memcmp a b < 0) : ¬ memcmp b a < 0 := by
  have := memcmp_antisymm a b
  omega

theorem quicksort_spec :
    ∀ (fuel : Nat) (s : HashArray) (first last : Nat), s.wf → s.scratch_ok →
      last < s.num_elements → first ≤ last + 1 → last + 3 ≤ fuel + first →
      ∃ s1, quicksort fuel s first last = .ok s1 ∧ Rearranged s s1 first last ∧
        ∀ k, first ≤ k → k < last → ¬ memcmp (s1.record (k + 1)) (s1.record k) < 0 := by
  intro fuel
  induction fuel with
  | zero => intro s first last _ _ _ h1 h2; omega
  | succ fuel ih =>
    intro s first last h ht hl hfl hf
    by_cases hlt : first < last
    · obtain ⟨s1, p, e1, hp, hpl, ra, rp, hlo, hhi⟩ :=
        partition_spec fuel h ht (le_of_lt hlt) hl (by omega)
      have hpn : p < s1.num_elements := by rw [ra.num]; omega
      -- the recursive call on the records before the pivot
      have left : ∃ s2, (if p ≠ 0 then quicksort fuel s1 first (p - 1) else pure s1) = .ok s2 ∧
          Rearranged s1 s2 first (p - 1) ∧ (∀ k, p ≤ k → s2.record k = s1.record k) ∧
          (∀ k, first ≤ k → k < p →
            ∃ k1, first ≤ k1 ∧ k1 < p ∧ s2.record k = s1.record k1) ∧
          (∀ k, first ≤ k → k + 1 < p →
            ¬ memcmp (s2.record (k + 1)) (s2.record k) < 0) := by
        by_cases hp0 : p = 0
        · refine ⟨s1, by rw [if_neg (by simpa using hp0)]; rfl,
            Rearranged.refl_of_wf ra.wf ra.scratch _ _, fun _ _ => rfl, ?_, ?_⟩
          · intro k _ hk; omega
          · intro k _ hk; omega
        · obtain ⟨s2, e2, rb, hs⟩ := ih s1 first (p - 1) ra.wf ra.scratch (by omega)
            (by omega) (by omega)
          refine ⟨s2, by rw [if_pos hp0]; exact e2, rb, ?_, ?_, ?_⟩
          · intro k hk
            exact rb.frame k (by omega)
          · intro k hk1 hk2
            obtain ⟨k1, h1, h2, e⟩ := rb.from_range k hk1 (by omega)
            exact ⟨k1, h1, by omega, e⟩
          · intro k hk1 hk2
            exact hs k hk1 (by omega)
      obtain ⟨s2, e2, rb, hfix, hfrom, hsl⟩ := left
      have hmp : (p + 1) % SIZE_MOD = p + 1 := succ_mod hpn ra.wf.2.2
      -- the recursive call on the records after the pivot
      obtain ⟨s3, e3, rc, hsr⟩ := ih s2 (p + 1) last rb.wf rb.scratch
        (by rw [rb.num, ra.num]; exact hl) (by omega) (by omega)
      have hpiv : s3.record p = s.record last := by
        rw [rc.frame p (by omega), hfix p (le_refl _), rp]
      refine ⟨s3, ?_, ra.trans_range ((rb.widen (le_refl _) (by omega)).trans_range
        (rc.widen (by omega) (le_refl _))), ?_⟩
      · rw [quicksort, if_pos hlt]
        simp only [bind, Except.bind, e1]
        by_cases hp0 : p = 0
        · rw [if_neg (not_not.mpr hp0)] at e2 ⊢
          change Except.ok s1 = Except.ok s2 at e2
          cases e2
          show quicksort fuel s1 ((p + 1) % SIZE_MOD) last = _
          rw [hmp]
          exact e3
        · rw [if_pos hp0] at e2 ⊢
          rw [e2]
          show quicksort fuel s2 ((p + 1) % SIZE_MOD) last = _
          rw [hmp]
          exact e3
      · intro k hk1 hk2
        rcases Nat.lt_trichotomy (k + 1) p with hk | hk | hk
        · rw [rc.frame (k + 1) (by omega), rc.frame k (by omega)]
          exact hsl k hk1 hk
        · rw [hk, hpiv, rc.frame k (by omega)]
          obtain ⟨k1, h1, h2, e⟩ := hfrom k hk1 (by omega)
          rw [e]
          exact not_below_of_below (hlo k1 h1 h2)
        · by_cases hkp : k = p
          · rw [hkp, hpiv]
            obtain ⟨k1, h1, h2, e⟩ := rc.from_range (p + 1) (le_refl _) (by omega)
            rw [e, hfix k1 (by omega)]
            exact hhi k1 (by omega) h2
          · exact hsr k (by omega) hk2
    · refine ⟨s, ?_, Rearranged.refl_of_wf h ht _ _, ?_⟩
      · rw [quicksort, if_neg hlt]
      · intro k hk1 hk2; omega

theorem sort_last {s : HashArray} (h : s.wf) (hn : 1 ≤ s.num_elements) :
    (s.num_elements + SIZE_MOD - 1) % SIZE_MOD = s.num_elements - 1 := by
  have h1 := h.2.2
  have e : s.num_elements + SIZE_MOD - 1 = (s.num_elements - 1) + SIZE_MOD := by omega
  rw [e, Nat.add_mod_right]
  exact Nat.mod_eq_of_lt (by omega)

theorem sort_spec {s : HashArray} (h : s.wf) (ht : s.scratch_ok) (hn : 1 ≤ s.num_elements)
    {fuel : Nat} (hf : s.num_elements + 2 ≤ fuel) :
    ∃ s1, s.sort fuel = .ok s1 ∧ Rearranged s s1 0 (s.num_elements - 1) ∧
      ∀ k, k + 1 < s.num_elements → ¬ memcmp (s1.record (k + 1)) (s1.record k) < 0 := by
  obtain ⟨s1, e1, ra, hs⟩ := quicksort_spec fuel s 0 (s.num_elements - 1) h ht (by omega)
    (by omega) (by omega)
  refine ⟨s1, ?_, ra, ?_⟩
  · unfold sort
    rw [sort_last h hn]
    exact e1
  · intro k hk
    exact hs k (Nat.zero_le _) (by omega)


theorem getElem?_record (s : HashArray) (k r : Nat) :
    (s.record k)[r]? = if r < s.hash_size then s.buffer[k * s.hash_size + r]? else none := by
  unfold record
  rw [List.getElem?_take, List.getElem?_drop]

theorem buffer_ext {s s1 : HashArray} (h : s.wf) (h1 : s1.wf)
    (hn : s1.num_elements = s.num_elements) (hz : s1.hash_size = s.hash_size)
    (hr : ∀ k, k < s.num_elements → s1.record k = s.record k) : s1.buffer = s.buffer := by
  have hlen : s1.buffer.length = s.buffer.length := by rw [h1.1, h.1, hn, hz]
  apply List.ext_getElem?
  intro m
  by_cases hm : m < s.buffer.length
  · have hw : 0 < s.hash_size := by
      rcases Nat.eq_zero_or_pos s.hash_size with h0 | h0
      · rw [h.1, h0] at hm; simp at hm
      · exact h0
    have hk : m / s.hash_size < s.num_elements := by
      rw [Nat.div_lt_iff_lt_mul hw, ← h.1]; exact hm
    have e := congrArg (fun l : List Nat => l[m % s.hash_size]?) (hr _ hk)
    simp only [getElem?_record, hz, Nat.mod_lt _ hw, if_true, Nat.div_add_mod'] at e
    exact e
  · rw [List.getElem?_eq_none_iff.mpr (by omega), List.getElem?_eq_none_iff.mpr (by omega)]

theorem record_eq_of_records_eq {s s1 : HashArray} (hn : s1.num_elements = s.num_elements)
    (e : s1.records = s.records) (k : Nat) (hk : k < s.num_elements) :
    s1.record k = s.record k := by
  unfold records at e
  rw [hn] at e
  exact List.map_inj_left.mp e k (List.mem_range.mpr hk)

theorem length_records (s : HashArray) : s.records.length = s.num_elements := by
  simp [records]

theorem getElem_records (s : HashArray) (k : Nat) (hk : k < s.records.length) :
    s.records[k] = s.record k := by
  simp [records]

end HashArray

instance : IsTrans (List Nat) record_le :=
  ⟨fun _ _ _ h1 h2 => ⟨h1.1.trans h2.1, memcmp_trans h1.1 h2.1 h1.2 h2.2⟩⟩

instance : IsAntisymm (List Nat) record_le :=
  ⟨fun a b h1 h2 => by
    have := memcmp_antisymm a b
    exact memcmp_eq_zero h1.1 (by have := h1.2; have := h2.2; omega)⟩

namespace HashArray

theorem sorted_records {s : HashArray} (h : s.wf)
    (hs : ∀ i, i + 1 < s.num_elements → memcmp (s.record i) (s.record (i + 1)) ≤ 0) :
    s.records.Sorted record_le := by
  unfold List.Sorted
  rw [← List.chain'_iff_pairwise, List.chain'_iff_get]
  intro i hi
  rw [length_records] at hi
  simp only [List.get_eq_getElem, getElem_records]
  exact ⟨by rw [length_record h (by omega), length_record h (by omega)], hs i (by omega)⟩

theorem buffer_eq_of_sorted_perm {s s1 : HashArray} (h : s.wf) (r : Rearranged s s1 0 (s.num_elements - 1))
    (hs : ∀ i, i + 1 < s.num_elements → memcmp (s.record i) (s.record (i + 1)) ≤ 0)
    (hs1 : ∀ i, i + 1 < s.num_elements → memcmp (s1.record i) (s1.record (i + 1)) ≤ 0) :
    s1.buffer = s.buffer := by
  have e : s1.records = s.records :=
    List.eq_of_perm_of_sorted r.perm (sorted_records r.wf (by rw [r.num]; exact hs1))
      (sorted_records h hs)
  exact buffer_ext h r.wf r.num r.size (record_eq_of_records_eq r.num e)

end HashArray

/-! ## The claims about the record store and the sort -/

/-- With a scratch block of at least `hash_size` bytes, for a store of at least one record:
`sort()` returns, and afterwards every adjacent pair of records is in non-decreasing lexicographic byte order: record `i+1` is not below
record `i`, that is `memcmp(record[i], record[i+1], W) <= 0`. -/
theorem sort_adjacent_ordered (s : HashArray) (fuel : Nat) (h : s.wf) (ht : s.scratch_ok)
    (hn : 1 ≤ s.num_elements) (hf : s.num_elements + 2 ≤ fuel) :
    ∃ s1, s.sort fuel = .ok s1 ∧ ∀ i, i + 1 < s.num_elements →
      s1.is_below (i + 1) i = .ok false ∧ memcmp (s1.record i) (s1.record (i + 1)) ≤ 0 := by
  obtain ⟨s1, e, r, hs⟩ := HashArray.sort_spec h ht hn hf
  refine ⟨s1, e, fun i hi => ⟨?_, ?_⟩⟩
  · rw [HashArray.is_below_eq r.wf (by rw [r.num]; exact hi) (by rw [r.num]; omega)]
    exact congrArg Except.ok (decide_eq_false (hs i hi))
  · have h1 := hs i hi
    have h2 := memcmp_antisymm (s1.record i) (s1.record (i + 1))
    omega

theorem sort_adjacent_ordered_witness :
    sample_store.wf ∧ sample_store.scratch_ok ∧
      ∃ s1, sample_store.sort 6 = .ok s1 ∧ ∀ i, i + 1 < sample_store.num_elements →
        s1.is_below (i + 1) i = .ok false ∧ memcmp (s1.record i) (s1.record (i + 1)) ≤ 0 :=
  ⟨by decide, by decide,
    sort_adjacent_ordered sample_store 6 (by decide) (by decide) (by decide) (by decide)⟩

/-- With a scratch block of at least `hash_size` bytes, for a store of at least one record:
`sort()` only permutes the records, the multiset of record values after it equals the multiset before it, and the record count, the record
width and the buffer length are unchanged. -/
theorem sort_permutes (s : HashArray) (fuel : Nat) (h : s.wf) (ht : s.scratch_ok)
    (hn : 1 ≤ s.num_elements) (hf : s.num_elements + 2 ≤ fuel) :
    ∃ s1, s.sort fuel = .ok s1 ∧ Multiset.ofList s1.records = Multiset.ofList s.records ∧
      s1.num_elements = s.num_elements ∧ s1.hash_size = s.hash_size ∧
      s1.buffer.length = s.buffer.length := by
  obtain ⟨s1, e, r, -⟩ := HashArray.sort_spec h ht hn hf
  exact ⟨s1, e, Multiset.coe_eq_coe.mpr r.perm, r.num, r.size,
    by rw [r.wf.1, h.1, r.num, r.size]⟩

theorem sort_permutes_witness :
    ∃ s1, sample_store.sort 6 = .ok s1 ∧
      Multiset.ofList s1.records = Multiset.ofList sample_store.records ∧
      s1.num_elements = sample_store.num_elements ∧ s1.hash_size = sample_store.hash_size ∧
      s1.buffer.length = sample_store.buffer.length :=
  sort_permutes sample_store 6 (by decide) (by decide) (by decide) (by decide)

/-- With a scratch block of at least `hash_size` bytes sorting is idempotent. For a store of at
least one record, sorting the result of
`sort()` again leaves the buffer as it is; and when the store is already in non-decreasing
order, `sort()` leaves the buffer byte for byte unchanged. -/
theorem sort_idempotent (s : HashArray) (fuel : Nat) (h : s.wf) (ht : s.scratch_ok)
    (hn : 1 ≤ s.num_elements) (hf : s.num_elements + 2 ≤ fuel) :
    (∃ s1 s2, s.sort fuel = .ok s1 ∧ s1.sort fuel = .ok s2 ∧ s2.buffer = s1.buffer) ∧
    ((∀ i, i + 1 < s.num_elements → memcmp (s.record i) (s.record (i + 1)) ≤ 0) →
      ∃ s1, s.sort fuel = .ok s1 ∧ s1.buffer = s.buffer) := by
  have key : ∀ t : HashArray, t.wf → t.scratch_ok → 1 ≤ t.num_elements →
      t.num_elements + 2 ≤ fuel →
      (∀ i, i + 1 < t.num_elements → memcmp (t.record i) (t.record (i + 1)) ≤ 0) →
      ∃ t1, t.sort fuel = .ok t1 ∧ t1.buffer = t.buffer := by
    intro t wt tt nt ft st
    obtain ⟨t1, e, r, hs⟩ := HashArray.sort_spec wt tt nt ft
    refine ⟨t1, e, HashArray.buffer_eq_of_sorted_perm wt r st ?_⟩
    intro i hi
    have h1 := hs i hi
    have h2 := memcmp_antisymm (t1.record i) (t1.record (i + 1))
    omega
  refine ⟨?_, key s h ht hn hf⟩
  obtain ⟨s1, e, r, hs⟩ := HashArray.sort_spec h ht hn hf
  obtain ⟨s2, e2, b2⟩ := key s1 r.wf r.scratch (by rw [r.num]; exact hn)
    (by rw [r.num]; exact hf) (by
      intro i hi
      have h1 := hs i (by rw [← r.num]; exact hi)
      have h2 := memcmp_antisymm (s1.record i) (s1.record (i + 1))
      omega)
  exact ⟨s1, s2, e, e2, b2⟩

theorem sort_idempotent_witness :
    (∃ s1 s2, equal_store.sort 5 = .ok s1 ∧ s1.sort 5 = .ok s2 ∧ s2.buffer = s1.buffer) ∧
      ∃ s1, equal_store.sort 5 = .ok s1 ∧ s1.buffer = equal_store.buffer :=
  have w := sort_idempotent equal_store 5 (by decide) (by decide) (by decide) (by decide)
  ⟨w.1, w.2 (by
    intro i hi
    have hi3 : i + 1 < 3 := hi
    have hi2 : i < 2 := by omega
    interval_cases i <;> decide)⟩

/-- C9: on valid indices `is_below(i, j)` returns a result, which is `true` exactly when
record `i` is lexicographically smaller than record `j`, bytes compared as unsigned values
from the first one on. The relation is irreflexive and transitive, and exactly one of
`is_below(i, j)`, `is_below(j, i)` and equality of the two records holds. The comparison gives
back a truth value only: the store is not among its results. -/
theorem is_below_strict_total (s : HashArray) (i j k : Nat) (h : s.wf)
    (hi : i < s.num_elements) (hj : j < s.num_elements) (hk : k < s.num_elements) :
    (∃ b, s.is_below i j = .ok b) ∧
    (s.is_below i j = .ok true ↔ List.Lex (· < ·) (s.record i) (s.record j)) ∧
    s.is_below i i = .ok false ∧
    (s.is_below i j = .ok true → s.is_below j k = .ok true → s.is_below i k = .ok true) ∧
    ((s.is_below i j = .ok true ∧ s.is_below j i = .ok false ∧ s.record i ≠ s.record j) ∨
      (s.is_below i j = .ok false ∧ s.is_below j i = .ok true ∧ s.record i ≠ s.record j) ∨
      (s.is_below i j = .ok false ∧ s.is_below j i = .ok false ∧ s.record i = s.record j)) := by
  have hli := HashArray.length_record h hi
  have hlj := HashArray.length_record h hj
  have hlk := HashArray.length_record h hk
  have ok_true : ∀ a b : Nat, a < s.num_elements → b < s.num_elements →
      (s.is_below a b = .ok true ↔ memcmp (s.record a) (s.record b) < 0) := by
    intro a b ha hb
    rw [HashArray.is_below_eq h ha hb]
    constructor
    · intro e
      exact of_decide_eq_true (Except.ok.inj e)
    · intro e
      exact congrArg Except.ok (decide_eq_true e)
  have ok_false : ∀ a b : Nat, a < s.num_elements → b < s.num_elements →
      (s.is_below a b = .ok false ↔ ¬ memcmp (s.record a) (s.record b) < 0) := by
    intro a b ha hb
    rw [HashArray.is_below_eq h ha hb]
    constructor
    · intro e
      exact of_decide_eq_false (Except.ok.inj e)
    · intro e
      exact congrArg Except.ok (decide_eq_false e)
  refine ⟨⟨_, HashArray.is_below_eq h hi hj⟩, ?_, ?_, ?_, ?_⟩
  · rw [ok_true i j hi hj, memcmp_lt_iff_lex (hli.trans hlj.symm)]
  · rw [ok_false i i hi hi, memcmp_self]
    omega
  · rw [ok_true i j hi hj, ok_true j k hj hk, ok_true i k hi hk]
    exact memcmp_trans_lt (hli.trans hlj.symm) (hlj.trans hlk.symm)
  · rw [ok_true i j hi hj, ok_true j i hj hi, ok_false i j hi hj, ok_false j i hj hi]
    have ha := memcmp_antisymm (s.record i) (s.record j)
    rcases lt_trichotomy (memcmp (s.record i) (s.record j)) 0 with hlt | heq | hgt
    · refine Or.inl ⟨hlt, by omega, ?_⟩
      intro e
      rw [e, memcmp_self] at hlt
      omega
    · exact Or.inr (Or.inr ⟨by omega, by omega, memcmp_eq_zero (hli.trans hlj.symm) heq⟩)
    · refine Or.inr (Or.inl ⟨by omega, by omega, ?_⟩)
      intro e
      rw [e, memcmp_self] at hgt
      omega

theorem is_below_strict_total_witness :
    (∃ b, sample_store.is_below 1 3 = .ok b) ∧
    (sample_store.is_below 1 3 = .ok true ↔
      List.Lex (· < ·) (sample_store.record 1) (sample_store.record 3)) ∧
    sample_store.is_below 1 1 = .ok false ∧
    (sample_store.is_below 1 3 = .ok true → sample_store.is_below 3 0 = .ok true →
      sample_store.is_below 1 0 = .ok true) ∧
    ((sample_store.is_below 1 3 = .ok true ∧ sample_store.is_below 3 1 = .ok false ∧
        sample_store.record 1 ≠ sample_store.record 3) ∨
      (sample_store.is_below 1 3 = .ok false ∧ sample_store.is_below 3 1 = .ok true ∧
        sample_store.record 1 ≠ sample_store.record 3) ∨
      (sample_store.is_below 1 3 = .ok false ∧ sample_store.is_below 3 1 = .ok false ∧
        sample_store.record 1 = sample_store.record 3)) :=
  is_below_strict_total sample_store 1 3 0 (by decide) (by decide) (by decide) (by decide)

/-- With a scratch block of at least `hash_size` bytes: on valid indices `swap(i, j)` returns a
store in which record `i` holds the former
bytes of record `j`, record `j` the former bytes of record `i`, and every other record is
unchanged, the buffer keeping its length; `swap(i, i)` leaves the whole buffer unchanged, and
`swap(i, j)` applied twice restores the original buffer. -/
theorem swap_exchanges (s : HashArray) (i j : Nat) (h : s.wf) (ht : s.scratch_ok)
    (hi : i < s.num_elements) (hj : j < s.num_elements) :
    ∃ s1, s.swap i j = .ok s1 ∧ s1.record i = s.record j ∧ s1.record j = s.record i ∧
      (∀ k, k ≠ i → k ≠ j → s1.record k = s.record k) ∧
      s1.buffer.length = s.buffer.length ∧ s1.num_elements = s.num_elements ∧
      s1.hash_size = s.hash_size ∧ (i = j → s1.buffer = s.buffer) ∧
      ∃ s2, s1.swap i j = .ok s2 ∧ s2.buffer = s.buffer := by
  obtain ⟨s1, e1, w1, t1, n1, z1, ri, rj, ro⟩ := HashArray.swap_spec h ht hi hj
  obtain ⟨s2, e2, w2, t2, n2, z2, ri2, rj2, ro2⟩ :=
    HashArray.swap_spec w1 t1 (by rw [n1]; exact hi) (by rw [n1]; exact hj)
  refine ⟨s1, e1, ri, rj, ro, by rw [w1.1, h.1, n1, z1], n1, z1, ?_, s2, e2, ?_⟩
  · intro hij
    apply HashArray.buffer_ext h w1 n1 z1
    intro k _
    by_cases hki : k = i
    · rw [hki, ri, hij]
    · exact ro k hki (by rw [← hij]; exact hki)
  · apply HashArray.buffer_ext h w2 (n2.trans n1) (z2.trans z1)
    intro k _
    by_cases hki : k = i
    · rw [hki, ri2, rj]
    · by_cases hkj : k = j
      · rw [hkj, rj2, ri]
      · rw [ro2 k hki hkj, ro k hki hkj]

theorem swap_exchanges_witness :
    ∃ s1, sample_store.swap 1 2 = .ok s1 ∧ s1.record 1 = sample_store.record 2 ∧
      s1.record 2 = sample_store.record 1 ∧
      (∀ k, k ≠ 1 → k ≠ 2 → s1.record k = sample_store.record k) ∧
      s1.buffer.length = sample_store.buffer.length ∧
      s1.num_elements = sample_store.num_elements ∧
      s1.hash_size = sample_store.hash_size ∧ (1 = 2 → s1.buffer = sample_store.buffer) ∧
      ∃ s2, s1.swap 1 2 = .ok s2 ∧ s2.buffer = sample_store.buffer :=
  swap_exchanges sample_store 1 2 (by decide) (by decide) (by decide) (by decide)


/-! ## The empty store -/

/-- C5: on an empty store `sort()` is not a no-op. `num_elements - 1` wraps to `2^64 - 1`,
`quicksort(0, 2^64 - 1)` enters `partition`, and its first comparison `is_below(0, 2^64 - 1)`
dereferences record `0` of a store without records; the part of `main` that follows the
loading of the file fails in the same way instead of printing nothing. -/
theorem sort_empty_store_faults (fuel w : Nat) (temp : List Nat) :
    (HashArray.mk [] 0 w temp).sort (fuel + 2) = .error Fault.index ∧
      (HashArray.mk [] 0 w temp).is_below 0 (SIZE_MOD - 1) = .error Fault.index ∧
      analyze (fuel + 2) [] w = .error Fault.index := by
  have hlast : (0 + SIZE_MOD - 1) % SIZE_MOD = SIZE_MOD - 1 := by decide
  have hlt : 0 < SIZE_MOD - 1 := by decide
  have hle : 0 ≤ SIZE_MOD - 1 := Nat.zero_le _
  have key : ∀ t : List Nat, (HashArray.mk [] 0 w t).sort (fuel + 2) = .error Fault.index := by
    intro t
    unfold HashArray.sort
    rw [hlast, HashArray.quicksort, if_pos hlt]
    unfold HashArray.partition
    rw [HashArray.partition_loop, if_pos hle]
    rfl
  refine ⟨key temp, rfl, ?_⟩
  unfold analyze HashArray.new
  rw [List.length_nil, Nat.zero_div]
  show (HashArray.sort (fuel + 2) (HashArray.mk [] 0 w [w % 256]) >>= _) = _
  rw [key]
  rfl


/-! ## Index validity -/

theorem readBytes_no_index (mem : List Nat) (off n : Nat) :
    readBytes mem off n ≠ .error Fault.index := by
  unfold readBytes
  split <;> simp

theorem writeBytes_no_index (mem : List Nat) (off : Nat) (src : List Nat) :
    writeBytes mem off src ≠ .error Fault.index := by
  unfold writeBytes
  split <;> simp

theorem bind_no_index {α β : Type} (x : Except Fault α) (f : α → Except Fault β)
    (hx : x ≠ .error Fault.index) (hf : ∀ a, x = .ok a → f a ≠ .error Fault.index) :
    (x >>= f) ≠ .error Fault.index := by
  cases x with
  | error e => simpa [bind, Except.bind] using hx
  | ok a => exact hf a rfl

namespace HashCount

theorem find_loop_no_index (hc : HashCount) (block v : List Nat) :
    ∀ n i p, find_loop hc block v n i p ≠ .error Fault.index := by
  intro n
  induction n with
  | zero => intro i p; simp [find_loop]
  | succ n ih =>
    intro i p
    rw [find_loop]
    apply bind_no_index _ _ (readBytes_no_index _ _ _)
    intro o _
    split
    · simp
    · exact ih _ _

theorem find_no_index (hc : HashCount) (v : List Nat) :
    hc.find v ≠ .error Fault.index := by
  unfold find
  split
  · simp
  · exact find_loop_no_index _ _ _ _ _ _

theorem count_up_no_index (hc : HashCount) (i : Nat) :
    hc.count_up i ≠ .error Fault.index := by
  unfold count_up
  split
  · split <;> simp
  · simp

theorem append_no_index (hc : HashCount) (v : List Nat) :
    hc.append v ≠ .error Fault.index := by
  unfold append
  simp only []
  split
  · apply bind_no_index _ _ (writeBytes_no_index _ _ _)
    intro b _
    split <;> simp [pure, Except.pure]
  · simp

theorem increase_no_index (hc : HashCount) (v : List Nat) :
    hc.increase v ≠ .error Fault.index := by
  unfold increase
  apply bind_no_index _ _ (find_no_index _ _)
  intro d _
  split
  · exact count_up_no_index _ _
  · exact append_no_index _ _

end HashCount

theorem scan_loop_no_index (s : HashArray) (h : s.wf) :
    ∀ n i prev hc, prev < s.num_elements → i + n ≤ s.num_elements →
      scan_loop s n i prev hc ≠ .error Fault.index := by
  intro n
  induction n with
  | zero => intro i prev hc _ _; simp [scan_loop]
  | succ n ih =>
    intro i prev hc hp hi
    have hin : i < s.num_elements := by omega
    rw [scan_loop, HashArray.record_at_eq h hin, HashArray.record_at_eq h hp]
    show (if _ then _ else _) ≠ _
    split
    · apply bind_no_index _ _ (HashCount.increase_no_index _ _)
      intro hc1 _
      exact ih _ _ _ hp (by omega)
    · exact ih _ _ _ hin (by omega)

/-- With a scratch block of at least `hash_size` bytes, for a store of at least one record:
`sort()` runs to its end without a fault, so
every index that `partition` and the recursive `quicksort` calls hand to `is_below` and `swap`
is below `num_elements` (the model faults on any other index, among them one obtained by
wrapping `p - 1`); the collision scan of the sorted store dereferences valid indices only; and
`partition` returns a boundary inside `first..last`. -/
theorem indices_valid (s : HashArray) (fuel : Nat) (h : s.wf) (ht : s.scratch_ok)
    (hn : 1 ≤ s.num_elements) (hf : s.num_elements + 2 ≤ fuel) :
    (∃ s1, s.sort fuel = .ok s1 ∧ scan s1 ≠ .error Fault.index) ∧
    (∀ i j, s.num_elements ≤ i ∨ s.num_elements ≤ j →
      s.is_below i j = .error Fault.index ∧ s.swap i j = .error Fault.index) ∧
    (∀ first last, first ≤ last → last < s.num_elements →
      ∃ s1 p, s.partition fuel first last = .ok (s1, p) ∧ first ≤ p ∧ p ≤ last) := by
  refine ⟨?_, ?_, ?_⟩
  · obtain ⟨s1, e, r, -⟩ := HashArray.sort_spec h ht hn hf
    refine ⟨s1, e, ?_⟩
    unfold scan
    exact scan_loop_no_index s1 r.wf _ _ _ _ (by rw [r.num]; omega) (by rw [r.num]; omega)
  · intro i j hij
    by_cases hi : i < s.num_elements
    · have hj : ¬ j < s.num_elements := by omega
      have ei := HashArray.record_at_eq h hi
      have hw : writeBytes s.temp 0 (s.record i) = .ok (s.temp.take 0 ++ s.record i ++
          s.temp.drop (0 + (s.record i).length)) := by
        unfold writeBytes
        rw [if_pos (by rw [HashArray.length_record h hi, Nat.zero_add]; exact ht)]
      constructor
      · unfold HashArray.is_below
        rw [ei, HashArray.record_at_fault hj]; rfl
      · unfold HashArray.swap
        rw [ei]
        simp only [bind, Except.bind, hw]
        rw [HashArray.record_at_fault (by exact hj)]
    · have ei := HashArray.record_at_fault hi
      constructor
      · unfold HashArray.is_below
        rw [ei]; rfl
      · unfold HashArray.swap
        rw [ei]; rfl
  · intro first last hfl hl
    obtain ⟨s1, p, e, hp, hpl, -⟩ := HashArray.partition_spec fuel h ht hfl hl (by omega)
    exact ⟨s1, p, e, hp, hpl⟩

theorem indices_valid_witness :
    (∃ s1, sample_store.sort 6 = .ok s1 ∧ scan s1 ≠ .error Fault.index) ∧
    (∀ i j, sample_store.num_elements ≤ i ∨ sample_store.num_elements ≤ j →
      sample_store.is_below i j = .error Fault.index ∧
        sample_store.swap i j = .error Fault.index) ∧
    (∀ first last, first ≤ last → last < sample_store.num_elements →
      ∃ s1 p, sample_store.partition 6 first last = .ok (s1, p) ∧ first ≤ p ∧ p ≤ last) :=
  indices_valid sample_store 6 (by decide) (by decide) (by decide) (by decide)


/-! ## The table of duplicates: the 32-bit size of the value block -/

namespace HashCount

theorem grow_new (w : Nat) :
    (HashCount.new w).grow =
      { hash_size := w, hashes := some (List.replicate ((w * 8192) % UINT_MOD) 0),
        counts := some (List.replicate 8192 0), num_items := 0, capacity := 8192 } := by
  unfold grow new realloc
  rw [if_pos rfl]
  have e : (0 + 8192) % UINT_MOD = 8192 := by decide
  simp only [e]

theorem increase_new_overflow (w : Nat) (v : List Nat) (hv : v.length = w)
    (hw : (w * 8192) % UINT_MOD < w) : (HashCount.new w).increase v = .error Fault.bounds := by
  have hf : (HashCount.new w).find v = .ok none := rfl
  unfold increase
  rw [hf]
  show (HashCount.new w).append v = _
  unfold append
  rw [grow_new]
  simp only [bind, Except.bind, writeBytes]
  rw [if_neg (by rw [List.length_replicate, hv]; omega)]

end HashCount

theorem scan_overflow (s : HashArray) (h : s.wf) (hn : 2 ≤ s.num_elements)
    (he : s.record 1 = s.record 0) (hw : (s.hash_size * 8192) % UINT_MOD < s.hash_size) :
    scan s = .error Fault.bounds := by
  unfold scan
  obtain ⟨n, hn1⟩ : ∃ n, s.num_elements - 1 = n + 1 := ⟨s.num_elements - 2, by omega⟩
  rw [hn1, scan_loop, HashArray.record_at_eq h (by omega), HashArray.record_at_eq h (by omega)]
  simp only [bind, Except.bind, he, memcmp_self, if_true]
  rw [HashCount.increase_new_overflow _ _ (by rw [← he]; exact HashArray.length_record h (by omega)) hw]


theorem wide_buffer_wf (t : List Nat) :
    (HashArray.mk (List.replicate 1048578 0) 2 524289 t).wf := by
  unfold HashArray.wf
  simp only [List.length_replicate]
  decide

theorem wide_buffer_records (t : List Nat) :
    (HashArray.mk (List.replicate 1048578 0) 2 524289 t).record 1 =
      (HashArray.mk (List.replicate 1048578 0) 2 524289 t).record 0 := by
  unfold HashArray.record
  simp only [List.drop_replicate, List.take_replicate]
  congr 1

theorem wide_store_wf : wide_store.wf := wide_buffer_wf _

theorem wide_store_records : wide_store.record 1 = wide_store.record 0 :=
  wide_buffer_records _

/-- C3: the collision scan of the sorted store of two equal records of 524289 bytes does not
end with the entry `(v, 1)`. `increase` sizes the value block as `hash_size * capacity` in
`unsigned int`: `524289 * 8192` wraps to `8192` bytes, and the copy of the 524289 bytes of the
record into that block runs past its end. -/
theorem scan_wide_store_overflows :
    wide_store.wf ∧ wide_store.record 0 = wide_store.record 1 ∧
      (wide_store.hash_size * 8192) % UINT_MOD = 8192 ∧
      scan wide_store = .error Fault.bounds :=
  ⟨wide_store_wf, wide_store_records.symm, by decide,
    scan_overflow wide_store wide_store_wf (by decide) wide_store_records (by decide)⟩


namespace HashArray

theorem sort_two_equal_small_scratch (s : HashArray) (fuel : Nat) (h : s.wf)
    (hn : s.num_elements = 2) (he : s.record 0 = s.record 1)
    (ht : s.temp.length < s.hash_size) : s.sort (fuel + 4) = .error Fault.bounds := by
  have h0 : 0 < s.num_elements := by omega
  have h1 : 1 < s.num_elements := by omega
  have hlast : (s.num_elements + SIZE_MOD - 1) % SIZE_MOD = 1 := by rw [hn]; decide
  have hb01 : s.is_below 0 1 = .ok false := by
    rw [is_below_eq h h0 h1, he, memcmp_self]; rfl
  have hb11 : s.is_below 1 1 = .ok false := by
    rw [is_below_eq h h1 h1, memcmp_self]; rfl
  have hm1 : (0 + 1) % SIZE_MOD = 1 := by decide
  have hm2 : (1 + 1) % SIZE_MOD = 2 := by decide
  have hloop : partition_loop 1 (fuel + 3) s 0 0 = .ok (s, 0) := by
    rw [partition_loop, if_pos (by decide), hb01]
    simp only [bind, Except.bind, hm1, Bool.false_eq_true, if_false]
    rw [partition_loop, if_pos (by decide), hb11]
    simp only [bind, Except.bind, hm2, Bool.false_eq_true, if_false]
    rw [partition_loop, if_neg (by decide)]
  have hswap : s.swap 0 1 = .error Fault.bounds := by
    unfold swap
    rw [record_at_eq h h0]
    simp only [bind, Except.bind, writeBytes]
    rw [if_neg (by rw [length_record h h0]; omega)]
  unfold sort
  rw [hlast, quicksort, if_pos (by decide)]
  unfold partition
  rw [hloop]
  simp only [bind, Except.bind, hswap]

end HashArray

theorem analyze_eq (fuel : Nat) (buffer : List Nat) (w : Nat) :
    analyze fuel buffer w =
      (HashArray.sort fuel (HashArray.mk buffer (buffer.length / w) w [w % 256]) >>=
        fun sorted => scan sorted >>= fun d => d.entries) := rfl

theorem wide_buffer_count : (List.replicate 1048578 0).length / 524289 = 2 := by
  rw [List.length_replicate]

theorem sort_wide_buffer_faults (fuel : Nat) :
    HashArray.sort (fuel + 4)
      (HashArray.mk (List.replicate 1048578 0) 2 524289 [524289 % 256]) =
        .error Fault.bounds :=
  HashArray.sort_two_equal_small_scratch
    (HashArray.mk (List.replicate 1048578 0) 2 524289 [524289 % 256]) fuel
    (wide_buffer_wf _) rfl (wide_buffer_records _).symm
    (by show [524289 % 256].length < 524289; decide)

/-- C4: end to end on the input of two equal records of 524289 bytes, nothing is reported
instead of the one duplicated value. The constructor gives the store a scratch block of one
byte, and the first `swap` of the sort copies a record of 524289 bytes into it. -/
theorem analyze_wide_input_faults (fuel : Nat) :
    analyze (fuel + 4) (List.replicate 1048578 0) 524289 = .error Fault.bounds := by
  rw [analyze_eq, wide_buffer_count, sort_wide_buffer_faults]
  rfl

/-! ## The scenarios of the specification, one byte per record -/

theorem scenario_one_duplicate : analyze 6 [5, 1, 5, 2] 1 = .ok [([5], 1)] := by
  decide!

theorem scenario_all_equal : analyze 5 [3, 3, 3] 1 = .ok [([3], 2)] := by
  decide!

theorem scenario_all_distinct : analyze 5 [1, 2, 3] 1 = .ok [] := by
  decide!

theorem scenario_scratch_of_one_byte :
    (HashArray.new [0, 1, 0, 0] 2 2).sort 4 = .error Fault.bounds := by
  decide


/-! ## Entries and submissions, abstractly -/

theorem keys_bump (t : List (List Nat × Nat)) (v : List Nat) :
    (bump t v).map Prod.fst =
      if v ∈ t.map Prod.fst then t.map Prod.fst else t.map Prod.fst ++ [v] := by
  induction t with
  | nil => simp [bump]
  | cons e t ih =>
    by_cases he : e.1 = v
    · simp [bump, he]
    · have hne : ¬ v = e.1 := fun h => he h.symm
      simp only [bump, he, if_false, List.map_cons, ih, List.mem_cons, hne, false_or]
      split <;> simp

theorem countOf_bump (t : List (List Nat × Nat)) (v u : List Nat) :
    countOf (bump t v) u = countOf t u + if u = v then 1 else 0 := by
  induction t with
  | nil =>
    by_cases h : u = v
    · simp [bump, countOf, h]
    · have h1 : ¬ v = u := fun e => h e.symm
      simp [bump, countOf, h, h1]
  | cons e t ih =>
    by_cases he : e.1 = v
    · by_cases hu : u = v
      · simp [bump, countOf, he, hu]
      · have h1 : ¬ v = u := fun e => hu e.symm
        simp [bump, countOf, he, hu, h1]
    · by_cases heu : e.1 = u
      · have hu : ¬ u = v := fun h => he (heu.trans h)
        simp [bump, countOf, he, heu, hu]
      · simp [bump, countOf, he, heu, ih]

theorem bump_counts_pos (t : List (List Nat × Nat)) (v : List Nat)
    (h : ∀ e ∈ t, 1 ≤ e.2) : ∀ e ∈ bump t v, 1 ≤ e.2 := by
  induction t with
  | nil => intro e he; simp [bump] at he; rw [he]
  | cons a t ih =>
    intro e he
    by_cases ha : a.1 = v
    · simp only [bump, ha, if_true, List.mem_cons] at he
      rcases he with he | he
      · rw [he]; simp
      · exact h e (List.mem_cons_of_mem _ he)
    · simp only [bump, ha, if_false, List.mem_cons] at he
      rcases he with he | he
      · rw [he]; exact h a (List.mem_cons_self _ _)
      · exact ih (fun x hx => h x (List.mem_cons_of_mem _ hx)) e he

theorem mem_of_countOf_pos (t : List (List Nat × Nat)) (v : List Nat)
    (h : 0 < countOf t v) : (v, countOf t v) ∈ t := by
  induction t with
  | nil => simp [countOf] at h
  | cons e t ih =>
    by_cases he : e.1 = v
    · simp only [countOf, he, if_true]
      rw [← he]
      exact List.mem_cons_self _ _
    · simp only [countOf, he, if_false] at h ⊢
      exact List.mem_cons_of_mem _ (ih h)

theorem countOf_of_mem (t : List (List Nat × Nat)) (v : List Nat) (c : Nat)
    (hn : (t.map Prod.fst).Nodup) (h : (v, c) ∈ t) : countOf t v = c := by
  induction t with
  | nil => simp at h
  | cons e t ih =>
    rw [List.map_cons, List.nodup_cons] at hn
    rcases List.mem_cons.mp h with he | he
    · rw [← he]; simp [countOf]
    · have hne : e.1 ≠ v := by
        intro e1
        apply hn.1
        rw [e1]
        exact List.mem_map_of_mem Prod.fst he
      simp only [countOf, hne, if_false]
      exact ih hn.2 he

/-- The table that a sequence of submissions builds from a table `t`. -/
theorem foldl_bump_spec (sub : List (List Nat)) :
    ∀ (t : List (List Nat × Nat)), (t.map Prod.fst).Nodup → (∀ e ∈ t, 1 ≤ e.2) →
      ((sub.foldl bump t).map Prod.fst).Nodup ∧ (∀ e ∈ sub.foldl bump t, 1 ≤ e.2) ∧
      ∀ u, countOf (sub.foldl bump t) u = countOf t u + sub.count u := by
  induction sub with
  | nil => intro t hn hp; exact ⟨hn, hp, fun u => by simp⟩
  | cons v sub ih =>
    intro t hn hp
    have hn1 : ((bump t v).map Prod.fst).Nodup := by
      rw [keys_bump]
      split
      · exact hn
      · rename_i hv
        rw [List.nodup_append]
        refine ⟨hn, List.nodup_singleton _, ?_⟩
        intro a ha hb
        rw [List.mem_singleton] at hb
        exact hv (hb ▸ ha)
    obtain ⟨h1, h2, h3⟩ := ih (bump t v) hn1 (bump_counts_pos t v hp)
    refine ⟨h1, h2, ?_⟩
    intro u
    rw [List.foldl_cons, h3, countOf_bump, List.count_cons]
    by_cases huv : u = v
    · subst huv; simp; omega
    · have h4 : ¬ v = u := fun e => huv e.symm
      simp [huv, h4]

theorem keys_foldl_bump_subset (sub : List (List Nat)) :
    ∀ (t : List (List Nat × Nat)), ∀ k ∈ (sub.foldl bump t).map Prod.fst,
      k ∈ t.map Prod.fst ∨ k ∈ sub := by
  induction sub with
  | nil => intro t k hk; exact Or.inl hk
  | cons v sub ih =>
    intro t k hk
    rcases ih (bump t v) k hk with h | h
    · rw [keys_bump] at h
      split at h
      · exact Or.inl h
      · rcases List.mem_append.mp h with h1 | h1
        · exact Or.inl h1
        · rw [List.mem_singleton] at h1
          exact Or.inr (h1 ▸ List.mem_cons_self _ _)
    · exact Or.inr (List.mem_cons_of_mem _ h)


theorem submitted_sublist (l : List (List Nat)) :
    ∀ p, (submitted p l).Sublist l := by
  induction l with
  | nil => intro p; exact List.Sublist.slnil
  | cons x xs ih =>
    intro p
    by_cases h : x = p
    · simp only [submitted, h, if_true]
      exact (ih p).cons₂ _
    · simp only [submitted, h, if_false]
      exact (ih x).cons _

theorem not_mem_of_sorted_ne (p x : List Nat) (xs : List (List Nat))
    (hs : (p :: x :: xs).Sorted record_le) (hne : x ≠ p) : p ∉ x :: xs := by
  unfold List.Sorted at hs
  rw [List.pairwise_cons, List.pairwise_cons] at hs
  obtain ⟨hp, hx, -⟩ := hs
  intro hmem
  rcases List.mem_cons.mp hmem with h | h
  · exact hne h.symm
  · exact hne (antisymm (hx p h) (hp x (List.mem_cons_self _ _)))

theorem count_submitted (l : List (List Nat)) :
    ∀ p, (p :: l).Sorted record_le → ∀ v, (submitted p l).count v = (p :: l).count v - 1 := by
  induction l with
  | nil =>
    intro p _ v
    simp only [submitted, List.count_nil, List.count_cons]
    split <;> rfl
  | cons x xs ih =>
    intro p hs v
    have hs1 : (x :: xs).Sorted record_le := (List.pairwise_cons.mp hs).2
    by_cases h : x = p
    · have hs2 : (p :: xs).Sorted record_le := by rw [← h]; exact hs1
      simp only [submitted, h, if_true]
      rw [List.count_cons, ih p hs2 v, List.count_cons, List.count_cons, List.count_cons]
      split <;> omega
    · simp only [submitted, h, if_false]
      rw [ih x hs1 v, List.count_cons (a := v) (b := p)]
      by_cases hpv : p = v
      · have h0 : (x :: xs).count v = 0 := by
          rw [← hpv]
          exact List.count_eq_zero.mpr (not_mem_of_sorted_ne p x xs hs h)
        simp [hpv, h0]
      · simp [hpv]

theorem below_of_le_of_ne {a b : List Nat} (h : record_le a b) (hne : a ≠ b) :
    memcmp a b < 0 := by
  rcases lt_or_eq_of_le h.2 with h1 | h1
  · exact h1
  · exact absurd (memcmp_eq_zero h.1 h1) hne

theorem keys_foldl_bump_ascending (sub : List (List Nat)) :
    ∀ (t : List (List Nat × Nat)), sub.Sorted record_le →
      (t.map Prod.fst).Pairwise (fun a b => memcmp a b < 0) →
      (∀ k ∈ t.map Prod.fst, ∀ x ∈ sub, record_le k x) →
      ((sub.foldl bump t).map Prod.fst).Pairwise (fun a b => memcmp a b < 0) := by
  induction sub with
  | nil => intro t _ hp _; exact hp
  | cons v sub ih =>
    intro t hs hp hle
    have hs1 := List.pairwise_cons.mp hs
    rw [List.foldl_cons]
    apply ih (bump t v) hs1.2
    · rw [keys_bump]
      split
      · exact hp
      · rename_i hv
        rw [List.pairwise_append]
        refine ⟨hp, List.pairwise_singleton _ _, ?_⟩
        intro a ha b hb
        rw [List.mem_singleton] at hb
        rw [hb]
        apply below_of_le_of_ne (hle a ha v (List.mem_cons_self _ _))
        intro e
        exact hv (e ▸ ha)
    · intro k hk x hx
      rw [keys_bump] at hk
      split at hk
      · exact hle k hk x (List.mem_cons_of_mem _ hx)
      · rcases List.mem_append.mp hk with h1 | h1
        · exact hle k h1 x (List.mem_cons_of_mem _ hx)
        · rw [List.mem_singleton] at h1
          rw [h1]
          exact hs1.1 x hx

/-- The table built from the submissions of a scan over an ordered list of records: every
value that occurs `k ≥ 2` times has the entry with count `k - 1`, no other value has an entry,
no value has two entries, and the values ascend. -/
theorem table_of_sorted (l : List (List Nat)) (hs : l.Sorted record_le) :
    (∀ v, 2 ≤ l.count v → (v, l.count v - 1) ∈ (dup_submissions l).foldl bump []) ∧
    (∀ v c, (v, c) ∈ (dup_submissions l).foldl bump [] → 2 ≤ l.count v ∧ c = l.count v - 1) ∧
    (((dup_submissions l).foldl bump []).map Prod.fst).Nodup ∧
    (((dup_submissions l).foldl bump []).map Prod.fst).Pairwise
      (fun a b => memcmp a b < 0) := by
  cases l with
  | nil =>
    refine ⟨fun v hv => ?_, fun v c hvc => ?_, ?_, ?_⟩
    · simp at hv
    · simp [dup_submissions] at hvc
    · simp [dup_submissions]
    · simp [dup_submissions]
  | cons p xs =>
    obtain ⟨hn, hpos, hc⟩ := foldl_bump_spec (submitted p xs) [] List.nodup_nil
      (fun e he => by simp at he)
    have hcount : ∀ u, countOf ((submitted p xs).foldl bump []) u = (p :: xs).count u - 1 := by
      intro u
      rw [hc u, count_submitted xs p hs u]
      simp [countOf]
    refine ⟨fun v hv => ?_, fun v c hvc => ?_, hn, ?_⟩
    · have h1 := mem_of_countOf_pos ((submitted p xs).foldl bump []) v (by rw [hcount]; omega)
      rw [hcount] at h1
      exact h1
    · have h1 := countOf_of_mem _ v c hn hvc
      have h2 := hpos _ hvc
      rw [hcount] at h1
      simp only at h2
      omega
    · apply keys_foldl_bump_ascending _ _
        (List.Pairwise.sublist (submitted_sublist xs p) (List.pairwise_cons.mp hs).2)
      · simp
      · intro k hk; simp at hk


/-! ## The table of duplicates: `increase` on a table whose sizes have not wrapped -/

theorem bump_eq_append (t : List (List Nat × Nat)) (v : List Nat)
    (h : ∀ e ∈ t, e.1 ≠ v) : bump t v = t ++ [(v, 1)] := by
  induction t with
  | nil => rfl
  | cons e t ih =>
    have he : e.1 ≠ v := h e (List.mem_cons_self _ _)
    simp only [bump, he, if_false, List.cons_append]
    rw [ih (fun x hx => h x (List.mem_cons_of_mem _ hx))]

theorem bump_eq_set (t : List (List Nat × Nat)) (v : List Nat) :
    ∀ (j : Nat) (hj : j < t.length), t[j].1 = v →
      (∀ k (hk : k < j), (t[k]).1 ≠ v) → bump t v = t.set j (v, t[j].2 + 1) := by
  induction t with
  | nil => intro j hj; simp at hj
  | cons e t ih =>
    intro j hj hv hfirst
    cases j with
    | zero =>
      simp only [List.getElem_cons_zero] at hv
      simp [bump, hv]
    | succ j =>
      have he : e.1 ≠ v := hfirst 0 (Nat.succ_pos _)
      simp only [bump, he, if_false, List.set_cons_succ, List.getElem_cons_succ]
      rw [ih j (by simpa using hj) (by simpa using hv)]
      intro k hk
      have := hfirst (k + 1) (by omega)
      simpa using this

namespace HashCount

theorem length_view (hc : HashCount) : hc.view.length = hc.num_items := by
  simp [view]

theorem getElem_view (hc : HashCount) (k : Nat) (hk : k < hc.view.length) :
    hc.view[k] = (hc.key k, hc.cells.getD k 0) := by
  simp [view]

theorem entry_offset {hc : HashCount} (h : hc.Inv) {i : Nat} (hi : i < hc.capacity) :
    i * hc.hash_size + hc.hash_size ≤ hc.block.length ∧ i * hc.hash_size < UINT_MOD := by
  obtain ⟨-, h2, -, h4, -⟩ := h
  have e : i * hc.hash_size + hc.hash_size ≤ hc.hash_size * hc.capacity := by
    calc i * hc.hash_size + hc.hash_size = hc.hash_size * (i + 1) := by ring
      _ ≤ hc.hash_size * hc.capacity := Nat.mul_le_mul_left _ hi
  constructor
  · rw [h4]; exact e
  · omega

theorem length_key {hc : HashCount} (h : hc.Inv) {i : Nat} (hi : i < hc.capacity) :
    (hc.key i).length = hc.hash_size := by
  have h1 := (entry_offset h hi).1
  unfold key
  simp only [List.length_take, List.length_drop]
  omega

theorem find_loop_spec (hc : HashCount) (h : hc.Inv) (v : List Nat)
    (hv : v.length = hc.hash_size) :
    ∀ n i, i + n = hc.num_items →
      (∃ j, find_loop hc hc.block v n i (i * hc.hash_size) = .ok (some j) ∧ i ≤ j ∧
        j < hc.num_items ∧ hc.key j = v ∧ ∀ k, i ≤ k → k < j → hc.key k ≠ v) ∨
      (find_loop hc hc.block v n i (i * hc.hash_size) = .ok none ∧
        ∀ k, i ≤ k → k < hc.num_items → hc.key k ≠ v) := by
  intro n
  induction n with
  | zero =>
    intro i hi
    right
    exact ⟨rfl, fun k h1 h2 => by omega⟩
  | succ n ih =>
    intro i hi
    have hic : i < hc.capacity := by have := h.1; omega
    have hr : readBytes hc.block (i * hc.hash_size) hc.hash_size = .ok (hc.key i) := by
      unfold readBytes
      rw [if_pos (entry_offset h hic).1]
      rfl
    rw [find_loop, hr]
    by_cases hm : memcmp (hc.key i) v = 0
    · left
      refine ⟨i, ?_, le_refl _, by omega,
        memcmp_eq_zero ((length_key h hic).trans hv.symm) hm, fun k h1 h2 => by omega⟩
      simp only [bind, Except.bind, hm, if_true]
    · have hne : hc.key i ≠ v := by
        intro e
        rw [e, memcmp_self] at hm
        exact hm rfl
      have e1 : i * hc.hash_size + hc.hash_size = (i + 1) * hc.hash_size := by ring
      simp only [bind, Except.bind, hm, if_false]
      rw [e1]
      rcases ih (i + 1) (by omega) with ⟨j, e, h1, h2, h3, h4⟩ | ⟨e, h1⟩
      · left
        refine ⟨j, e, by omega, h2, h3, ?_⟩
        intro k hk1 hk2
        by_cases hki : k = i
        · rw [hki]; exact hne
        · exact h4 k (by omega) hk2
      · right
        refine ⟨e, ?_⟩
        intro k hk1 hk2
        by_cases hki : k = i
        · rw [hki]; exact hne
        · exact h1 k (by omega) hk2

theorem find_spec (hc : HashCount) (h : hc.Inv) (v : List Nat)
    (hv : v.length = hc.hash_size) :
    (∃ j, hc.find v = .ok (some j) ∧ j < hc.num_items ∧ hc.key j = v ∧
        ∀ k, k < j → hc.key k ≠ v) ∨
      (hc.find v = .ok none ∧ ∀ k, k < hc.num_items → hc.key k ≠ v) := by
  unfold find
  cases hh : hc.hashes with
  | none =>
    right
    refine ⟨rfl, ?_⟩
    intro k hk
    have h0 := h.2.2.2.2.2.2 hh
    have := h.1
    omega
  | some b =>
    have hb : hc.block = b := by unfold block; rw [hh]; rfl
    have key := find_loop_spec hc h v hv hc.num_items 0 (by omega)
    rw [hb, Nat.zero_mul] at key
    rcases key with ⟨j, e, -, h2, h3, h4⟩ | ⟨e, h1⟩
    · left
      exact ⟨j, e, h2, h3, fun k hk => h4 k (Nat.zero_le _) hk⟩
    · right
      exact ⟨e, fun k hk => h1 k (Nat.zero_le _) hk⟩


theorem count_up_spec (hc : HashCount) (h : hc.Inv) (j : Nat) (hj : j < hc.num_items)
    (hn : hc.cells.getD j 0 + 1 < SIZE_MOD) :
    ∃ hc1, hc.count_up j = .ok hc1 ∧ hc1.Inv ∧ hc1.hash_size = hc.hash_size ∧
      hc1.num_items = hc.num_items ∧
      hc1.view = hc.view.set j (hc.key j, hc.cells.getD j 0 + 1) := by
  obtain ⟨h1, h2, h3, h4, h5, h6, h7⟩ := h
  cases hcs : hc.counts with
  | none =>
    have : hc.cells.length = 0 := by unfold cells; rw [hcs]; rfl
    omega
  | some cs =>
    have hcells : hc.cells = cs := by unfold cells; rw [hcs]; rfl
    have hjl : j < cs.length := by rw [← hcells]; omega
    have hmod : (cs.getD j 0 + 1) % SIZE_MOD = cs.getD j 0 + 1 := by
      rw [← hcells]; exact Nat.mod_eq_of_lt hn
    refine ⟨{ hc with counts := some (cs.set j (cs.getD j 0 + 1)) }, ?_, ?_, rfl, rfl, ?_⟩
    · unfold count_up
      simp only [hcs, if_pos hjl, hmod]
    · refine ⟨h1, h2, h3, h4, ?_, ?_, h7⟩
      · show (cs.set j _).length = _
        rw [List.length_set, ← hcells]; exact h5
      · constructor
        · intro e
          have := h6.mp e
          rw [hcs] at this
          cases this
        · intro e
          cases e
    · apply List.ext_getElem
      · simp [view]
      · intro k hk1 hk2
        rw [List.getElem_set]
        simp only [view, List.getElem_map, List.getElem_range, key, block, cells, hcs,
          Option.getD_some, List.getD_eq_getElem?_getD, List.getElem?_set]
        by_cases hjk : j = k
        · subst hjk
          simp [hjl]
        · simp [hjk]

theorem take_drop_append_left (b pad : List Nat) (n m : Nat) (h : n + m ≤ b.length) :
    ((b ++ pad).drop n).take m = (b.drop n).take m := by
  rw [List.drop_append_of_le_length (by omega), List.take_append_of_le_length (by simp; omega)]

theorem realloc_eq (p : Option (List Nat)) (size : Nat) (h : (p.getD []).length ≤ size) :
    realloc p size = p.getD [] ++ List.replicate (size - (p.getD []).length) 0 := by
  cases p with
  | none => simp [realloc]
  | some old =>
    simp only [realloc, Option.getD_some] at h ⊢
    rw [List.take_of_length_le h]

theorem grow_spec (hc : HashCount) (h : hc.Inv) (hw : 0 < hc.hash_size)
    (hroom : hc.hash_size * (hc.num_items + 8192) < UINT_MOD) :
    hc.grow.Inv ∧ hc.grow.hash_size = hc.hash_size ∧ hc.grow.num_items = hc.num_items ∧
      hc.num_items < hc.grow.capacity ∧ hc.grow.view = hc.view ∧
      hc.grow.hashes = some hc.grow.block ∧ hc.grow.counts = some hc.grow.cells := by
  obtain ⟨h1, h2, h3, h4, h5, h6, h7⟩ := h
  by_cases hfull : hc.num_items = hc.capacity
  · have hcap : hc.num_items + 8192 < UINT_MOD := by
      calc hc.num_items + 8192 = 1 * (hc.num_items + 8192) := by ring
        _ ≤ hc.hash_size * (hc.num_items + 8192) := Nat.mul_le_mul_right _ hw
        _ < UINT_MOD := hroom
    have e1 : (hc.capacity + 8192) % UINT_MOD = hc.capacity + 8192 := by
      rw [← hfull]; exact Nat.mod_eq_of_lt hcap
    have e2 : (hc.hash_size * (hc.capacity + 8192)) % UINT_MOD =
        hc.hash_size * (hc.capacity + 8192) := by
      rw [← hfull]; exact Nat.mod_eq_of_lt hroom
    have hle : hc.hash_size * hc.capacity ≤ hc.hash_size * (hc.capacity + 8192) :=
      Nat.mul_le_mul_left _ (by omega)
    have eg : hc.grow = { hc with
        capacity := hc.capacity + 8192
        hashes := some (hc.block ++
          List.replicate (hc.hash_size * (hc.capacity + 8192) - hc.block.length) 0)
        counts := some (hc.cells ++ List.replicate (hc.capacity + 8192 - hc.cells.length) 0) } := by
      unfold grow
      rw [if_pos hfull]
      simp only [e1, e2]
      rw [realloc_eq hc.hashes _ (by show hc.block.length ≤ _; rw [h4]; exact hle),
        realloc_eq hc.counts _ (by show hc.cells.length ≤ _; rw [h5]; omega)]
      rfl
    rw [eg]
    refine ⟨⟨?_, ?_, ?_, ?_, ?_, ?_, ?_⟩, rfl, rfl, ?_, ?_, rfl, rfl⟩
    · show hc.num_items ≤ hc.capacity + 8192
      omega
    · show hc.hash_size * (hc.capacity + 8192) < UINT_MOD
      rw [← hfull]; exact hroom
    · show hc.capacity + 8192 < UINT_MOD
      rw [← hfull]; exact hcap
    · show (hc.block ++ List.replicate _ 0).length = hc.hash_size * (hc.capacity + 8192)
      rw [List.length_append, List.length_replicate, h4]
      omega
    · show (hc.cells ++ List.replicate _ 0).length = hc.capacity + 8192
      rw [List.length_append, List.length_replicate, h5]
      omega
    · constructor <;> intro e <;> cases e
    · intro e; cases e
    · show hc.num_items < hc.capacity + 8192
      omega
    · show (List.range hc.num_items).map (fun i =>
          (List.take hc.hash_size (List.drop (i * hc.hash_size) (hc.block ++ _)),
            List.getD (hc.cells ++ _) i 0)) =
        (List.range hc.num_items).map (fun i => (hc.key i, hc.cells.getD i 0))
      apply List.map_congr_left
      intro k hk
      have hk1 : k < hc.capacity := by have := List.mem_range.mp hk; omega
      have hoff := (entry_offset ⟨h1, h2, h3, h4, h5, h6, h7⟩ hk1).1
      rw [take_drop_append_left _ _ _ _ hoff, List.getD_append _ _ _ _ (by omega)]
      rfl
  · have hlt : hc.num_items < hc.capacity := by omega
    have eg : hc.grow = hc := by unfold grow; rw [if_neg hfull]
    rw [eg]
    have hh : hc.hashes ≠ none := fun e => by have := h7 e; omega
    have hcn : hc.counts ≠ none := fun e => hh (h6.mpr e)
    refine ⟨⟨h1, h2, h3, h4, h5, h6, h7⟩, rfl, rfl, hlt, rfl, ?_, ?_⟩
    · unfold block
      cases hx : hc.hashes with
      | none => exact absurd hx hh
      | some b => rfl
    · unfold cells
      cases hx : hc.counts with
      | none => exact absurd hx hcn
      | some b => rfl


theorem append_spec (hc : HashCount) (h : hc.Inv) (hw : 0 < hc.hash_size) (v : List Nat)
    (hv : v.length = hc.hash_size)
    (hroom : hc.hash_size * (hc.num_items + 8192) < UINT_MOD) :
    ∃ hc1, hc.append v = .ok hc1 ∧ hc1.Inv ∧ hc1.hash_size = hc.hash_size ∧
      hc1.num_items = hc.num_items + 1 ∧ hc1.view = hc.view ++ [(v, 1)] := by
  obtain ⟨gI, gW, gn, glt, gv, gh, gc⟩ := grow_spec hc h hw hroom
  have glt1 : hc.grow.num_items < hc.grow.capacity := by rw [gn]; exact glt
  obtain ⟨hoff, hlt⟩ := entry_offset gI glt1
  have hmod : (hc.grow.num_items * hc.grow.hash_size) % UINT_MOD =
      hc.grow.num_items * hc.grow.hash_size := Nat.mod_eq_of_lt hlt
  have hvl : v.length = hc.grow.hash_size := by rw [gW]; exact hv
  have hb : hc.grow.num_items * hc.grow.hash_size + v.length ≤ hc.grow.block.length := by
    rw [hvl]; exact hoff
  have hcl : hc.grow.num_items < hc.grow.cells.length := by rw [gI.2.2.2.2.1]; exact glt1
  have hsucc : (hc.grow.num_items + 1) % UINT_MOD = hc.grow.num_items + 1 :=
    Nat.mod_eq_of_lt (by have := gI.2.2.1; omega)
  refine ⟨{ hc.grow with
      hashes := some (hc.grow.block.take (hc.grow.num_items * hc.grow.hash_size) ++ v ++
        hc.grow.block.drop (hc.grow.num_items * hc.grow.hash_size + v.length))
      counts := some (hc.grow.cells.set hc.grow.num_items 1)
      num_items := hc.grow.num_items + 1 }, ?_, ?_, gW, by rw [← gn], ?_⟩
  · unfold append
    simp only []
    rw [gh, gc]
    simp only [bind, Except.bind, writeBytes, hmod, if_pos hb, if_pos hcl, hsucc]
    rfl
  · obtain ⟨g1, g2, g3, g4, g5, g6, g7⟩ := gI
    refine ⟨?_, g2, g3, ?_, ?_, ?_, ?_⟩
    · show hc.grow.num_items + 1 ≤ hc.grow.capacity
      omega
    · show List.length (_ ++ _ ++ _) = _
      rw [length_patch _ _ _ hb]; exact g4
    · show (hc.grow.cells.set _ _).length = _
      rw [List.length_set]; exact g5
    · constructor <;> intro e <;> cases e
    · intro e; cases e
  · rw [← gv]
    show (List.range (hc.grow.num_items + 1)).map (fun i =>
        (List.take hc.grow.hash_size (List.drop (i * hc.grow.hash_size) (_ ++ _ ++ _)),
          List.getD (hc.grow.cells.set hc.grow.num_items 1) i 0)) =
      (List.range hc.grow.num_items).map (fun i => (hc.grow.key i, hc.grow.cells.getD i 0)) ++
        [(v, 1)]
    rw [List.range_succ, List.map_append]
    congr 1
    · apply List.map_congr_left
      intro k hk
      have hk1 : k < hc.grow.num_items := List.mem_range.mp hk
      rw [take_drop_patch_other _ _ _ _ _ hb (Or.inl (by
        calc k * hc.grow.hash_size + hc.grow.hash_size = (k + 1) * hc.grow.hash_size := by ring
          _ ≤ hc.grow.num_items * hc.grow.hash_size := Nat.mul_le_mul_right _ hk1))]
      simp only [List.getD_eq_getElem?_getD, List.getElem?_set, key]
      rw [if_neg (by omega)]
    · simp only [List.map_cons, List.map_nil, List.getD_eq_getElem?_getD, List.getElem?_set,
        if_pos hcl, if_true, Option.getD_some]
      rw [← hvl, take_drop_patch_same _ _ _ (by rw [hvl]; exact hoff)]

theorem increase_spec (hc : HashCount) (h : hc.Inv) (hw : 0 < hc.hash_size) (v : List Nat)
    (hv : v.length = hc.hash_size)
    (hroom : hc.hash_size * (hc.num_items + 8192) < UINT_MOD)
    (hcnt : ∀ e ∈ hc.view, e.2 + 1 < SIZE_MOD) :
    ∃ hc1, hc.increase v = .ok hc1 ∧ hc1.Inv ∧ hc1.hash_size = hc.hash_size ∧
      hc1.num_items ≤ hc.num_items + 1 ∧ hc1.view = bump hc.view v := by
  rcases find_spec hc h v hv with ⟨j, e, hj, hk, hfirst⟩ | ⟨e, hnone⟩
  · have hjl : j < hc.view.length := by rw [length_view]; exact hj
    have hmem : hc.view[j] ∈ hc.view := List.getElem_mem _
    have hc2 := hcnt _ hmem
    rw [getElem_view] at hc2
    obtain ⟨hc1, e1, i1, w1, n1, v1⟩ := count_up_spec hc h j hj hc2
    refine ⟨hc1, ?_, i1, w1, by omega, ?_⟩
    · unfold increase
      rw [e]
      exact e1
    · rw [v1, bump_eq_set hc.view v j hjl (by rw [getElem_view]; exact hk) (by
        intro k hkj
        rw [getElem_view]
        exact hfirst k hkj)]
      rw [getElem_view, hk]
  · obtain ⟨hc1, e1, i1, w1, n1, v1⟩ := append_spec hc h hw v hv hroom
    refine ⟨hc1, ?_, i1, w1, by omega, ?_⟩
    · unfold increase
      rw [e]
      exact e1
    · rw [v1, bump_eq_append]
      intro x hx
      obtain ⟨k, hk, rfl⟩ := List.getElem_of_mem hx
      rw [getElem_view]
      exact hnone k (by rw [← length_view]; exact hk)


theorem inv_new (w : Nat) : (HashCount.new w).Inv := by
  refine ⟨le_refl _, ?_, ?_, ?_, rfl, ⟨fun _ => rfl, fun _ => rfl⟩, fun _ => rfl⟩
  · show w * 0 < UINT_MOD
    rw [Nat.mul_zero]; decide
  · show 0 < UINT_MOD
    decide
  · show ([] : List Nat).length = w * 0
    rw [Nat.mul_zero]; rfl

theorem mapM_ok {α β : Type} (f : α → Except Fault β) (g : α → β) (l : List α)
    (h : ∀ x ∈ l, f x = .ok (g x)) : l.mapM f = .ok (l.map g) := by
  induction l with
  | nil => rfl
  | cons a l ih =>
    rw [List.mapM_cons, h a (List.mem_cons_self _ _),
      ih (fun x hx => h x (List.mem_cons_of_mem _ hx))]
    rfl

theorem entries_spec (hc : HashCount) (h : hc.Inv) : hc.entries = .ok hc.view := by
  unfold entries view
  apply mapM_ok
  intro i hi
  have hi1 : i < hc.num_items := List.mem_range.mp hi
  have hic : i < hc.capacity := by have := h.1; omega
  obtain ⟨hoff, hlt⟩ := entry_offset h hic
  have hh : hc.hashes ≠ none := fun e => by have := h.2.2.2.2.2.2 e; omega
  have hcn : hc.counts ≠ none := fun e => hh (h.2.2.2.2.2.1.mpr e)
  cases hx : hc.hashes with
  | none => exact absurd hx hh
  | some b =>
    cases hy : hc.counts with
    | none => exact absurd hy hcn
    | some c =>
      have hb : hc.block = b := by unfold block; rw [hx]; rfl
      have hcl : hc.cells = c := by unfold cells; rw [hy]; rfl
      have hmod : (hc.hash_size * i) % UINT_MOD = i * hc.hash_size := by
        rw [Nat.mul_comm]; exact Nat.mod_eq_of_lt hlt
      have hr : readBytes b (i * hc.hash_size) hc.hash_size = .ok (hc.key i) := by
        unfold readBytes
        rw [if_pos (by rw [← hb]; exact hoff)]
        simp only [key, hb]
      have hil : i < c.length := by rw [← hcl, h.2.2.2.2.1]; exact hic
      unfold entry
      simp only [hx, hy, hmod, hr, bind, Except.bind, if_pos hil, hcl]
      rfl

end HashCount

theorem bump_counts_bound (t : List (List Nat × Nat)) (v : List Nat) (i : Nat) (hi : 1 ≤ i)
    (h : ∀ e ∈ t, e.2 < i) : ∀ e ∈ bump t v, e.2 < i + 1 := by
  induction t with
  | nil => intro e he; simp [bump] at he; rw [he]; simp; omega
  | cons a t ih =>
    intro e he
    have ha := h a (List.mem_cons_self _ _)
    by_cases hav : a.1 = v
    · simp only [bump, hav, if_true, List.mem_cons] at he
      rcases he with he | he
      · rw [he]; simp; omega
      · have := h e (List.mem_cons_of_mem _ he); omega
    · simp only [bump, hav, if_false, List.mem_cons] at he
      rcases he with he | he
      · rw [he]; omega
      · exact ih (fun x hx => h x (List.mem_cons_of_mem _ hx)) e he

theorem scan_loop_spec (s : HashArray) (h : s.wf) (hw : 0 < s.hash_size)
    (hroom : s.hash_size * (s.num_elements + 8192) < UINT_MOD) :
    ∀ n i prev hc, prev < s.num_elements → i + n ≤ s.num_elements → HashCount.Inv hc →
      hc.hash_size = s.hash_size → hc.num_items < i → (∀ e ∈ hc.view, e.2 < i) →
      ∃ hc1, scan_loop s n i prev hc = .ok hc1 ∧ hc1.Inv ∧ hc1.hash_size = s.hash_size ∧
        hc1.view =
          (submitted (s.record prev) ((List.range' i n).map s.record)).foldl bump hc.view := by
  intro n
  induction n with
  | zero =>
    intro i prev hc _ _ hI hz _ _
    exact ⟨hc, rfl, hI, hz, rfl⟩
  | succ n ih =>
    intro i prev hc hp hi hI hz hni hcnt
    have hin : i < s.num_elements := by omega
    have hli := HashArray.length_record h hin
    have hlp := HashArray.length_record h hp
    rw [scan_loop, HashArray.record_at_eq h hin, HashArray.record_at_eq h hp,
      List.range'_succ, List.map_cons]
    by_cases he : s.record i = s.record prev
    · have hm : memcmp (s.record i) (s.record prev) = 0 := by rw [he, memcmp_self]
      have hroom1 : hc.hash_size * (hc.num_items + 8192) < UINT_MOD := by
        rw [hz]
        exact lt_of_le_of_lt (Nat.mul_le_mul_left _ (by omega)) hroom
      obtain ⟨hc1, e1, i1, w1, n1, v1⟩ := HashCount.increase_spec hc hI (by rw [hz]; exact hw)
        (s.record i) (by rw [hz]; exact hli) hroom1 (by
          intro e hemem
          have := hcnt e hemem
          have := h.2.2
          omega)
      obtain ⟨hc2, e2, i2, w2, v2⟩ := ih (i + 1) prev hc1 hp (by omega) i1 (w1.trans hz)
        (by omega) (by
          rw [v1]
          exact bump_counts_bound _ _ i (by omega) hcnt)
      refine ⟨hc2, ?_, i2, w2, ?_⟩
      · simp only [bind, Except.bind, hm, if_true, e1]
        exact e2
      · rw [v2, v1]
        simp only [submitted, he, if_true, List.foldl_cons]
    · have hm : ¬ memcmp (s.record i) (s.record prev) = 0 := fun e =>
        he (memcmp_eq_zero (hli.trans hlp.symm) e)
      obtain ⟨hc2, e2, i2, w2, v2⟩ := ih (i + 1) i hc hin (by omega) hI hz (by omega)
        (fun e hemem => by have := hcnt e hemem; omega)
      refine ⟨hc2, ?_, i2, w2, ?_⟩
      · simp only [bind, Except.bind, hm, if_false]
        exact e2
      · rw [v2]
        simp only [submitted, he, if_false]

theorem scan_spec (s : HashArray) (h : s.wf) (hw : 0 < s.hash_size)
    (hroom : s.hash_size * (s.num_elements + 8192) < UINT_MOD) :
    ∃ hc, scan s = .ok hc ∧ hc.Inv ∧ hc.hash_size = s.hash_size ∧
      hc.view = (dup_submissions s.records).foldl bump [] := by
  unfold scan
  by_cases hn : s.num_elements = 0
  · refine ⟨HashCount.new s.hash_size, ?_, HashCount.inv_new _, rfl, ?_⟩
    · rw [hn]; rfl
    · unfold HashArray.records
      rw [hn]
      rfl
  · obtain ⟨hc, e, hI, hz, hv⟩ := scan_loop_spec s h hw hroom (s.num_elements - 1) 1 0
      (HashCount.new s.hash_size) (by omega) (by omega) (HashCount.inv_new _) rfl
      (by show 0 < 1; omega) (by intro e he; simp [HashCount.view, HashCount.new] at he)
    refine ⟨hc, e, hI, hz, ?_⟩
    rw [hv]
    have e1 : s.records = s.record 0 :: (List.range' 1 (s.num_elements - 1)).map s.record := by
      unfold HashArray.records
      obtain ⟨m, hm⟩ : ∃ m, s.num_elements = m + 1 := ⟨s.num_elements - 1, by omega⟩
      rw [hm, List.range_eq_range', List.range'_succ, List.map_cons]
      rfl
    rw [e1]
    rfl


/-! ## The duplicate-count law on stores whose table sizes do not wrap -/

/-- On an ordered store whose buffer, enlarged by 8192 records, stays below `2^32` bytes, the
collision scan returns a table whose printed entries hold, for every value that occurs
`k ≥ 2` times, the entry with count `k - 1`, and nothing else; no value has two entries and
the values are strictly ascending. -/
theorem scan_sorted_law (s : HashArray) (h : s.wf) (hw : 0 < s.hash_size)
    (hroom : s.hash_size * (s.num_elements + 8192) < UINT_MOD)
    (hs : ∀ i, i + 1 < s.num_elements → memcmp (s.record i) (s.record (i + 1)) ≤ 0) :
    ∃ hc t, scan s = .ok hc ∧ hc.entries = .ok t ∧
      (∀ v, 2 ≤ s.records.count v → (v, s.records.count v - 1) ∈ t) ∧
      (∀ v c, (v, c) ∈ t → 2 ≤ s.records.count v ∧ c = s.records.count v - 1) ∧
      (t.map Prod.fst).Nodup ∧ (t.map Prod.fst).Pairwise (fun a b => memcmp a b < 0) := by
  obtain ⟨hc, e, hI, -, hv⟩ := scan_spec s h hw hroom
  obtain ⟨t1, t2, t3, t4⟩ := table_of_sorted s.records (HashArray.sorted_records h hs)
  refine ⟨hc, hc.view, e, HashCount.entries_spec hc hI, ?_, ?_, ?_, ?_⟩
  · rw [hv]; exact t1
  · rw [hv]; exact t2
  · rw [hv]; exact t3
  · rw [hv]; exact t4

theorem scan_sorted_law_witness :
    ∃ hc t, scan sample_sorted = .ok hc ∧ hc.entries = .ok t ∧
      (∀ v, 2 ≤ sample_sorted.records.count v → (v, sample_sorted.records.count v - 1) ∈ t) ∧
      (∀ v c, (v, c) ∈ t →
        2 ≤ sample_sorted.records.count v ∧ c = sample_sorted.records.count v - 1) ∧
      (t.map Prod.fst).Nodup ∧ (t.map Prod.fst).Pairwise (fun a b => memcmp a b < 0) :=
  scan_sorted_law sample_sorted (by decide) (by decide) (by decide) (by
    intro i hi
    have hi4 : i + 1 < 4 := hi
    have hi3 : i < 3 := by omega
    interval_cases i <;> decide)

/-- On a store of at least one record whose buffer, enlarged by 8192 records, stays below
`2^32` bytes, `sort()` followed by the collision scan reports exactly the values that occur
at least twice in the unsorted store, each in one entry, whose count is the number of
occurrences less one. -/
theorem sort_scan_law (s : HashArray) (fuel : Nat) (h : s.wf) (ht : s.scratch_ok)
    (hn : 1 ≤ s.num_elements) (hf : s.num_elements + 2 ≤ fuel) (hw : 0 < s.hash_size)
    (hroom : s.hash_size * (s.num_elements + 8192) < UINT_MOD) :
    ∃ s1 hc t, s.sort fuel = .ok s1 ∧ scan s1 = .ok hc ∧ hc.entries = .ok t ∧
      (∀ v, v ∈ t.map Prod.fst ↔ 2 ≤ s.records.count v) ∧ (t.map Prod.fst).Nodup ∧
      (∀ v c, (v, c) ∈ t → c = s.records.count v - 1) ∧
      (t.map Prod.fst).Pairwise (fun a b => memcmp a b < 0) := by
  obtain ⟨s1, e, r, hs⟩ := HashArray.sort_spec h ht hn hf
  obtain ⟨hc, t, e1, e2, t1, t2, t3, t4⟩ := scan_sorted_law s1 r.wf (by rw [r.size]; exact hw)
    (by rw [r.size, r.num]; exact hroom) (by
      intro i hi
      have h1 := hs i (by rw [← r.num]; exact hi)
      have h2 := memcmp_antisymm (s1.record i) (s1.record (i + 1))
      omega)
  have hc1 : ∀ v, s1.records.count v = s.records.count v := fun v => r.perm.countP_eq _
  refine ⟨s1, hc, t, e, e1, e2, ?_, t3, ?_, t4⟩
  · intro v
    constructor
    · intro hv
      obtain ⟨⟨v1, c⟩, hmem, hfst⟩ := List.mem_map.mp hv
      simp only at hfst
      subst hfst
      rw [← hc1]
      exact (t2 v1 c hmem).1
    · intro hv
      rw [← hc1] at hv
      exact List.mem_map.mpr ⟨_, t1 v hv, rfl⟩
  · intro v c hvc
    rw [← hc1]
    exact (t2 v c hvc).2

theorem sort_scan_law_witness :
    ∃ s1 hc t, sample_store.sort 6 = .ok s1 ∧ scan s1 = .ok hc ∧ hc.entries = .ok t ∧
      (∀ v, v ∈ t.map Prod.fst ↔ 2 ≤ sample_store.records.count v) ∧
      (t.map Prod.fst).Nodup ∧
      (∀ v c, (v, c) ∈ t → c = sample_store.records.count v - 1) ∧
      (t.map Prod.fst).Pairwise (fun a b => memcmp a b < 0) :=
  sort_scan_law sample_store 6 (by decide) (by decide) (by decide) (by decide) (by decide)
    (by decide)


/-! ## The scratch block of the constructor -/

/-- C11: the scratch block that the constructor allocates holds one byte, not `hash_size`
bytes: `new unsigned char(hash_size)` creates a single `unsigned char` with the value
`hash_size`. It has room for a record only when `hash_size ≤ 1`; on the store built over the
two records `00 01` and `00 00` of two bytes the first copy of `swap(0, 1)` leaves the
block. -/
theorem constructor_scratch_one_byte (buffer : List Nat) (n w : Nat) :
    (HashArray.new buffer n w).temp.length = 1 ∧
      ((HashArray.new buffer n w).scratch_ok ↔ w ≤ 1) ∧
      (HashArray.new [0, 1, 0, 0] 2 2).wf ∧
      (HashArray.new [0, 1, 0, 0] 2 2).record_at 0 = .ok [0, 1] ∧
      writeBytes (HashArray.new [0, 1, 0, 0] 2 2).temp 0 [0, 1] = .error Fault.bounds ∧
      (HashArray.new [0, 1, 0, 0] 2 2).swap 0 1 = .error Fault.bounds := by
  refine ⟨rfl, Iff.rfl, by decide, by decide, by decide, by decide⟩

/-! ## The contract of `partition` -/

namespace HashArray

theorem segment_perm {s s1 : HashArray} {lo hi : Nat} (r : Rearranged s s1 lo hi)
    (hlh : lo ≤ hi) (hh : hi < s.num_elements) :
    ((List.range' lo (hi + 1 - lo)).map s1.record).Perm
      ((List.range' lo (hi + 1 - lo)).map s.record) := by
  have hsplit : List.range s.num_elements =
      List.range' 0 lo ++ (List.range' lo (hi + 1 - lo) ++
        List.range' (hi + 1) (s.num_elements - (hi + 1))) := by
    rw [List.range_eq_range']
    have e1 : List.range' lo (hi + 1 - lo) ++ List.range' (hi + 1) (s.num_elements - (hi + 1)) =
        List.range' lo (s.num_elements - lo) := by
      have := List.range'_append_1 lo (hi + 1 - lo) (s.num_elements - (hi + 1))
      rw [show lo + (hi + 1 - lo) = hi + 1 by omega,
        show s.num_elements - (hi + 1) + (hi + 1 - lo) = s.num_elements - lo by omega] at this
      exact this
    rw [e1]
    have := List.range'_append_1 0 lo (s.num_elements - lo)
    rw [Nat.zero_add, show s.num_elements - lo + lo = s.num_elements by omega] at this
    exact this.symm
  have hp := r.perm
  unfold records at hp
  rw [r.num, hsplit, List.map_append, List.map_append, List.map_append, List.map_append] at hp
  have hpre : (List.range' 0 lo).map s1.record = (List.range' 0 lo).map s.record := by
    apply List.map_congr_left
    intro k hk
    have := List.mem_range'_1.mp hk
    exact r.frame k (by omega)
  have hsuf : (List.range' (hi + 1) (s.num_elements - (hi + 1))).map s1.record =
      (List.range' (hi + 1) (s.num_elements - (hi + 1))).map s.record := by
    apply List.map_congr_left
    intro k hk
    have := List.mem_range'_1.mp hk
    exact r.frame k (by omega)
  rw [hpre, hsuf] at hp
  exact (List.perm_append_right_iff _).mp ((List.perm_append_left_iff _).mp hp)

end HashArray

/-- With a scratch block of at least `hash_size` bytes: for `first ≤ last < N`,
`partition(first, last)` returns a store and an index `p`
with `first ≤ p ≤ last` such that record `p` holds the value that record `last`, the pivot,
held before; every record at an index in `[first, p)` is below the pivot value and no record
at an index in `(p, last]` is below it; the records of `[first, last]` are the same multiset
as before; and every record outside `[first, last]` is unchanged. -/
theorem partition_contract (s : HashArray) (fuel first last : Nat) (h : s.wf)
    (ht : s.scratch_ok) (hfl : first ≤ last) (hl : last < s.num_elements)
    (hf : last + 2 ≤ fuel + first) :
    ∃ s1 p, s.partition fuel first last = .ok (s1, p) ∧ first ≤ p ∧ p ≤ last ∧
      s1.record p = s.record last ∧
      (∀ k, first ≤ k → k < p → memcmp (s1.record k) (s.record last) < 0) ∧
      (∀ k, p < k → k ≤ last → ¬ memcmp (s1.record k) (s.record last) < 0) ∧
      Multiset.ofList ((List.range' first (last + 1 - first)).map s1.record) =
        Multiset.ofList ((List.range' first (last + 1 - first)).map s.record) ∧
      (∀ k, k < first ∨ last < k → s1.record k = s.record k) ∧
      s1.num_elements = s.num_elements ∧ s1.hash_size = s.hash_size ∧
      s1.buffer.length = s.buffer.length := by
  obtain ⟨s1, p, e, hp, hpl, r, rp, hlo, hhi⟩ := HashArray.partition_spec fuel h ht hfl hl hf
  exact ⟨s1, p, e, hp, hpl, rp, hlo, hhi,
    Multiset.coe_eq_coe.mpr (HashArray.segment_perm r hfl hl), r.frame, r.num, r.size,
    by rw [r.wf.1, h.1, r.num, r.size]⟩

theorem partition_contract_witness :
    ∃ s1 p, sample_store.partition 6 0 3 = .ok (s1, p) ∧ 0 ≤ p ∧ p ≤ 3 ∧
      s1.record p = sample_store.record 3 ∧
      (∀ k, 0 ≤ k → k < p → memcmp (s1.record k) (sample_store.record 3) < 0) ∧
      (∀ k, p < k → k ≤ 3 → ¬ memcmp (s1.record k) (sample_store.record 3) < 0) ∧
      Multiset.ofList ((List.range' 0 (3 + 1 - 0)).map s1.record) =
        Multiset.ofList ((List.range' 0 (3 + 1 - 0)).map sample_store.record) ∧
      (∀ k, k < 0 ∨ 3 < k → s1.record k = sample_store.record k) ∧
      s1.num_elements = sample_store.num_elements ∧ s1.hash_size = sample_store.hash_size ∧
      s1.buffer.length = sample_store.buffer.length :=
  partition_contract sample_store 6 0 3 (by decide) (by decide) (by decide) (by decide)
    (by decide)

/-! ## Termination of the sort -/

namespace HashArray

theorem swap_small_scratch {s : HashArray} (h : s.wf) (ht : ¬ s.scratch_ok) {i : Nat}
    (hi : i < s.num_elements) (j : Nat) : s.swap i j = .error Fault.bounds := by
  unfold swap
  rw [record_at_eq h hi]
  simp only [bind, Except.bind, writeBytes]
  rw [if_neg (by rw [length_record h hi, Nat.zero_add]; exact ht)]

theorem partition_loop_small_scratch (last : Nat) :
    ∀ (fuel : Nat) (s : HashArray) (i j : Nat), s.wf → ¬ s.scratch_ok →
      last < s.num_elements → i ≤ j → j ≤ last + 1 → last + 2 ≤ fuel + j →
      partition_loop last fuel s i j = .error Fault.bounds ∨
        partition_loop last fuel s i j = .ok (s, i) := by
  intro fuel
  induction fuel with
  | zero => intro s i j _ _ _ _ _ hf; omega
  | succ fuel ih =>
    intro s i j h ht hl hij hjl hf
    by_cases hj : j ≤ last
    · have hjn : j < s.num_elements := by omega
      have hin : i < s.num_elements := by omega
      rw [partition_loop, if_pos hj, is_below_eq h hjn hl]
      by_cases hb : memcmp (s.record j) (s.record last) < 0
      · left
        simp only [bind, Except.bind, decide_eq_true hb, if_true, swap_small_scratch h ht hin]
      · simp only [bind, Except.bind, decide_eq_false hb, succ_mod hjn h.2.2,
          Bool.false_eq_true, if_false]
        exact ih s i (j + 1) h ht hl (by omega) (by omega) (by omega)
    · right
      rw [partition_loop, if_neg hj]

theorem partition_small_scratch {s : HashArray} (fuel : Nat) (h : s.wf) (ht : ¬ s.scratch_ok)
    {first last : Nat} (hfl : first ≤ last) (hl : last < s.num_elements)
    (hf : last + 2 ≤ fuel + first) : s.partition fuel first last = .error Fault.bounds := by
  unfold partition
  rcases partition_loop_small_scratch last fuel s first first h ht hl (le_refl _) (by omega) hf
    with e | e
  · rw [e]; rfl
  · rw [e]
    simp only [bind, Except.bind, swap_small_scratch h ht (show first < s.num_elements by omega)]

theorem partition_loop_ends {s : HashArray} (fuel : Nat) (h : s.wf) {first last : Nat}
    (hfl : first ≤ last) (hl : last < s.num_elements) (hf : last + 2 ≤ fuel + first) :
    partition_loop last fuel s first first ≠ .error Fault.fuel := by
  by_cases ht : s.scratch_ok
  · obtain ⟨s1, p, e, -⟩ := partition_loop_spec last fuel s first first h ht hl (le_refl _)
      (by omega) hfl hf (by intro k h1 h2; omega)
    rw [e]
    intro c
    cases c
  · rcases partition_loop_small_scratch last fuel s first first h ht hl (le_refl _)
      (by omega) hf with e | e <;> rw [e] <;> intro c <;> cases c

theorem sort_small_scratch {s : HashArray} (fuel : Nat) (h : s.wf) (ht : ¬ s.scratch_ok)
    (hn : 1 ≤ s.num_elements) (hf : s.num_elements + 2 ≤ fuel) :
    s.sort fuel = .ok s ∨ s.sort fuel = .error Fault.bounds := by
  unfold sort
  rw [sort_last h hn]
  obtain ⟨f, hfe⟩ : ∃ f, fuel = f + 1 := ⟨fuel - 1, by omega⟩
  rw [hfe, quicksort]
  by_cases hlt : 0 < s.num_elements - 1
  · right
    rw [if_pos hlt, partition_small_scratch f h ht (Nat.zero_le _) (by omega) (by omega)]
    rfl
  · left
    rw [if_neg hlt]

end HashArray

/-- The fuel of the sort: for a store of at least one record and every fuel of at least
`N + 2` steps, `sort()`
comes to an end without using the fuel up (with a scratch block of `hash_size` bytes it
returns the sorted store), the loop of `partition` over `j` ends on every range
`first ≤ last < N`, and the index `p` that `partition` returns on a range with `first < last`
leaves two ranges `[first, p - 1]` and `[p + 1, last]` that are strictly shorter than
`[first, last]`. -/
theorem sort_terminates (s : HashArray) (fuel : Nat) (h : s.wf) (hn : 1 ≤ s.num_elements)
    (hf : s.num_elements + 2 ≤ fuel) :
    s.sort fuel ≠ .error Fault.fuel ∧
    (s.scratch_ok → ∃ s1, s.sort fuel = .ok s1) ∧
    (∀ first last, first ≤ last → last < s.num_elements →
      HashArray.partition_loop last fuel s first first ≠ .error Fault.fuel ∧
      s.partition fuel first last ≠ .error Fault.fuel) ∧
    (∀ first last s1 p, first < last → last < s.num_elements →
      s.partition fuel first last = .ok (s1, p) →
      first ≤ p ∧ p ≤ last ∧ p - first < last + 1 - first ∧
        last + 1 - (p + 1) < last + 1 - first) := by
  refine ⟨?_, ?_, ?_, ?_⟩
  · by_cases ht : s.scratch_ok
    · obtain ⟨s1, e, -⟩ := HashArray.sort_spec h ht hn hf
      rw [e]
      intro c
      cases c
    · rcases HashArray.sort_small_scratch fuel h ht hn hf with e | e <;> rw [e] <;>
        intro c <;> cases c
  · intro ht
    obtain ⟨s1, e, -⟩ := HashArray.sort_spec h ht hn hf
    exact ⟨s1, e⟩
  · intro first last hfl hl
    refine ⟨HashArray.partition_loop_ends fuel h hfl hl (by omega), ?_⟩
    by_cases ht : s.scratch_ok
    · obtain ⟨s1, p, e, -⟩ := HashArray.partition_spec fuel h ht hfl hl (by omega)
      rw [e]
      intro c
      cases c
    · rw [HashArray.partition_small_scratch fuel h ht hfl hl (by omega)]
      intro c
      cases c
  · intro first last s1 p hlt hl e
    by_cases ht : s.scratch_ok
    · obtain ⟨s2, p2, e2, hp, hpl, -⟩ :=
        HashArray.partition_spec fuel h ht (le_of_lt hlt) hl (by omega)
      rw [e] at e2
      cases e2
      exact ⟨hp, hpl, by omega, by omega⟩
    · rw [HashArray.partition_small_scratch fuel h ht (le_of_lt hlt) hl (by omega)] at e
      cases e

theorem sort_terminates_witness :
    sample_store.sort 6 ≠ .error Fault.fuel ∧
    (sample_store.scratch_ok → ∃ s1, sample_store.sort 6 = .ok s1) ∧
    (∀ first last, first ≤ last → last < sample_store.num_elements →
      HashArray.partition_loop last 6 sample_store first first ≠ .error Fault.fuel ∧
      sample_store.partition 6 first last ≠ .error Fault.fuel) ∧
    (∀ first last s1 p, first < last → last < sample_store.num_elements →
      sample_store.partition 6 first last = .ok (s1, p) →
      first ≤ p ∧ p ≤ last ∧ p - first < last + 1 - first ∧
        last + 1 - (p + 1) < last + 1 - first) :=
  sort_terminates sample_store 6 (by decide) (by decide) (by decide)

/-! ## The printed form of an entry -/

theorem hex_value_digit : ∀ k, k < 16 → hex_value (hexdigits.getD k ' ') = k := by
  decide

theorem digit_mem_hexdigits : ∀ k, k < 16 → hexdigits.getD k ' ' ∈ hexdigits := by
  decide

theorem length_hash_to_string (v : List Nat) : (hash_to_string v).length = 2 * v.length := by
  induction v with
  | nil => rfl
  | cons b rest ih =>
    simp only [hash_to_string, List.length_cons, ih]
    omega

theorem hash_to_string_chars (v : List Nat) : ∀ c ∈ hash_to_string v, c ∈ hexdigits := by
  induction v with
  | nil => intro c hc; simp [hash_to_string] at hc
  | cons b rest ih =>
    intro c hc
    simp only [hash_to_string, List.mem_cons] at hc
    rcases hc with hc | hc | hc
    · rw [hc]
      exact digit_mem_hexdigits _ (by omega)
    · rw [hc]
      exact digit_mem_hexdigits _ (Nat.mod_lt _ (by omega))
    · exact ih c hc

theorem hash_to_string_at (v : List Nat) (hv : ∀ b ∈ v, b < 256) :
    ∀ i (hi : i < v.length),
      (hash_to_string v)[2 * i]? = some (hexdigits.getD (v[i] / 16) ' ') ∧
      (hash_to_string v)[2 * i + 1]? = some (hexdigits.getD (v[i] % 16) ' ') := by
  induction v with
  | nil => intro i hi; simp at hi
  | cons b rest ih =>
    intro i hi
    have hb : b % 256 = b := Nat.mod_eq_of_lt (hv b (List.mem_cons_self _ _))
    cases i with
    | zero => simp [hash_to_string, hb]
    | succ i =>
      have hi1 : i < rest.length := by simpa using hi
      obtain ⟨h1, h2⟩ := ih (fun x hx => hv x (List.mem_cons_of_mem _ hx)) i hi1
      have e1 : 2 * (i + 1) = (2 * i + 1) + 1 := by ring
      have e2 : 2 * (i + 1) + 1 = ((2 * i + 1) + 1) + 1 := by ring
      constructor
      · rw [e1]
        simp only [hash_to_string, List.getElem?_cons_succ, List.getElem_cons_succ]
        exact h1
      · rw [e2]
        simp only [hash_to_string, List.getElem?_cons_succ, List.getElem_cons_succ]
        exact h2

theorem hex_decode_hash_to_string (v : List Nat) (hv : ∀ b ∈ v, b < 256) :
    hex_decode (hash_to_string v) = v := by
  induction v with
  | nil => rfl
  | cons b rest ih =>
    have hb := hv b (List.mem_cons_self _ _)
    have hm : b % 256 = b := Nat.mod_eq_of_lt hb
    simp only [hash_to_string, hex_decode, hm]
    rw [hex_value_digit _ (by omega), hex_value_digit _ (Nat.mod_lt _ (by omega)),
      ih (fun x hx => hv x (List.mem_cons_of_mem _ hx))]
    congr 1
    omega

namespace HashCount

theorem entry_spec (hc : HashCount) (h : hc.Inv) (i : Nat) (hi : i < hc.num_items) :
    hc.entry i = .ok (hc.key i, hc.cells.getD i 0) := by
  have hic : i < hc.capacity := by have := h.1; omega
  obtain ⟨hoff, hlt⟩ := entry_offset h hic
  have hh : hc.hashes ≠ none := fun e => by have := h.2.2.2.2.2.2 e; omega
  have hcn : hc.counts ≠ none := fun e => hh (h.2.2.2.2.2.1.mpr e)
  cases hx : hc.hashes with
  | none => exact absurd hx hh
  | some b =>
    cases hy : hc.counts with
    | none => exact absurd hy hcn
    | some c =>
      have hb : hc.block = b := by unfold block; rw [hx]; rfl
      have hcl : hc.cells = c := by unfold cells; rw [hy]; rfl
      have hmod : (hc.hash_size * i) % UINT_MOD = i * hc.hash_size := by
        rw [Nat.mul_comm]; exact Nat.mod_eq_of_lt hlt
      have hr : readBytes b (i * hc.hash_size) hc.hash_size = .ok (hc.key i) := by
        unfold readBytes
        rw [if_pos (by rw [← hb]; exact hoff)]
        simp only [key, hb]
      have hil : i < c.length := by rw [← hcl, h.2.2.2.2.1]; exact hic
      unfold entry
      simp only [hx, hy, hmod, hr, bind, Except.bind, if_pos hil, hcl]
      rfl

end HashCount

/-- C13: for a record `v` of `W` bytes `hash_to_string` returns exactly `2 * W` characters,
all of them from `0123456789ABCDEF`; characters `2i` and `2i + 1` are the digits of the high
and of the low nibble of byte `i`; reading the digits back gives the record, so the encoding
is injective; and `HashCount::to_string(i)` is the string of the bytes of entry `i`, one
space, and the count of entry `i` in decimal. -/
theorem hash_to_string_hex (v : List Nat) (hv : ∀ b ∈ v, b < 256) :
    (hash_to_string v).length = 2 * v.length ∧
    (∀ c ∈ hash_to_string v, c ∈ "0123456789ABCDEF".toList) ∧
    (∀ i (hi : i < v.length),
      (hash_to_string v)[2 * i]? = some (hexdigits.getD (v[i] / 16) ' ') ∧
      (hash_to_string v)[2 * i + 1]? = some (hexdigits.getD (v[i] % 16) ' ')) ∧
    hex_decode (hash_to_string v) = v ∧
    (∀ u : List Nat, (∀ b ∈ u, b < 256) → hash_to_string u = hash_to_string v → u = v) ∧
    (∀ (hc : HashCount) (i c : Nat), hc.entry i = .ok (v, c) →
      hc.to_string i = .ok (hash_to_string v ++ [' '] ++ Nat.toDigits 10 c)) ∧
    (∀ (hc : HashCount) (i : Nat), hc.Inv → i < hc.num_items → hc.key i = v →
      hc.to_string i = .ok (hash_to_string v ++ [' '] ++ Nat.toDigits 10 (hc.cells.getD i 0))) := by
  refine ⟨length_hash_to_string v, hash_to_string_chars v, hash_to_string_at v hv,
    hex_decode_hash_to_string v hv, ?_, ?_, ?_⟩
  · intro u hu e
    rw [← hex_decode_hash_to_string u hu, e, hex_decode_hash_to_string v hv]
  · intro hc i c e
    unfold HashCount.to_string
    rw [e]
    rfl
  · intro hc i hI hi hk
    unfold HashCount.to_string
    rw [HashCount.entry_spec hc hI i hi, hk]
    rfl

theorem hash_to_string_hex_witness :
    (hash_to_string [0, 255, 171, 16]).length = 2 * [0, 255, 171, 16].length ∧
    (∀ c ∈ hash_to_string [0, 255, 171, 16], c ∈ "0123456789ABCDEF".toList) ∧
    (∀ i (hi : i < [0, 255, 171, 16].length),
      (hash_to_string [0, 255, 171, 16])[2 * i]? =
        some (hexdigits.getD ([0, 255, 171, 16][i] / 16) ' ') ∧
      (hash_to_string [0, 255, 171, 16])[2 * i + 1]? =
        some (hexdigits.getD ([0, 255, 171, 16][i] % 16) ' ')) ∧
    hex_decode (hash_to_string [0, 255, 171, 16]) = [0, 255, 171, 16] ∧
    (∀ u : List Nat, (∀ b ∈ u, b < 256) →
      hash_to_string u = hash_to_string [0, 255, 171, 16] → u = [0, 255, 171, 16]) ∧
    (∀ (hc : HashCount) (i c : Nat), hc.entry i = .ok ([0, 255, 171, 16], c) →
      hc.to_string i =
        .ok (hash_to_string [0, 255, 171, 16] ++ [' '] ++ Nat.toDigits 10 c)) ∧
    (∀ (hc : HashCount) (i : Nat), hc.Inv → i < hc.num_items →
      hc.key i = [0, 255, 171, 16] →
      hc.to_string i = .ok (hash_to_string [0, 255, 171, 16] ++ [' '] ++
        Nat.toDigits 10 (hc.cells.getD i 0))) :=
  hash_to_string_hex [0, 255, 171, 16] (by decide)

theorem hash_to_string_sample : hash_to_string [0, 255, 171, 16] = "00FFAB10".toList := by
  decide

/-! ## The size check of `main` -/

/-- C12: when `main` is given three arguments, a file that opens and a record width of at
least one, it ends at the size check exactly when the file length is not a multiple of the
width; it then returns exit code 1 with nothing on the standard output, whatever the
allocation, the reads and the fuel of the sort would have been. When the length is a
multiple of the width and the file is read, the run is the sort, the scan and the printing on
the store built over the file with `N = L / W` records, whose buffer holds `N * W` bytes. -/
theorem size_check (fuel : Nat) (w : World) (bytes : List Nat) (ha : w.argc = 3)
    (hfile : w.file = some bytes) (hw : 1 ≤ w.hash_size) :
    (main fuel w = .size_mismatch ↔ bytes.length % w.hash_size ≠ 0) ∧
    (bytes.length % w.hash_size ≠ 0 →
      (main fuel w).code = some 1 ∧ (main fuel w).stdout = [] ∧
      ∀ (fuel1 : Nat) (m : Bool) (f : Nat → Nat → Nat),
        main fuel1 { w with malloc_ok := m, fread := f } = .size_mismatch) ∧
    (bytes.length % w.hash_size = 0 →
      (HashArray.new bytes (bytes.length / w.hash_size) w.hash_size).num_elements =
        bytes.length / w.hash_size ∧
      (HashArray.new bytes (bytes.length / w.hash_size) w.hash_size).buffer.length =
        (HashArray.new bytes (bytes.length / w.hash_size) w.hash_size).num_elements *
          (HashArray.new bytes (bytes.length / w.hash_size) w.hash_size).hash_size ∧
      (w.malloc_ok = true → read_loop w.fread bytes.length (bytes.length + 1) 0 = true →
        main fuel w =
          match (HashArray.new bytes (bytes.length / w.hash_size) w.hash_size).sort fuel >>=
            fun sorted => scan sorted >>= fun d => d.print_lines with
          | .ok lines => .finished lines
          | .error f => .fault f)) := by
  have hw0 : ¬ w.hash_size = 0 := by omega
  have key : ∀ (fuel1 : Nat) (m : Bool) (f : Nat → Nat → Nat),
      bytes.length % w.hash_size ≠ 0 →
      main fuel1 { w with malloc_ok := m, fread := f } = .size_mismatch := by
    intro fuel1 m f hne
    unfold main
    simp only [ha, hfile, ne_eq, not_true_eq_false, if_false, hw0, hne, not_false_eq_true,
      if_true]
  have hself : main fuel w = main fuel { w with malloc_ok := w.malloc_ok, fread := w.fread } :=
    rfl
  refine ⟨⟨?_, ?_⟩, ?_, ?_⟩
  · intro e hz
    unfold main at e
    simp only [ha, hfile, ne_eq, not_true_eq_false, if_false, hw0, hz] at e
    split at e
    · cases e
    · split at e
      · cases e
      · split at e <;> cases e
  · intro hne
    rw [hself]
    exact key fuel _ _ hne
  · intro hne
    have e : main fuel w = .size_mismatch := by rw [hself]; exact key fuel _ _ hne
    rw [e]
    exact ⟨rfl, rfl, fun fuel1 m f => key fuel1 m f hne⟩
  · intro hz
    refine ⟨rfl, (Nat.div_mul_cancel (Nat.dvd_of_mod_eq_zero hz)).symm, ?_⟩
    intro hm hr
    unfold main
    simp only [ha, hfile, ne_eq, not_true_eq_false, if_false, hw0, hz, hm, hr,
      Bool.true_eq_false]

theorem size_check_witness :
    (main 0 short_file_world = .size_mismatch ↔ [1, 2, 3, 4, 5].length % 2 ≠ 0) ∧
    (main 0 short_file_world).code = some 1 ∧ (main 0 short_file_world).stdout = [] :=
  have w := size_check 0 short_file_world [1, 2, 3, 4, 5] rfl rfl (by decide)
  ⟨w.1, (w.2.1 (by decide)).1, (w.2.1 (by decide)).2.1⟩

/-! ## The submissions of the collision scan -/

theorem scan_loop_eq_with (s : HashArray) :
    ∀ n i prev hc, scan_loop s n i prev hc =
      scan_loop_with (fun (t : HashCount) _ v => t.increase v) s n i prev hc := by
  intro n
  induction n with
  | zero => intro i prev hc; rfl
  | succ n ih =>
    intro i prev hc
    simp only [scan_loop, scan_loop_with, ih]

theorem scan_log_loop (s : HashArray) (h : s.wf) :
    ∀ n i prev log, prev < s.num_elements → 1 ≤ i → i + n ≤ s.num_elements →
      s.record prev = s.record (i - 1) →
      scan_loop_with (fun (l : List (Nat × List Nat)) k v => .ok (l ++ [(k, v)])) s n i prev
          log =
        .ok (log ++ ((List.range' i n).filter
          (fun k => decide (s.record k = s.record (k - 1)))).map (fun k => (k, s.record k))) := by
  intro n
  induction n with
  | zero => intro i prev log _ _ _ _; simp [scan_loop_with]
  | succ n ih =>
    intro i prev log hp hi1 hi he
    have hin : i < s.num_elements := by omega
    have hli := HashArray.length_record h hin
    have hlp := HashArray.length_record h hp
    rw [scan_loop_with, HashArray.record_at_eq h hin, HashArray.record_at_eq h hp,
      List.range'_succ, List.filter_cons]
    by_cases heq : s.record i = s.record prev
    · have hm : memcmp (s.record i) (s.record prev) = 0 := by rw [heq, memcmp_self]
      have hd : decide (s.record i = s.record (i - 1)) = true :=
        decide_eq_true (heq.trans he)
      simp only [bind, Except.bind, hm, if_true, hd]
      rw [ih (i + 1) prev _ hp (by omega) (by omega) (by rw [Nat.add_sub_cancel, ← heq])]
      simp
    · have hm : ¬ memcmp (s.record i) (s.record prev) = 0 := fun e =>
        heq (memcmp_eq_zero (hli.trans hlp.symm) e)
      have hd : decide (s.record i = s.record (i - 1)) = false :=
        decide_eq_false (fun e => heq (e.trans he.symm))
      simp only [bind, Except.bind, hm, if_false, hd, Bool.false_eq_true]
      rw [ih (i + 1) i _ hin (by omega) (by omega) (by rw [Nat.add_sub_cancel])]

theorem values_of_adjacent (f : Nat → List Nat) :
    ∀ n i, 1 ≤ i →
      (((List.range' i n).filter (fun k => decide (f k = f (k - 1)))).map
        (fun k => (k, f k))).map Prod.snd =
        submitted (f (i - 1)) ((List.range' i n).map f) := by
  intro n
  induction n with
  | zero => intro i _; rfl
  | succ n ih =>
    intro i hi
    rw [List.range'_succ, List.filter_cons, List.map_cons]
    have e := ih (i + 1) (by omega)
    rw [Nat.add_sub_cancel] at e
    by_cases heq : f i = f (i - 1)
    · rw [if_pos (decide_eq_true heq), List.map_cons, List.map_cons, submitted, if_pos heq,
        ← heq, e]
    · rw [if_neg (by rw [decide_eq_true_eq]; exact heq), submitted, if_neg heq]
      exact e

theorem adjacent_equal_values (s : HashArray) :
    (adjacent_equal s).map Prod.snd = dup_submissions s.records := by
  unfold adjacent_equal
  rw [values_of_adjacent s.record (s.num_elements - 1) 1 (le_refl _)]
  unfold HashArray.records
  by_cases hn : s.num_elements = 0
  · rw [hn]; rfl
  · obtain ⟨m, hm⟩ : ∃ m, s.num_elements = m + 1 := ⟨s.num_elements - 1, by omega⟩
    rw [hm, List.range_eq_range', List.range'_succ, List.map_cons]
    rfl

theorem length_submitted_sorted (l : List (List Nat)) :
    ∀ p, (p :: l).Sorted record_le →
      (submitted p l).length + (p :: l).dedup.length = (p :: l).length := by
  induction l with
  | nil => intro p _; simp [submitted]
  | cons x xs ih =>
    intro p hs
    have hs1 : (x :: xs).Sorted record_le := (List.pairwise_cons.mp hs).2
    by_cases h : x = p
    · have hs2 : (p :: xs).Sorted record_le := by rw [← h]; exact hs1
      have e := ih p hs2
      have hmem : p ∈ x :: xs := by rw [h]; exact List.mem_cons_self _ _
      rw [List.dedup_cons_of_mem hmem]
      simp only [submitted, h, if_true, List.length_cons] at e ⊢
      omega
    · have e := ih x hs1
      rw [List.dedup_cons_of_not_mem (not_mem_of_sorted_ne p x xs hs h)]
      simp only [submitted, h, if_false, List.length_cons] at e ⊢
      omega

/-- C16: on every store, ordered or not, the collision scan hands record `i` to `increase`
exactly when record `i` equals its predecessor, record `i - 1` (the scan of `main` is the scan
with `increase` as its table). Consequently on an ordered store every value that occurs
`k ≥ 1` times is submitted `k - 1` times, and the number of submissions is `N` less the number
of distinct values. -/
theorem scan_submits_adjacent_equal (s : HashArray) (h : s.wf) :
    scan_log s = .ok (adjacent_equal s) ∧
    (∀ n i prev hc, scan_loop s n i prev hc =
      scan_loop_with (fun (t : HashCount) _ v => t.increase v) s n i prev hc) ∧
    (∀ i v, (i, v) ∈ adjacent_equal s ↔
      (1 ≤ i ∧ i < s.num_elements ∧ s.record i = s.record (i - 1) ∧ v = s.record i)) ∧
    ((∀ i, i + 1 < s.num_elements → memcmp (s.record i) (s.record (i + 1)) ≤ 0) →
      (∀ v, ((adjacent_equal s).map Prod.snd).count v = s.records.count v - 1) ∧
      (adjacent_equal s).length = s.num_elements - s.records.dedup.length) := by
  refine ⟨?_, scan_loop_eq_with s, ?_, ?_⟩
  · unfold scan_log
    by_cases hn : s.num_elements = 0
    · unfold adjacent_equal
      rw [hn]
      rfl
    · rw [scan_log_loop s h (s.num_elements - 1) 1 0 [] (by omega) (le_refl _) (by omega) rfl]
      rfl
  · intro i v
    unfold adjacent_equal
    simp only [List.mem_map, List.mem_filter, List.mem_range'_1, decide_eq_true_eq,
      Prod.mk.injEq]
    constructor
    · rintro ⟨k, ⟨⟨h1, h2⟩, h3⟩, h4, h5⟩
      subst h4
      exact ⟨h1, by omega, h3, h5.symm⟩
    · rintro ⟨h1, h2, h3, h4⟩
      exact ⟨i, ⟨⟨h1, by omega⟩, h3⟩, rfl, h4.symm⟩
  · intro hs
    have hsorted := HashArray.sorted_records h hs
    have hlen : (adjacent_equal s).length = ((adjacent_equal s).map Prod.snd).length := by
      rw [List.length_map]
    rw [hlen, adjacent_equal_values]
    cases hr : s.records with
    | nil =>
      have hn : s.num_elements = 0 := by rw [← HashArray.length_records, hr]; rfl
      refine ⟨fun v => by simp [dup_submissions], ?_⟩
      rw [hn]
      rfl
    | cons p xs =>
      rw [hr] at hsorted
      have hn : s.num_elements = (p :: xs).length := by rw [← HashArray.length_records, hr]
      refine ⟨fun v => count_submitted xs p hsorted v, ?_⟩
      have e := length_submitted_sorted xs p hsorted
      rw [hn]
      show (submitted p xs).length = _
      omega

theorem scan_submits_adjacent_equal_witness :
    scan_log sample_sorted = .ok (adjacent_equal sample_sorted) ∧
    (∀ n i prev hc, scan_loop sample_sorted n i prev hc =
      scan_loop_with (fun (t : HashCount) _ v => t.increase v) sample_sorted n i prev hc) ∧
    (∀ i v, (i, v) ∈ adjacent_equal sample_sorted ↔
      (1 ≤ i ∧ i < sample_sorted.num_elements ∧
        sample_sorted.record i = sample_sorted.record (i - 1) ∧ v = sample_sorted.record i)) ∧
    ((∀ i, i + 1 < sample_sorted.num_elements →
        memcmp (sample_sorted.record i) (sample_sorted.record (i + 1)) ≤ 0) →
      (∀ v, ((adjacent_equal sample_sorted).map Prod.snd).count v =
        sample_sorted.records.count v - 1) ∧
      (adjacent_equal sample_sorted).length =
        sample_sorted.num_elements - sample_sorted.records.dedup.length) :=
  scan_submits_adjacent_equal sample_sorted (by decide)

/-! ## The table of duplicates: every table that `increase` leads to -/

theorem realloc_length (p : Option (List Nat)) (size : Nat) : (realloc p size).length = size := by
  cases p with
  | none => simp [realloc]
  | some old =>
    simp only [realloc, List.length_append, List.length_take, List.length_replicate]
    omega

theorem take_drop_take (old : List Nat) (size a m : Nat) (h : a + m ≤ size) :
    ((old.take size).drop a).take m = (old.drop a).take m := by
  apply List.ext_getElem?
  intro k
  simp only [List.getElem?_take, List.getElem?_drop]
  by_cases hk : k < m
  · simp only [hk, if_true]
    rw [if_pos (by omega)]
  · simp [hk]

theorem realloc_take (p : Option (List Nat)) (size a m : Nat) (h : a + m ≤ size)
    (ho : a + m ≤ (p.getD []).length) :
    ((realloc p size).drop a).take m = ((p.getD []).drop a).take m := by
  cases p with
  | none => simp at ho; have : m = 0 := by omega
            subst this; simp
  | some old =>
    simp only [Option.getD_some] at ho
    simp only [realloc, Option.getD_some]
    rw [HashCount.take_drop_append_left _ _ _ _ (by simp; omega), take_drop_take _ _ _ _ h]

theorem realloc_getD (p : Option (List Nat)) (size k : Nat) (h : k < size)
    (ho : k < (p.getD []).length) : (realloc p size).getD k 0 = (p.getD []).getD k 0 := by
  cases p with
  | none => simp at ho
  | some old =>
    simp only [Option.getD_some] at ho
    simp only [realloc, Option.getD_some]
    rw [List.getD_append _ _ _ _ (by simp; omega)]
    simp only [List.getD_eq_getElem?_getD, List.getElem?_take, if_pos h]

namespace HashCount

theorem sound_new (w : Nat) : (HashCount.new w).Sound := by
  refine ⟨le_refl _, (by show 0 < UINT_MOD; decide), ⟨0, rfl⟩, ?_, rfl, ?_, ⟨fun _ => rfl, fun _ => rfl⟩,
    fun _ => rfl⟩
  · show ([] : List Nat).length = (w * 0) % UINT_MOD
    rw [Nat.mul_zero]; rfl
  · show 0 * w ≤ ([] : List Nat).length
    rw [Nat.zero_mul]; exact Nat.le_refl _

theorem block_lt {hc : HashCount} (h : hc.Sound) : hc.block.length < UINT_MOD := by
  rw [h.2.2.2.1]
  exact Nat.mod_lt _ (by decide)

theorem key_offset_sound {hc : HashCount} (h : hc.Sound) {i : Nat} (hi : i < hc.num_items) :
    i * hc.hash_size + hc.hash_size ≤ hc.block.length ∧ i * hc.hash_size < UINT_MOD := by
  have h6 := h.2.2.2.2.2.1
  have hb := block_lt h
  have e : i * hc.hash_size + hc.hash_size ≤ hc.num_items * hc.hash_size := by
    calc i * hc.hash_size + hc.hash_size = (i + 1) * hc.hash_size := by ring
      _ ≤ hc.num_items * hc.hash_size := Nat.mul_le_mul_right _ hi
  constructor <;> omega

theorem length_key_sound {hc : HashCount} (h : hc.Sound) {i : Nat} (hi : i < hc.num_items) :
    (hc.key i).length = hc.hash_size := by
  have h1 := (key_offset_sound h hi).1
  unfold key
  simp only [List.length_take, List.length_drop]
  omega

theorem find_loop_sound (hc : HashCount) (h : hc.Sound) (v : List Nat)
    (hv : v.length = hc.hash_size) :
    ∀ n i, i + n = hc.num_items →
      (∃ j, find_loop hc hc.block v n i (i * hc.hash_size) = .ok (some j) ∧ i ≤ j ∧
        j < hc.num_items ∧ hc.key j = v ∧ ∀ k, i ≤ k → k < j → hc.key k ≠ v) ∨
      (find_loop hc hc.block v n i (i * hc.hash_size) = .ok none ∧
        ∀ k, i ≤ k → k < hc.num_items → hc.key k ≠ v) := by
  intro n
  induction n with
  | zero =>
    intro i hi
    right
    exact ⟨rfl, fun k h1 h2 => by omega⟩
  | succ n ih =>
    intro i hi
    have hin : i < hc.num_items := by omega
    have hr : readBytes hc.block (i * hc.hash_size) hc.hash_size = .ok (hc.key i) := by
      unfold readBytes
      rw [if_pos (key_offset_sound h hin).1]
      rfl
    rw [find_loop, hr]
    by_cases hm : memcmp (hc.key i) v = 0
    · left
      refine ⟨i, ?_, le_refl _, hin,
        memcmp_eq_zero ((length_key_sound h hin).trans hv.symm) hm, fun k h1 h2 => by omega⟩
      simp only [bind, Except.bind, hm, if_true]
    · have hne : hc.key i ≠ v := by
        intro e
        rw [e, memcmp_self] at hm
        exact hm rfl
      have e1 : i * hc.hash_size + hc.hash_size = (i + 1) * hc.hash_size := by ring
      simp only [bind, Except.bind, hm, if_false]
      rw [e1]
      rcases ih (i + 1) (by omega) with ⟨j, e, h1, h2, h3, h4⟩ | ⟨e, h1⟩
      · left
        refine ⟨j, e, by omega, h2, h3, ?_⟩
        intro k hk1 hk2
        by_cases hki : k = i
        · rw [hki]; exact hne
        · exact h4 k (by omega) hk2
      · right
        refine ⟨e, ?_⟩
        intro k hk1 hk2
        by_cases hki : k = i
        · rw [hki]; exact hne
        · exact h1 k (by omega) hk2

theorem find_sound (hc : HashCount) (h : hc.Sound) (v : List Nat)
    (hv : v.length = hc.hash_size) :
    (∃ j, hc.find v = .ok (some j) ∧ j < hc.num_items ∧ hc.key j = v ∧
        ∀ k, k < j → hc.key k ≠ v) ∨
      (hc.find v = .ok none ∧ ∀ k, k < hc.num_items → hc.key k ≠ v) := by
  unfold find
  cases hh : hc.hashes with
  | none =>
    right
    refine ⟨rfl, ?_⟩
    intro k hk
    have h0 := h.2.2.2.2.2.2.2 hh
    have := h.1
    omega
  | some b =>
    have hb : hc.block = b := by unfold block; rw [hh]; rfl
    have key := find_loop_sound hc h v hv hc.num_items 0 (by omega)
    rw [hb, Nat.zero_mul] at key
    rcases key with ⟨j, e, -, h2, h3, h4⟩ | ⟨e, h1⟩
    · left
      exact ⟨j, e, h2, h3, fun k hk => h4 k (Nat.zero_le _) hk⟩
    · right
      exact ⟨e, fun k hk => h1 k (Nat.zero_le _) hk⟩

theorem count_up_sound (hc : HashCount) (h : hc.Sound) (j : Nat) (hj : j < hc.num_items) :
    ∃ hc1, hc.count_up j = .ok hc1 ∧ hc1.Sound ∧ hc1.hash_size = hc.hash_size ∧
      hc1.num_items = hc.num_items ∧ hc1.capacity = hc.capacity ∧
      hc1.view = hc.view.set j (hc.key j, (hc.cells.getD j 0 + 1) % SIZE_MOD) := by
  obtain ⟨h1, h2, h3, h4, h5, h6, h7, h8⟩ := h
  cases hcs : hc.counts with
  | none =>
    have : hc.cells.length = 0 := by unfold cells; rw [hcs]; rfl
    omega
  | some cs =>
    have hcells : hc.cells = cs := by unfold cells; rw [hcs]; rfl
    have hjl : j < cs.length := by rw [← hcells]; omega
    refine ⟨{ hc with counts := some (cs.set j ((cs.getD j 0 + 1) % SIZE_MOD)) }, ?_, ?_, rfl,
      rfl, rfl, ?_⟩
    · unfold count_up
      simp only [hcs, if_pos hjl]
    · refine ⟨h1, h2, h3, h4, ?_, h6, ?_, h8⟩
      · show (cs.set j _).length = _
        rw [List.length_set, ← hcells]; exact h5
      · constructor
        · intro e
          have := h7.mp e
          rw [hcs] at this
          cases this
        · intro e
          cases e
    · apply List.ext_getElem
      · simp [view]
      · intro k hk1 hk2
        rw [List.getElem_set]
        simp only [view, List.getElem_map, List.getElem_range, key, block, cells, hcs,
          Option.getD_some, List.getD_eq_getElem?_getD, List.getElem?_set]
        by_cases hjk : j = k
        · subst hjk
          simp [hjl]
        · simp [hjk]

end HashCount

namespace HashCount

theorem uint_mod_eq : UINT_MOD = 4294967296 := by decide

theorem grow_sound (hc : HashCount) (h : hc.Sound) :
    hc.grow.hash_size = hc.hash_size ∧ hc.grow.num_items = hc.num_items ∧
      hc.grow.capacity < UINT_MOD ∧ 8192 ∣ hc.grow.capacity ∧
      hc.grow.block.length = (hc.hash_size * hc.grow.capacity) % UINT_MOD ∧
      hc.grow.cells.length = hc.grow.capacity ∧
      (hc.num_items < hc.grow.capacity →
        hc.grow.hashes = some hc.grow.block ∧ hc.grow.counts = some hc.grow.cells) ∧
      (∀ k, k < hc.num_items → k * hc.hash_size + hc.hash_size ≤ hc.grow.block.length →
        hc.grow.key k = hc.key k) ∧
      (∀ k, k < hc.num_items → k < hc.grow.cells.length →
        hc.grow.cells.getD k 0 = hc.cells.getD k 0) ∧
      (hc.grow.capacity = hc.capacity ∨
        (hc.num_items = hc.capacity ∧
          hc.grow.capacity = (hc.capacity + 8192) % UINT_MOD)) := by
  obtain ⟨h1, h2, h3, h4, h5, h6, h7, h8⟩ := h
  by_cases hfull : hc.num_items = hc.capacity
  · have eg : hc.grow = { hc with
        capacity := (hc.capacity + 8192) % UINT_MOD
        hashes := some (realloc hc.hashes
          ((hc.hash_size * ((hc.capacity + 8192) % UINT_MOD)) % UINT_MOD))
        counts := some (realloc hc.counts ((hc.capacity + 8192) % UINT_MOD)) } := by
      unfold grow
      rw [if_pos hfull]
    rw [eg]
    refine ⟨rfl, rfl, Nat.mod_lt _ (by decide), ?_, ?_, ?_, fun _ => ⟨rfl, rfl⟩, ?_, ?_,
      Or.inr ⟨hfull, rfl⟩⟩
    · show 8192 ∣ (hc.capacity + 8192) % UINT_MOD
      rw [Nat.dvd_mod_iff (by decide)]
      exact Nat.dvd_add h3 (Nat.dvd_refl _)
    · show (realloc hc.hashes _).length = _
      rw [realloc_length]
    · show (realloc hc.counts _).length = _
      rw [realloc_length]
    · intro k hk hle
      have hle1 : k * hc.hash_size + hc.hash_size ≤
          (realloc hc.hashes
            ((hc.hash_size * ((hc.capacity + 8192) % UINT_MOD)) % UINT_MOD)).length := hle
      rw [realloc_length] at hle1
      have hold : k * hc.hash_size + hc.hash_size ≤ hc.block.length := by
        have e : k * hc.hash_size + hc.hash_size ≤ hc.num_items * hc.hash_size := by
          calc k * hc.hash_size + hc.hash_size = (k + 1) * hc.hash_size := by ring
            _ ≤ hc.num_items * hc.hash_size := Nat.mul_le_mul_right _ hk
        omega
      show ((realloc hc.hashes _).drop _).take _ = _
      exact realloc_take _ _ _ _ hle1 hold
    · intro k hk hle
      have hle1 : k < (realloc hc.counts ((hc.capacity + 8192) % UINT_MOD)).length := hle
      rw [realloc_length] at hle1
      show (realloc hc.counts _).getD k 0 = _
      exact realloc_getD _ _ _ hle1 (by show k < hc.cells.length; omega)
  · have eg : hc.grow = hc := by unfold grow; rw [if_neg hfull]
    rw [eg]
    have hlt : hc.num_items < hc.capacity := by omega
    have hh : hc.hashes ≠ none := fun e => by have := h8 e; omega
    have hcn : hc.counts ≠ none := fun e => hh (h7.mpr e)
    refine ⟨rfl, rfl, h2, h3, h4, h5, fun _ => ⟨?_, ?_⟩, fun _ _ _ => rfl, fun _ _ _ => rfl,
      Or.inl rfl⟩
    · unfold block
      cases hx : hc.hashes with
      | none => exact absurd hx hh
      | some b => rfl
    · unfold cells
      cases hx : hc.counts with
      | none => exact absurd hx hcn
      | some b => rfl

theorem append_sound (hc : HashCount) (h : hc.Sound) (v : List Nat)
    (hv : v.length = hc.hash_size) (hc1 : HashCount) (e : hc.append v = .ok hc1) :
    hc1.Sound ∧ hc1.hash_size = hc.hash_size ∧ hc1.num_items = hc.num_items + 1 ∧
      hc1.view = hc.view ++ [(v, 1)] ∧
      (hc1.capacity = hc.capacity ∨
        (hc.num_items = hc.capacity ∧ hc1.capacity = hc.capacity + 8192)) := by
  obtain ⟨gW, gn, gcap, gdvd, gbl, gcl, gsome, gkey, gcell, gcase⟩ := grow_sound hc h
  have hview : hc.view = (List.range hc.num_items).map
      (fun i => (hc.key i, hc.cells.getD i 0)) := rfl
  have hblock := block_lt h
  have hn6 := h.2.2.2.2.2.1
  have hcapH := h.2.1
  unfold append at e
  simp only [] at e
  generalize hg : hc.grow = g at *
  cases hgh : g.hashes with
  | none => rw [hgh] at e; cases e
  | some B =>
    cases hgc : g.counts with
    | none => rw [hgh, hgc] at e; cases e
    | some C =>
      have hB : g.block = B := by unfold block; rw [hgh]; rfl
      have hC : g.cells = C := by unfold cells; rw [hgc]; rfl
      rw [hgh, hgc] at e
      simp only [bind, Except.bind, writeBytes, gn, gW] at e
      have hoff : (hc.num_items * hc.hash_size) % UINT_MOD = hc.num_items * hc.hash_size :=
        Nat.mod_eq_of_lt (by omega)
      rw [hoff] at e
      by_cases hb : hc.num_items * hc.hash_size + v.length ≤ B.length
      · rw [if_pos hb] at e
        simp only [] at e
        by_cases hcl : hc.num_items < C.length
        · rw [if_pos hcl] at e
          have hnc : hc.num_items < g.capacity := by rw [← gcl, hC]; exact hcl
          have hsucc : (hc.num_items + 1) % UINT_MOD = hc.num_items + 1 :=
            Nat.mod_eq_of_lt (by omega)
          rw [hsucc] at e
          have e1 : hc1 = { g with
              hash_size := hc.hash_size
              hashes := some (B.take (hc.num_items * hc.hash_size) ++ v ++
                B.drop (hc.num_items * hc.hash_size + v.length))
              counts := some (C.set hc.num_items 1)
              num_items := hc.num_items + 1 } := by
            cases e
            rfl
          have hbW : hc.num_items * hc.hash_size + hc.hash_size ≤ B.length := by
            rw [← hv]; rw [hv] at hb ⊢; exact hb
          rw [e1]
          refine ⟨⟨?_, gcap, gdvd, ?_, ?_, ?_, ?_, ?_⟩, rfl, rfl, ?_, ?_⟩
          · show hc.num_items + 1 ≤ g.capacity
            omega
          · show List.length (_ ++ _ ++ _) = (hc.hash_size * g.capacity) % UINT_MOD
            rw [length_patch _ _ _ hb, ← hB, gbl]
          · show (C.set _ _).length = g.capacity
            rw [List.length_set, ← hC]; exact gcl
          · show (hc.num_items + 1) * hc.hash_size ≤ List.length (_ ++ _ ++ _)
            rw [length_patch _ _ _ hb]
            calc (hc.num_items + 1) * hc.hash_size
                = hc.num_items * hc.hash_size + hc.hash_size := by ring
              _ ≤ B.length := hbW
          · constructor <;> intro c <;> cases c
          · intro c; cases c
          · rw [hview]
            show (List.range (hc.num_items + 1)).map (fun i =>
                (List.take hc.hash_size (List.drop (i * hc.hash_size) (_ ++ _ ++ _)),
                  List.getD (C.set hc.num_items 1) i 0)) = _
            rw [List.range_succ, List.map_append]
            congr 1
            · apply List.map_congr_left
              intro k hk
              have hk1 : k < hc.num_items := List.mem_range.mp hk
              have hkW : k * hc.hash_size + hc.hash_size ≤ hc.num_items * hc.hash_size := by
                calc k * hc.hash_size + hc.hash_size = (k + 1) * hc.hash_size := by ring
                  _ ≤ hc.num_items * hc.hash_size := Nat.mul_le_mul_right _ hk1
              rw [take_drop_patch_other _ _ _ _ _ hb (Or.inl hkW)]
              have hk2 := gkey k hk1 (by rw [hB]; omega)
              have hk3 := gcell k hk1 (by rw [hC]; omega)
              rw [← hk2, ← hk3, hC]
              simp only [List.getD_eq_getElem?_getD, List.getElem?_set, key, hB, gW]
              rw [if_neg (by omega)]
            · simp only [List.map_cons, List.map_nil, List.getD_eq_getElem?_getD,
                List.getElem?_set, if_pos hcl, if_true, Option.getD_some]
              rw [← hv, take_drop_patch_same _ _ _ (by rw [hv]; exact hbW)]
          · show g.capacity = hc.capacity ∨ _
            rcases gcase with c1 | ⟨c1, c2⟩
            · exact Or.inl c1
            · right
              refine ⟨c1, ?_⟩
              show g.capacity = hc.capacity + 8192
              have hu := uint_mod_eq
              rw [hu] at c2 hcapH
              omega
        · rw [if_neg hcl] at e
          cases e
      · rw [if_neg hb] at e
        cases e

end HashCount

namespace HashCount

theorem keys_view (hc : HashCount) :
    hc.view.map Prod.fst = (List.range hc.num_items).map hc.key := by
  simp [view]

theorem view_at (hc : HashCount) {i : Nat} (hi : i < hc.num_items) :
    hc.view[i]? = some (hc.key i, hc.cells.getD i 0) := by
  rw [List.getElem?_eq_getElem (by rw [length_view]; exact hi), getElem_view]

theorem increase_sound (hc : HashCount) (h : hc.Sound) (v : List Nat)
    (hv : v.length = hc.hash_size) (hc1 : HashCount) (e : hc.increase v = .ok hc1) :
    hc1.Sound ∧ hc1.hash_size = hc.hash_size ∧
      ((∃ j, j < hc.num_items ∧ hc.key j = v ∧ (∀ k, k < j → hc.key k ≠ v) ∧
          hc1.num_items = hc.num_items ∧ hc1.capacity = hc.capacity ∧
          hc1.view = hc.view.set j (v, (hc.cells.getD j 0 + 1) % SIZE_MOD)) ∨
        ((∀ k, k < hc.num_items → hc.key k ≠ v) ∧ hc1.num_items = hc.num_items + 1 ∧
          hc1.view = hc.view ++ [(v, 1)] ∧
          (hc1.capacity = hc.capacity ∨
            (hc.num_items = hc.capacity ∧ hc1.capacity = hc.capacity + 8192)))) := by
  rcases find_sound hc h v hv with ⟨j, ef, hj, hk, hfirst⟩ | ⟨ef, hnone⟩
  · obtain ⟨hc2, e2, s2, w2, n2, c2, v2⟩ := count_up_sound hc h j hj
    have e3 : hc.increase v = hc.count_up j := by
      unfold increase
      rw [ef]
      rfl
    rw [e3, e2] at e
    cases e
    refine ⟨s2, w2, Or.inl ⟨j, hj, hk, hfirst, n2, c2, ?_⟩⟩
    rw [v2, hk]
  · have e3 : hc.increase v = hc.append v := by
      unfold increase
      rw [ef]
      rfl
    rw [e3] at e
    obtain ⟨s2, w2, n2, v2, c2⟩ := append_sound hc h v hv hc1 e
    exact ⟨s2, w2, Or.inr ⟨hnone, n2, v2, c2⟩⟩

theorem keys_set (hc : HashCount) {j : Nat} (hj : j < hc.num_items) (c : Nat) :
    (hc.view.set j (hc.key j, c)).map Prod.fst = hc.view.map Prod.fst := by
  apply List.ext_getElem?
  intro i
  rw [List.getElem?_map, List.getElem?_map, List.getElem?_set]
  by_cases hij : j = i
  · subst hij
    rw [if_pos rfl, if_pos (by rw [length_view]; exact hj), view_at hc hj]
    rfl
  · rw [if_neg hij]

theorem reachable_sound {w k : Nat} {hc : HashCount} (hr : Reachable w k hc) :
    hc.Sound ∧ hc.hash_size = w ∧ (hc.view.map Prod.fst).Nodup ∧ hc.num_items ≤ k := by
  induction hr with
  | init => exact ⟨sound_new w, rfl, List.nodup_nil, le_refl _⟩
  | step _ hv e ih =>
    obtain ⟨hs, hw, hnd, hle⟩ := ih
    obtain ⟨s1, w1, hcase⟩ := increase_sound _ hs _ (by rw [hv, hw]) _ e
    refine ⟨s1, by rw [w1, hw], ?_, ?_⟩
    · rcases hcase with ⟨j, hj, hk, -, -, -, v1⟩ | ⟨hnone, -, v1, -⟩
      · rw [v1, ← hk, keys_set _ hj]
        exact hnd
      · rw [v1, List.map_append, List.nodup_append]
        refine ⟨hnd, List.nodup_singleton _, ?_⟩
        intro a ha hb
        rw [List.map_cons, List.map_nil, List.mem_singleton] at hb
        rw [keys_view, List.mem_map] at ha
        obtain ⟨i, hi, hki⟩ := ha
        exact hnone i (List.mem_range.mp hi) (by rw [hki, hb])
    · rcases hcase with ⟨j, -, -, -, n1, -, -⟩ | ⟨-, n1, -, -⟩ <;> omega

theorem reachable_counts {w k : Nat} {hc : HashCount} (hr : Reachable w k hc) :
    k < SIZE_MOD → ∀ e ∈ hc.view, 1 ≤ e.2 ∧ e.2 ≤ k := by
  induction hr with
  | init =>
    intro _ e he
    have hnil : (HashCount.new w).view = [] := rfl
    rw [hnil] at he
    cases he
  | step hr0 hv e ih =>
    rename_i k0 hc0 hc1 v
    intro hk x hx
    have ih1 := ih (by omega)
    obtain ⟨hs, hw, -, -⟩ := reachable_sound hr0
    obtain ⟨s1, w1, hcase⟩ := increase_sound _ hs _ (by rw [hv, hw]) _ e
    rcases hcase with ⟨j, hj, -, -, -, -, v1⟩ | ⟨-, -, v1, -⟩
    · rw [v1] at hx
      rcases List.mem_or_eq_of_mem_set hx with hx | hx
      · have := ih1 x hx
        omega
      · have hm : (hc0.key j, hc0.cells.getD j 0) ∈ hc0.view := by
          rw [← getElem_view hc0 j (by rw [length_view]; exact hj)]
          exact List.getElem_mem _
        have hb := ih1 _ hm
        have hb1 : 1 ≤ hc0.cells.getD j 0 := hb.1
        have hb2 : hc0.cells.getD j 0 ≤ k0 := hb.2
        rw [hx]
        show 1 ≤ (hc0.cells.getD j 0 + 1) % SIZE_MOD ∧ (hc0.cells.getD j 0 + 1) % SIZE_MOD ≤ k0 + 1
        rw [Nat.mod_eq_of_lt (by omega)]
        omega
    · rw [v1, List.mem_append, List.mem_singleton] at hx
      rcases hx with hx | hx
      · have := ih1 x hx
        omega
      · rw [hx]
        exact ⟨le_refl _, by show 1 ≤ k0 + 1; omega⟩

end HashCount

/-! ## Reachable tables: counts, sums and the wrap of a count -/

theorem sum_bump (t : List (List Nat × Nat)) (v : List Nat) :
    ((bump t v).map Prod.snd).sum = (t.map Prod.snd).sum + 1 := by
  induction t with
  | nil => simp [bump]
  | cons e t ih =>
    by_cases he : e.1 = v
    · simp only [bump, he, if_true, List.map_cons, List.sum_cons]
      omega
    · simp only [bump, he, if_false, List.map_cons, List.sum_cons, ih]
      omega

namespace HashCount

theorem size_mod_eq : SIZE_MOD = 18446744073709551616 := by decide

theorem sound_inv {hc : HashCount} (h : hc.Sound) (hroom : hc.hash_size * hc.capacity < UINT_MOD) :
    hc.Inv := by
  obtain ⟨h1, h2, -, h4, h5, -, h7, h8⟩ := h
  exact ⟨h1, hroom, h2, by rw [h4, Nat.mod_eq_of_lt hroom], h5, h7, h8⟩

theorem reachable_room {w k : Nat} {hc : HashCount} (hr : Reachable w k hc) :
    hc.capacity ≤ hc.num_items + 8191 := by
  induction hr with
  | init => exact Nat.zero_le _
  | step hr0 hv e ih =>
    obtain ⟨hs, hw, -, -⟩ := reachable_sound hr0
    obtain ⟨-, -, hcase⟩ := increase_sound _ hs _ (by rw [hv, hw]) _ e
    rcases hcase with ⟨j, -, -, -, n1, c1, -⟩ | ⟨-, n1, -, c1 | ⟨c1, c2⟩⟩ <;> omega

theorem increase_sound_bump (hc : HashCount) (h : hc.Sound) (v : List Nat)
    (hv : v.length = hc.hash_size) (hc1 : HashCount) (e : hc.increase v = .ok hc1)
    (hcnt : ∀ x ∈ hc.view, x.2 + 1 < SIZE_MOD) : hc1.view = bump hc.view v := by
  obtain ⟨-, -, hcase⟩ := increase_sound hc h v hv hc1 e
  rcases hcase with ⟨j, hj, hk, hfirst, -, -, v1⟩ | ⟨hnone, -, v1, -⟩
  · have hjl : j < hc.view.length := by rw [length_view]; exact hj
    have hmem : hc.view[j] ∈ hc.view := List.getElem_mem _
    have hc2 := hcnt _ hmem
    rw [getElem_view] at hc2
    rw [v1, bump_eq_set hc.view v j hjl (by rw [getElem_view]; exact hk) (by
      intro k hkj
      rw [getElem_view]
      exact hfirst k hkj)]
    rw [getElem_view, Nat.mod_eq_of_lt hc2]
  · rw [v1, bump_eq_append]
    intro x hx
    obtain ⟨k, hk, rfl⟩ := List.getElem_of_mem hx
    rw [getElem_view]
    exact hnone k (by rw [← length_view]; exact hk)

theorem reachable_sum {w k : Nat} {hc : HashCount} (hr : Reachable w k hc) :
    k < SIZE_MOD → (hc.view.map Prod.snd).sum = k := by
  induction hr with
  | init => intro _; rfl
  | step hr0 hv e ih =>
    rename_i k0 hc0 hc1 v
    intro hk
    obtain ⟨hs, hw, -, -⟩ := reachable_sound hr0
    have hcnt := reachable_counts hr0 (by omega)
    rw [increase_sound_bump _ hs _ (by rw [hv, hw]) _ e (fun x hx => by
      have := (hcnt x hx).2
      omega), sum_bump, ih (by omega)]

theorem increase_single (hc : HashCount) (h : hc.Sound) (hw : hc.hash_size = 1) (c : Nat)
    (hvw : hc.view = [([0], c)]) :
    ∃ hc1, hc.increase [0] = .ok hc1 ∧ hc1.Sound ∧ hc1.hash_size = 1 ∧
      hc1.view = [([0], (c + 1) % SIZE_MOD)] := by
  have hn : hc.num_items = 1 := by rw [← length_view, hvw]; rfl
  have h0 := view_at hc (show 0 < hc.num_items by omega)
  rw [hvw] at h0
  have h1 : ([0], c) = (hc.key 0, hc.cells.getD 0 0) := Option.some.inj h0
  have hkey : hc.key 0 = [0] := (congrArg Prod.fst h1).symm
  have hcell : hc.cells.getD 0 0 = c := (congrArg Prod.snd h1).symm
  rcases find_sound hc h [0] (by rw [hw]; rfl) with ⟨j, ef, hj, -, -⟩ | ⟨-, hnone⟩
  · have hj0 : j = 0 := by omega
    subst hj0
    obtain ⟨hc2, e2, s2, w2, -, -, v2⟩ := count_up_sound hc h 0 (by omega)
    refine ⟨hc2, ?_, s2, by rw [w2, hw], ?_⟩
    · unfold increase
      rw [ef]
      exact e2
    · rw [v2, hvw, hkey, hcell]
      rfl
  · exact absurd hkey (hnone 0 (by omega))

theorem reachable_single (k : Nat) :
    ∃ hc, Reachable 1 (k + 1) hc ∧ hc.Sound ∧ hc.hash_size = 1 ∧
      hc.view = [([0], (k + 1) % SIZE_MOD)] := by
  induction k with
  | zero =>
    obtain ⟨hc1, e, -, w1, -, v1⟩ := increase_spec (HashCount.new 1) (inv_new 1)
      (by show 0 < 1; decide) [0] rfl (by show 1 * (0 + 8192) < UINT_MOD; decide)
      (fun x hx => by cases hx)
    have hr : Reachable 1 (0 + 1) hc1 := Reachable.step Reachable.init (show [0].length = 1 from rfl) e
    exact ⟨hc1, hr, (reachable_sound hr).1, w1, v1⟩
  | succ k ih =>
    obtain ⟨hc, hr, hs, hw, hv⟩ := ih
    obtain ⟨hc1, e, s1, w1, v1⟩ := increase_single hc hs hw _ hv
    refine ⟨hc1, Reachable.step hr (show [0].length = 1 from rfl) e, s1, w1, ?_⟩
    rw [v1, Nat.mod_add_mod]

end HashCount

namespace HashCount

theorem one_entry_table_step : (HashCount.new 1).increase [0] = .ok one_entry_table := by
  obtain ⟨hc1, e, -⟩ := increase_spec (HashCount.new 1) (inv_new 1)
    (by show 0 < 1; decide) [0] rfl (by show 1 * (0 + 8192) < UINT_MOD; decide)
    (fun x hx => by cases hx)
  have e1 : one_entry_table = hc1 := by
    unfold one_entry_table
    rw [e]
  rw [e1]
  exact e

theorem block_grow_new (w : Nat) :
    (HashCount.new w).grow.block = List.replicate ((w * 8192) % UINT_MOD) 0 := by
  rw [grow_new]
  rfl

theorem one_entry_table_reachable : Reachable 1 1 one_entry_table :=
  Reachable.step Reachable.init (show [0].length = 1 from rfl) one_entry_table_step

/-- The bound on the number of calls in `reachable_counts` cannot be dropped: a count is a
`size_t`, and `2^64` calls `increase([0])`, more than any run of `main` makes, take it back to
`0`. -/
theorem wrap_states :
    ∃ hc0 hc1, Reachable 1 (SIZE_MOD - 1) hc0 ∧ hc0.view = [([0], SIZE_MOD - 1)] ∧
      hc0.increase [0] = .ok hc1 ∧ Reachable 1 SIZE_MOD hc1 ∧ hc1.view = [([0], 0)] := by
  obtain ⟨hc0, hr0, hs0, hw0, hv0⟩ := reachable_single (SIZE_MOD - 2)
  obtain ⟨hc1, e, -, -, hv1⟩ := increase_single hc0 hs0 hw0 _ hv0
  have e1 : SIZE_MOD - 2 + 1 = SIZE_MOD - 1 := by decide
  have e2 : (SIZE_MOD - 1) % SIZE_MOD = SIZE_MOD - 1 := by decide
  have e3 : (SIZE_MOD - 1 + 1) % SIZE_MOD = 0 := by decide
  have e4 : SIZE_MOD - 1 + 1 = SIZE_MOD := by decide
  rw [e1] at hr0 hv0
  rw [e2] at hv0
  rw [e1, e2, e3] at hv1
  have hr1 : Reachable 1 (SIZE_MOD - 1 + 1) hc1 :=
    Reachable.step hr0 (show [0].length = 1 from rfl) e
  rw [e4] at hr1
  exact ⟨hc0, hc1, hr0, hv0, e, hr1, hv1⟩

end HashCount

/-! ## The table of duplicates: the claims on `increase` -/

/-- The effect of `increase(v)` on a table reached from the constructor by fewer than
`2^64 - 1` calls of `increase`, for a value `v` of `hash_size` bytes. The call completes
whenever `hash_size >= 1` and `hash_size * (num_items + 8192) < 2^32`. When it completes:
either no entry held `v`, and then the entry `(v, 1)` is appended at index `num_items`,
`num_items` grows by 1 and the earlier entries are unchanged; or the first entry holding `v`
has its count incremented by 1 and `num_items`, the values and the other counts are unchanged.
In both cases the sum of the counts grows by exactly 1, and it equals the number of calls made
so far. -/
theorem increase_counts_one (w k : Nat) (hc : HashCount) (hr : HashCount.Reachable w k hc)
    (hk : k + 1 < SIZE_MOD) (v : List Nat) (hv : v.length = w) :
    (1 ≤ w → w * (hc.num_items + 8192) < UINT_MOD → ∃ hc1, hc.increase v = .ok hc1) ∧
      ∀ hc1, hc.increase v = .ok hc1 →
        (((∀ i, i < hc.num_items → hc.key i ≠ v) ∧ hc1.num_items = hc.num_items + 1 ∧
            hc1.view = hc.view ++ [(v, 1)]) ∨
          (∃ j, j < hc.num_items ∧ hc.key j = v ∧ (∀ i, i < j → hc.key i ≠ v) ∧
            hc1.num_items = hc.num_items ∧
            hc1.view = hc.view.set j (v, hc.cells.getD j 0 + 1))) ∧
        (hc1.view.map Prod.snd).sum = (hc.view.map Prod.snd).sum + 1 ∧
        (hc.view.map Prod.snd).sum = k ∧ (hc1.view.map Prod.snd).sum = k + 1 := by
  obtain ⟨hs, hw, -, -⟩ := HashCount.reachable_sound hr
  have hcnt := HashCount.reachable_counts hr (by omega)
  have hcnt1 : ∀ x ∈ hc.view, x.2 + 1 < SIZE_MOD := fun x hx => by
    have := (hcnt x hx).2
    omega
  have hvl : v.length = hc.hash_size := by rw [hv, hw]
  refine ⟨?_, ?_⟩
  · intro hw1 hroom
    have hcap := HashCount.reachable_room hr
    have hroom1 : hc.hash_size * hc.capacity < UINT_MOD := by
      rw [hw]
      exact lt_of_le_of_lt (Nat.mul_le_mul_left _ (by omega)) hroom
    obtain ⟨hc1, e, -⟩ := HashCount.increase_spec hc (HashCount.sound_inv hs hroom1)
      (by rw [hw]; exact hw1) v hvl (by rw [hw]; exact hroom) hcnt1
    exact ⟨hc1, e⟩
  · intro hc1 e
    have hsum := HashCount.reachable_sum hr (by omega)
    have hsum1 := HashCount.reachable_sum (HashCount.Reachable.step hr hv e) hk
    refine ⟨?_, by rw [hsum1, hsum], hsum, hsum1⟩
    obtain ⟨-, -, hcase⟩ := HashCount.increase_sound hc hs v hvl hc1 e
    rcases hcase with ⟨j, hj, hkj, hfirst, n1, -, v1⟩ | ⟨hnone, n1, v1, -⟩
    · right
      have hm : (hc.key j, hc.cells.getD j 0) ∈ hc.view := by
        rw [← HashCount.getElem_view hc j (by rw [HashCount.length_view]; exact hj)]
        exact List.getElem_mem _
      have hb : hc.cells.getD j 0 + 1 < SIZE_MOD := hcnt1 _ hm
      refine ⟨j, hj, hkj, hfirst, n1, ?_⟩
      rw [v1, Nat.mod_eq_of_lt hb]
    · exact Or.inl ⟨hnone, n1, v1⟩

theorem increase_counts_one_witness :
    (1 ≤ 1 → 1 * (one_entry_table.num_items + 8192) < UINT_MOD →
        ∃ hc1, one_entry_table.increase [0] = .ok hc1) ∧
      ∀ hc1, one_entry_table.increase [0] = .ok hc1 →
        (((∀ i, i < one_entry_table.num_items → one_entry_table.key i ≠ [0]) ∧
            hc1.num_items = one_entry_table.num_items + 1 ∧
            hc1.view = one_entry_table.view ++ [([0], 1)]) ∨
          (∃ j, j < one_entry_table.num_items ∧ one_entry_table.key j = [0] ∧
            (∀ i, i < j → one_entry_table.key i ≠ [0]) ∧
            hc1.num_items = one_entry_table.num_items ∧
            hc1.view = one_entry_table.view.set j ([0], one_entry_table.cells.getD j 0 + 1))) ∧
        (hc1.view.map Prod.snd).sum = (one_entry_table.view.map Prod.snd).sum + 1 ∧
        (one_entry_table.view.map Prod.snd).sum = 1 ∧ (hc1.view.map Prod.snd).sum = 1 + 1 :=
  increase_counts_one 1 1 one_entry_table HashCount.one_entry_table_reachable (by decide) [0] rfl

/-- C17: every table reached from the constructor by `k` calls of `increase` that complete,
`k` in the range of the loop counter of `main` (a `size_t`; the scan makes at most `N - 1`
calls), has pairwise distinct values in its entries, every count at least 1,
`num_items <= capacity` and a capacity that is a multiple of 8192. A further call that completes
does not decrease `num_items`, the capacity or any count, keeps the values of the entries, and
changes the capacity only by adding exactly 8192, which it does exactly on an insertion made
when `num_items == capacity`. -/
theorem reachable_table_invariant (w k : Nat) (hc : HashCount)
    (hr : HashCount.Reachable w k hc) (hk : k < SIZE_MOD) :
    (hc.view.map Prod.fst).Nodup ∧ (∀ e ∈ hc.view, 1 ≤ e.2) ∧
      hc.num_items ≤ hc.capacity ∧ 8192 ∣ hc.capacity ∧
      ∀ (v : List Nat) (hc1 : HashCount), v.length = w → hc.increase v = .ok hc1 →
        k + 1 < SIZE_MOD →
        hc.num_items ≤ hc1.num_items ∧ hc.capacity ≤ hc1.capacity ∧
        (∀ i, i < hc.num_items →
          hc1.key i = hc.key i ∧ hc.cells.getD i 0 ≤ hc1.cells.getD i 0) ∧
        (hc1.capacity = hc.capacity ∨
          (hc1.capacity = hc.capacity + 8192 ∧ hc.num_items = hc.capacity ∧
            hc1.num_items = hc.num_items + 1)) ∧
        (hc1.num_items = hc.num_items + 1 → hc.num_items = hc.capacity →
          hc1.capacity = hc.capacity + 8192) := by
  obtain ⟨hs, hw, hnd, -⟩ := HashCount.reachable_sound hr
  have hcnt := HashCount.reachable_counts hr hk
  refine ⟨hnd, fun e he => (hcnt e he).1, hs.1, hs.2.2.1, ?_⟩
  intro v hc1 hv e hk1
  obtain ⟨s1, -, hcase⟩ := HashCount.increase_sound hc hs v (by rw [hv, hw]) hc1 e
  rcases hcase with ⟨j, hj, hkj, -, n1, c1, v1⟩ | ⟨-, n1, v1, c1⟩
  · refine ⟨by omega, by omega, ?_, Or.inl c1, fun hn => by omega⟩
    intro i hi
    have a1 := HashCount.view_at hc1 (show i < hc1.num_items by omega)
    rw [v1, List.getElem?_set] at a1
    by_cases hji : j = i
    · subst hji
      rw [if_pos rfl, if_pos (by rw [HashCount.length_view]; exact hj)] at a1
      have a2 := Option.some.inj a1
      have k1 : hc1.key j = v := (congrArg Prod.fst a2).symm
      have k2 : hc1.cells.getD j 0 = (hc.cells.getD j 0 + 1) % SIZE_MOD :=
        (congrArg Prod.snd a2).symm
      have hm : (hc.key j, hc.cells.getD j 0) ∈ hc.view := by
        rw [← HashCount.getElem_view hc j (by rw [HashCount.length_view]; exact hj)]
        exact List.getElem_mem _
      have hb : hc.cells.getD j 0 ≤ k := (hcnt _ hm).2
      refine ⟨by rw [k1, hkj], ?_⟩
      rw [k2, Nat.mod_eq_of_lt (by omega)]
      omega
    · rw [if_neg hji, HashCount.view_at hc hi] at a1
      have a2 := Option.some.inj a1
      exact ⟨(congrArg Prod.fst a2).symm, le_of_eq (congrArg Prod.snd a2)⟩
  · refine ⟨by omega, by rcases c1 with c | ⟨-, c⟩ <;> omega, ?_, ?_, ?_⟩
    · intro i hi
      have a1 := HashCount.view_at hc1 (show i < hc1.num_items by omega)
      rw [v1, List.getElem?_append_left (by rw [HashCount.length_view]; exact hi),
        HashCount.view_at hc hi] at a1
      have a2 := Option.some.inj a1
      exact ⟨(congrArg Prod.fst a2).symm, le_of_eq (congrArg Prod.snd a2)⟩
    · rcases c1 with c | ⟨c, c2⟩
      · exact Or.inl c
      · exact Or.inr ⟨c2, c, n1⟩
    · intro _ hfull
      rcases c1 with c | ⟨-, c⟩
      · have := s1.1
        omega
      · exact c

theorem reachable_table_invariant_witness :
    (one_entry_table.view.map Prod.fst).Nodup ∧ (∀ e ∈ one_entry_table.view, 1 ≤ e.2) ∧
      one_entry_table.num_items ≤ one_entry_table.capacity ∧
      8192 ∣ one_entry_table.capacity ∧
      ∀ (v : List Nat) (hc1 : HashCount), v.length = 1 →
        one_entry_table.increase v = .ok hc1 → 1 + 1 < SIZE_MOD →
        one_entry_table.num_items ≤ hc1.num_items ∧
        one_entry_table.capacity ≤ hc1.capacity ∧
        (∀ i, i < one_entry_table.num_items →
          hc1.key i = one_entry_table.key i ∧
            one_entry_table.cells.getD i 0 ≤ hc1.cells.getD i 0) ∧
        (hc1.capacity = one_entry_table.capacity ∨
          (hc1.capacity = one_entry_table.capacity + 8192 ∧
            one_entry_table.num_items = one_entry_table.capacity ∧
            hc1.num_items = one_entry_table.num_items + 1)) ∧
        (hc1.num_items = one_entry_table.num_items + 1 →
          one_entry_table.num_items = one_entry_table.capacity →
          hc1.capacity = one_entry_table.capacity + 8192) :=
  reachable_table_invariant 1 1 one_entry_table HashCount.one_entry_table_reachable (by decide)

/-- C19: the size of the value block requested on growth is not the product
`hash_size * capacity`. A new table for records of 524289 bytes (a state the constructor
gives) grows to capacity 8192 with a value block of `524289 * 8192 mod 2^32 = 8192` bytes, less
than the `4294975488` bytes of 8192 entries, and entry 0 does not fit in it. -/
theorem growth_size_wraps :
    HashCount.Reachable 524289 0 (HashCount.new 524289) ∧
      (HashCount.new 524289).grow.hash_size = 524289 ∧
      (HashCount.new 524289).grow.capacity = 8192 ∧
      (HashCount.new 524289).grow.block.length = 8192 ∧
      (HashCount.new 524289).grow.block.length =
        ((HashCount.new 524289).grow.hash_size * (HashCount.new 524289).grow.capacity)
          % UINT_MOD ∧
      (HashCount.new 524289).grow.hash_size * (HashCount.new 524289).grow.capacity
        = 4294975488 ∧
      (HashCount.new 524289).grow.block.length <
        0 * (HashCount.new 524289).grow.hash_size + (HashCount.new 524289).grow.hash_size := by
  have hw : (HashCount.new 524289).grow.hash_size = 524289 := by rw [HashCount.grow_new]
  have hc : (HashCount.new 524289).grow.capacity = 8192 := by rw [HashCount.grow_new]
  rw [HashCount.block_grow_new, List.length_replicate, hw, hc]
  exact ⟨HashCount.Reachable.init, rfl, rfl, by decide, by decide, by decide, by decide⟩


/-! ## Stores as the constructor builds them: records of two bytes or more -/

namespace HashArray

theorem new_not_scratch_ok (buffer : List Nat) (n w : Nat) (hw : 2 ≤ w) :
    ¬ (HashArray.new buffer n w).scratch_ok := by
  show ¬ w ≤ 1
  omega

theorem sort_small_scratch_faults {s : HashArray} (fuel : Nat) (h : s.wf)
    (ht : ¬ s.scratch_ok) (hn : 2 ≤ s.num_elements) (hf : s.num_elements + 2 ≤ fuel) :
    s.sort fuel = .error Fault.bounds := by
  unfold sort
  rw [sort_last h (by omega)]
  obtain ⟨f, hfe⟩ : ∃ f, fuel = f + 1 := ⟨fuel - 1, by omega⟩
  rw [hfe, quicksort]
  rw [if_pos (by omega), partition_small_scratch f h ht (Nat.zero_le _) (by omega) (by omega)]
  rfl

theorem built_sort_faults (buffer : List Nat) (n w fuel : Nat)
    (h : (HashArray.new buffer n w).wf) (hn : 2 ≤ n) (hw : 2 ≤ w) (hf : n + 2 ≤ fuel) :
    (HashArray.new buffer n w).sort fuel = .error Fault.bounds :=
  sort_small_scratch_faults fuel h (new_not_scratch_ok buffer n w hw) hn hf

theorem built_partition_faults (buffer : List Nat) (n w fuel first last : Nat)
    (h : (HashArray.new buffer n w).wf) (hw : 2 ≤ w) (hfl : first ≤ last) (hl : last < n)
    (hf : last + 2 ≤ fuel + first) :
    (HashArray.new buffer n w).partition fuel first last = .error Fault.bounds :=
  partition_small_scratch fuel h (new_not_scratch_ok buffer n w hw) hfl hl hf

theorem built_swap_faults (buffer : List Nat) (n w i j : Nat)
    (h : (HashArray.new buffer n w).wf) (hw : 2 ≤ w) (hi : i < n) :
    (HashArray.new buffer n w).swap i j = .error Fault.bounds :=
  swap_small_scratch h (new_not_scratch_ok buffer n w hw) hi j

end HashArray

/-- C1: `sort()` on the store that the constructor builds over the records `00 05`, `00 01`,
`00 05`, `00 02` of two bytes returns no store in which adjacent records are in order. The
records are out of order at the start (record 1 is below record 0), the scratch block has one
byte, and the first `swap` of the sort copies a record of two bytes into it. -/
theorem sort_built_store_faults (fuel : Nat) :
    built_store.wf ∧ built_store.temp.length = 1 ∧ built_store.is_below 1 0 = .ok true ∧
      built_store.sort (fuel + 6) = .error Fault.bounds ∧
      ¬ ∃ s1, built_store.sort (fuel + 6) = .ok s1 ∧
        ∀ i, i + 1 < built_store.num_elements →
          memcmp (s1.record i) (s1.record (i + 1)) ≤ 0 := by
  have e : built_store.sort (fuel + 6) = .error Fault.bounds :=
    HashArray.built_sort_faults _ _ _ _ (by decide) (by decide) (by decide) (by omega)
  refine ⟨by decide, rfl, by decide, e, ?_⟩
  rintro ⟨s1, e1, -⟩
  rw [e] at e1
  cases e1

/-- C2: `sort()` on the store that the constructor builds over the records `00 05`, `00 01`,
`00 05`, `00 02` returns no store holding a permutation of these records, and the run of
`main` on the file of these eight bytes with record width 2 ends in the same overrun of the
one-byte scratch block instead of a list of entries. -/
theorem sort_built_store_no_permutation (fuel : Nat) :
    (¬ ∃ s1, built_store.sort (fuel + 6) = .ok s1 ∧
        Multiset.ofList s1.records = Multiset.ofList built_store.records ∧
        s1.num_elements = built_store.num_elements ∧
        s1.hash_size = built_store.hash_size) ∧
      analyze (fuel + 6) [0, 5, 0, 1, 0, 5, 0, 2] 2 = .error Fault.bounds := by
  have e : built_store.sort (fuel + 6) = .error Fault.bounds :=
    HashArray.built_sort_faults _ _ _ _ (by decide) (by decide) (by decide) (by omega)
  refine ⟨?_, ?_⟩
  · rintro ⟨s1, e1, -⟩
    rw [e] at e1
    cases e1
  · rw [analyze_eq]
    show (built_store.sort (fuel + 6) >>= _) = _
    rw [e]
    rfl

/-- C8: the store that the constructor builds over the records `00 01`, `00 02` is in
ascending order, and `sort()` does not leave its buffer unchanged: it returns no store at all,
since `partition(0, 1)` calls `swap(0, 0)`, which copies two bytes into the scratch block of one
byte. There is then no result to sort a second time either. -/
theorem sort_ordered_built_store_faults (fuel : Nat) :
    ordered_built_store.wf ∧
      (∀ i, i + 1 < ordered_built_store.num_elements →
        memcmp (ordered_built_store.record i) (ordered_built_store.record (i + 1)) ≤ 0) ∧
      ordered_built_store.is_below 0 1 = .ok true ∧
      ordered_built_store.swap 0 0 = .error Fault.bounds ∧
      ordered_built_store.sort (fuel + 4) = .error Fault.bounds ∧
      ¬ ∃ s1, ordered_built_store.sort (fuel + 4) = .ok s1 ∧
        s1.buffer = ordered_built_store.buffer := by
  have e : ordered_built_store.sort (fuel + 4) = .error Fault.bounds :=
    HashArray.built_sort_faults _ _ _ _ (by decide) (by decide) (by decide) (by omega)
  refine ⟨by decide, ?_, by decide, by decide, e, ?_⟩
  · intro i hi
    have hi2 : i + 1 < 2 := hi
    have hi0 : i = 0 := by omega
    subst hi0
    decide
  · rintro ⟨s1, e1, -⟩
    rw [e] at e1
    cases e1

/-- C10: on the store that the constructor builds over the records `00 05`, `00 01`, `00 05`,
`00 02`, `swap(1, 2)` on the valid indices 1 and 2 does not exchange the two records, and
`swap(1, 1)` does not leave the buffer as it is: the first copy of either call writes the two
bytes of record 1 into the scratch block of one byte. -/
theorem swap_built_store_faults :
    built_store.wf ∧ 1 < built_store.num_elements ∧ 2 < built_store.num_elements ∧
      built_store.record_at 1 = .ok [0, 1] ∧
      writeBytes built_store.temp 0 [0, 1] = .error Fault.bounds ∧
      built_store.swap 1 2 = .error Fault.bounds ∧
      built_store.swap 1 1 = .error Fault.bounds ∧
      (¬ ∃ s1, built_store.swap 1 2 = .ok s1 ∧ s1.record 1 = built_store.record 2 ∧
        s1.record 2 = built_store.record 1) ∧
      ¬ ∃ s1, built_store.swap 1 1 = .ok s1 ∧ s1.buffer = built_store.buffer := by
  have e12 : built_store.swap 1 2 = .error Fault.bounds := by decide
  have e11 : built_store.swap 1 1 = .error Fault.bounds := by decide
  refine ⟨by decide, by decide, by decide, by decide, by decide, e12, e11, ?_, ?_⟩
  · rintro ⟨s1, e1, -⟩
    rw [e12] at e1
    cases e1
  · rintro ⟨s1, e1, -⟩
    rw [e11] at e1
    cases e1

/-- C14: on the store that the constructor builds over the records `00 05`, `00 01`, `00 05`,
`00 02`, `partition(0, 3)` returns no boundary `p` and no partitioned store: the first record
below the pivot is record 1, and `swap(0, 1)` copies two bytes into the scratch block of one
byte. -/
theorem partition_built_store_faults (fuel : Nat) :
    built_store.wf ∧ 3 < built_store.num_elements ∧
      built_store.is_below 0 3 = .ok false ∧ built_store.is_below 1 3 = .ok true ∧
      built_store.swap 0 1 = .error Fault.bounds ∧
      built_store.partition (fuel + 5) 0 3 = .error Fault.bounds ∧
      ¬ ∃ s1 p, built_store.partition (fuel + 5) 0 3 = .ok (s1, p) ∧ 0 ≤ p ∧ p ≤ 3 ∧
        s1.record p = built_store.record 3 := by
  have e : built_store.partition (fuel + 5) 0 3 = .error Fault.bounds :=
    HashArray.built_partition_faults _ _ _ _ _ _ (by decide) (by decide) (by decide)
      (by decide) (by omega)
  refine ⟨by decide, by decide, by decide, by decide, by decide, e, ?_⟩
  rintro ⟨s1, p, e1, -⟩
  rw [e] at e1
  cases e1

/-- C15: `increase(v)` on the new table for records of 524289 bytes, with `v` the record of
524289 zero bytes: no entry holds `v`, and the call does not append the entry `(v, 1)`. The
growth gives the value block `524289 * 8192 mod 2^32 = 8192` bytes, and the copy of the 524289
bytes of `v` to offset 0 runs past its end. -/
theorem increase_wide_value_faults :
    (List.replicate 524289 0).length = (HashCount.new 524289).hash_size ∧
      (HashCount.new 524289).num_items = 0 ∧
      (HashCount.new 524289).find (List.replicate 524289 0) = .ok none ∧
      (HashCount.new 524289).grow.block.length = 8192 ∧
      (HashCount.new 524289).increase (List.replicate 524289 0) = .error Fault.bounds ∧
      ¬ ∃ hc1, (HashCount.new 524289).increase (List.replicate 524289 0) = .ok hc1 ∧
        hc1.num_items = 1 := by
  have e : (HashCount.new 524289).increase (List.replicate 524289 0) = .error Fault.bounds :=
    HashCount.increase_new_overflow 524289 _ (List.length_replicate _ _) (by decide)
  refine ⟨List.length_replicate _ _, rfl, rfl, ?_, e, ?_⟩
  · rw [HashCount.block_grow_new, List.length_replicate]
    decide
  · rintro ⟨hc1, e1, -⟩
    rw [e] at e1
    cases e1

/-! ## The tables that the collision scan reaches -/

theorem scan_loop_reachable (s : HashArray) (h : s.wf) :
    ∀ (n i prev : Nat) (hc hc1 : HashCount) (k : Nat), prev < s.num_elements →
      i + n ≤ s.num_elements → HashCount.Reachable s.hash_size k hc →
      scan_loop s n i prev hc = .ok hc1 →
      ∃ k1, k ≤ k1 ∧ k1 ≤ k + n ∧ HashCount.Reachable s.hash_size k1 hc1 := by
  intro n
  induction n with
  | zero =>
    intro i prev hc hc1 k _ _ hr e
    rw [scan_loop] at e
    cases e
    exact ⟨k, le_refl _, by omega, hr⟩
  | succ n ih =>
    intro i prev hc hc1 k hp hi hr e
    have hin : i < s.num_elements := by omega
    rw [scan_loop, HashArray.record_at_eq h hin, HashArray.record_at_eq h hp] at e
    change (if memcmp (s.record i) (s.record prev) = 0 then _ else _) = _ at e
    by_cases hm : memcmp (s.record i) (s.record prev) = 0
    · rw [if_pos hm] at e
      cases hinc : hc.increase (s.record i) with
      | error f =>
        rw [hinc] at e
        cases e
      | ok hc2 =>
        rw [hinc] at e
        have hr2 := HashCount.Reachable.step hr (HashArray.length_record h hin) hinc
        obtain ⟨k1, h1, h2, h3⟩ := ih (i + 1) prev hc2 hc1 (k + 1) hp (by omega) hr2 e
        exact ⟨k1, by omega, by omega, h3⟩
    · rw [if_neg hm] at e
      obtain ⟨k1, h1, h2, h3⟩ := ih (i + 1) i hc hc1 k hin (by omega) hr e
      exact ⟨k1, h1, by omega, h3⟩

theorem scan_reachable (s : HashArray) (h : s.wf) (hc : HashCount) (e : scan s = .ok hc) :
    ∃ k, k ≤ s.num_elements - 1 ∧ k < SIZE_MOD ∧ HashCount.Reachable s.hash_size k hc := by
  have hN := h.2.2
  unfold scan at e
  by_cases hn : s.num_elements = 0
  · rw [hn, scan_loop] at e
    cases e
    exact ⟨0, Nat.zero_le _, by omega, HashCount.Reachable.init⟩
  · obtain ⟨k1, -, h2, h3⟩ := scan_loop_reachable s h _ _ _ _ _ 0 (by omega) (by omega)
      HashCount.Reachable.init e
    exact ⟨k1, by omega, by omega, h3⟩

end DiskHash
